import Mathlib

/-!
# privacy-kit: Nitro enclave environment handoff

A shallow embedding of

* `docker/nitro-host/env-server.go`  (the Env Provider), and
* `docker/nitro-enclave/boot.go`     (the Boot Handoff),

together with the parts of the Go standard library the two programs call
(`strings`, `bufio`, `os`/`syscall` environment, `encoding/json`,
`unicode/utf8`, `unicode/utf16`).

Go strings are byte sequences: a string is a list of bytes, a byte is a
natural number below 256.
-/

namespace PrivacyKit

/-! ## Bytes and strings -/

/-- A Go string: an immutable sequence of bytes. -/
abbrev Str := List Nat

/-- The bytes of an ASCII literal. -/
def bs (s : String) : Str := s.toList.map Char.toNat

/-- Every element is a byte (below 256). -/
def isBytes (s : Str) : Prop := ∀ b ∈ s, b < 256

/-- Go `strings.IndexByte`: index of the first `c` in `s`, or `-1`. -/
def indexByte : Str → Nat → Int
  | [], _ => -1
  | b :: s, c =>
    if b = c then 0
    else
      let r := indexByte s c
      if r < 0 then -1 else r + 1

/-- Go `strings.HasPrefix`-like test used for `strings.Contains`. -/
def hasPrefix (s p : Str) : Bool := p.isPrefixOf s

/-- Go `strings.Contains(s, substr)`. -/
def contains : Str → Str → Bool
  | [], sub => sub.isEmpty
  | b :: s, sub => hasPrefix (b :: s) sub || contains s sub

/-- Go `strings.Join(elems, sep)`. -/
def join : List Str → Str → Str
  | [], _ => []
  | [a], _ => a
  | a :: b :: rest, sep => a ++ sep ++ join (b :: rest) sep

/-! ## Go maps `map[string]string`

A map is kept as an association list with pairwise distinct keys; the order
of the list carries no meaning (Go iterates maps in an unspecified order). -/

/-- A Go `map[string]string`. -/
abbrev GoMap := List (Str × Str)

/-- The assignment `m[k] = v`. -/
def GoMap.set : GoMap → Str → Str → GoMap
  | [], k, v => [(k, v)]
  | (k', v') :: m, k, v =>
    if k' = k then (k', v) :: m else (k', v') :: GoMap.set m k v

/-- The lookup `m[k]` with presence. -/
def GoMap.get : GoMap → Str → Option Str
  | [], _ => none
  | (k', v') :: m, k => if k' = k then some v' else GoMap.get m k

/-- The keys of a map. -/
def GoMap.keys (m : GoMap) : List Str := m.map Prod.fst

/-! ## The process environment (`syscall.copyenv`, `os.Environ`) -/

/-- The byte `'='`. -/
def eqByte : Nat := 61

/-- The raw key of an entry: the text before the first `=`. -/
def rawKey (e : Str) : Str := e.takeWhile (fun b => b != eqByte)

/-- The raw value of an entry: the text after the first `=`. -/
def rawValue (e : Str) : Str := (e.dropWhile (fun b => b != eqByte)).drop 1

/-- The key under which `copyenv` indexes an entry: the text before its first `=`;
an entry without `=` has no key. -/
def envKey (s : Str) : Option Str :=
  if s.contains eqByte then some (rawKey s) else none

/-- The function `copyenv`: the first entry of each key is kept, later entries of the
same key are cleared; entries without `=` stay. -/
def copyenvFrom (seen : List Str) : List Str → List Str
  | [] => []
  | s :: rest =>
    match envKey s with
    | none => s :: copyenvFrom seen rest
    | some key =>
      if key ∈ seen then copyenvFrom seen rest
      else s :: copyenvFrom (key :: seen) rest

/-- The environment table after `copyenv`. -/
def copyenv (envs : List Str) : List Str := copyenvFrom [] envs

/-- Go `os.Environ()`: the entries of the table that are not empty. -/
def osEnviron (envs : List Str) : List Str := envs.filter (fun s => !s.isEmpty)

/-! ## `env-server.go`: the Env Provider -/

/-- The marker prefix, `prefix := "ENCLAVE_"`. -/
def enclavePrefix : Str := bs "ENCLAVE_"

/-- One iteration of the loop over `os.Environ()` in `env-server.go`. -/
def snapshotStep (pfx : Str) (env : GoMap) (kv : Str) : GoMap :=
  let i := indexByte kv eqByte
  if i > 0 then
    let key := kv.take i.toNat
    let val := kv.drop (i.toNat + 1)
    if key.length > pfx.length ∧ key.take pfx.length = pfx then
      GoMap.set env (key.drop pfx.length) val
    else env
  else env

/-- The loop of lines 20 to 31 over the entries `environ` that `os.Environ()` returned,
started on the empty map of line 18. -/
def snapshotLoop (environ : List Str) (pfx : Str) : GoMap :=
  environ.foldl (snapshotStep pfx) []

/-- The snapshot built at start-up (lines 18 to 31) by a process started with the
environment block `envs`: `env := map[string]string{}` followed by the loop over
`os.Environ()`, which is the block after `copyenv` without its empty entries. -/
def buildSnapshot (envs : List Str) (pfx : Str) : GoMap :=
  snapshotLoop (osEnviron (copyenv envs)) pfx

/-! ### The specification's reading of an environment entry -/

/-- An entry qualifies when it has an `=` and its raw key starts with the prefix
and is strictly longer than it. -/
def qualifies (pfx : Str) (e : Str) : Bool :=
  e.contains eqByte && pfx.isPrefixOf (rawKey e) && decide (pfx.length < (rawKey e).length)

/-- The prefix-stripped key/value pair of an entry. -/
def strippedPair (pfx : Str) (e : Str) : Str × Str :=
  ((rawKey e).drop pfx.length, rawValue e)

/-! ## `unicode/utf8` and `unicode/utf16`

Runes are natural numbers.  The bit operations of the Go code are written
arithmetically: `x >> k` is `x / 2^k`, `x & (2^k - 1)` is `x % 2^k`, and
`t | x` with disjoint bits is `t + x`. -/

/-- The rune `utf8.RuneError`, U+FFFD (also `unicode.ReplacementChar`). -/
def runeError : Nat := 0xFFFD

/-- Go `utf8.DecodeRune` (and `utf8.DecodeRuneInString`): the first rune of `p` and
its width in bytes; `(RuneError, 1)` for an invalid encoding, `(RuneError, 0)` for
empty input. -/
def decodeRune (p : List Nat) : Nat × Nat :=
  match p with
  | [] => (runeError, 0)
  | p0 :: t =>
    if p0 < 0x80 then (p0, 1)
    else if p0 < 0xC2 ∨ 0xF4 < p0 then (runeError, 1)
    else
      let sz := if p0 < 0xE0 then 2 else if p0 < 0xF0 then 3 else 4
      let lo := if p0 = 0xE0 then 0xA0 else if p0 = 0xF0 then 0x90 else 0x80
      let hi := if p0 = 0xED then 0x9F else if p0 = 0xF4 then 0x8F else 0xBF
      if p.length < sz then (runeError, 1)
      else
        match t with
        | [] => (runeError, 1)
        | b1 :: t1 =>
          if b1 < lo ∨ hi < b1 then (runeError, 1)
          else if sz ≤ 2 then ((p0 % 32) * 64 + b1 % 64, 2)
          else
            match t1 with
            | [] => (runeError, 1)
            | b2 :: t2 =>
              if b2 < 0x80 ∨ 0xBF < b2 then (runeError, 1)
              else if sz ≤ 3 then ((p0 % 16) * 4096 + (b1 % 64) * 64 + b2 % 64, 3)
              else
                match t2 with
                | [] => (runeError, 1)
                | b3 :: _ =>
                  if b3 < 0x80 ∨ 0xBF < b3 then (runeError, 1)
                  else ((p0 % 8) * 262144 + (b1 % 64) * 4096 + (b2 % 64) * 64 + b3 % 64, 4)

/-- Go `utf8.EncodeRune`: the UTF-8 encoding of a rune; surrogates and values
above U+10FFFF are encoded as U+FFFD. -/
def encodeRune (r : Nat) : List Nat :=
  if r ≤ 0x7F then [r]
  else if r ≤ 0x7FF then [0xC0 + r / 64, 0x80 + r % 64]
  else if r < 0xD800 ∨ (0xDFFF < r ∧ r ≤ 0xFFFF) then
    [0xE0 + r / 4096, 0x80 + r / 64 % 64, 0x80 + r % 64]
  else if 0xFFFF < r ∧ r ≤ 0x10FFFF then
    [0xF0 + r / 262144, 0x80 + r / 4096 % 64, 0x80 + r / 64 % 64, 0x80 + r % 64]
  else [0xEF, 0xBF, 0xBD]

/-- Go `utf16.IsSurrogate`. -/
def isSurrogate (r : Nat) : Bool := decide (0xD800 ≤ r) && decide (r < 0xE000)

/-- Go `utf16.DecodeRune`: the rune of a surrogate pair, U+FFFD when the pair is
not valid.  The second argument is `none` where the Go code passes `-1`. -/
def utf16DecodeRune (r1 : Nat) (r2 : Option Nat) : Nat :=
  match r2 with
  | none => runeError
  | some r2 =>
    if 0xD800 ≤ r1 ∧ r1 < 0xDC00 ∧ 0xDC00 ≤ r2 ∧ r2 < 0xE000 then
      (r1 - 0xD800) * 1024 + (r2 - 0xDC00) + 0x10000
    else runeError

/-- A Unicode scalar value: a code point that is not a surrogate. -/
def isScalar (c : Nat) : Prop := c < 0xD800 ∨ (0xDFFF < c ∧ c ≤ 0x10FFFF)

instance isScalar.decidable (c : Nat) : Decidable (isScalar c) := by unfold isScalar; infer_instance

/-- A string is valid UTF-8 when it is the concatenation of the encodings of
Unicode scalar values. -/
def validUTF8 (s : Str) : Prop := ∃ cs : List Nat, (∀ c ∈ cs, isScalar c) ∧ s = cs.flatMap encodeRune

/-! ## `encoding/json`: the scanner (`scanner.go`) -/

/-- The op codes returned by the scanner's step functions. -/
inductive Op
  | scanContinue
  | scanBeginLiteral
  | scanBeginObject
  | scanObjectKey
  | scanObjectValue
  | scanEndObject
  | scanBeginArray
  | scanArrayValue
  | scanEndArray
  | scanSkipSpace
  | scanEnd
  | scanError
  deriving DecidableEq, Repr

/-- The entries of the scanner's parse-state stack. -/
inductive ParseState
  | parseObjectKey
  | parseObjectValue
  | parseArrayValue
  deriving DecidableEq, Repr

/-- The scanner's step functions, by name. -/
inductive StateFn
  | stateBeginValueOrEmpty
  | stateBeginValue
  | stateBeginStringOrEmpty
  | stateBeginString
  | stateEndValue
  | stateEndTop
  | stateInString
  | stateInStringEsc
  | stateInStringEscU
  | stateInStringEscU1
  | stateInStringEscU12
  | stateInStringEscU123
  | stateNeg
  | state1
  | state0
  | stateDot
  | stateDot0
  | stateE
  | stateESign
  | stateE0
  | stateT
  | stateTr
  | stateTru
  | stateF
  | stateFa
  | stateFal
  | stateFals
  | stateN
  | stateNu
  | stateNul
  | stateError
  deriving DecidableEq, Repr

/-- The scanner: current step function, whether the top-level value has ended,
the stack of open composite values (innermost first), and whether an error
was recorded. -/
structure Scanner where
  step : StateFn
  endTop : Bool
  parseState : List ParseState
  err : Bool
  deriving DecidableEq, Repr

/-- The limit `maxNestingDepth`. -/
def maxNestingDepth : Nat := 10000

/-- The method `(*scanner).reset`. -/
def Scanner.reset : Scanner :=
  { step := .stateBeginValue, endTop := false, parseState := [], err := false }

/-- The function `isSpace`. -/
def isSpace (c : Nat) : Bool := c = 32 || c = 9 || c = 13 || c = 10

/-- An ASCII decimal digit. -/
def isDigit (c : Nat) : Bool := decide (48 ≤ c) && decide (c ≤ 57)

/-- An ASCII hexadecimal digit. -/
def isHex (c : Nat) : Bool :=
  (decide (48 ≤ c) && decide (c ≤ 57)) || (decide (97 ≤ c) && decide (c ≤ 102))
    || (decide (65 ≤ c) && decide (c ≤ 70))

/-- The method `(*scanner).error`: record the error and switch to `stateError`. -/
def Scanner.error (s : Scanner) : Scanner × Op :=
  ({ s with step := .stateError, err := true }, .scanError)

/-- The method `(*scanner).pushParseState`. -/
def Scanner.pushParseState (s : Scanner) (newParseState : ParseState) (successState : Op) :
    Scanner × Op :=
  let s1 := { s with parseState := newParseState :: s.parseState }
  if s1.parseState.length ≤ maxNestingDepth then (s1, successState) else s1.error

/-- The method `(*scanner).popParseState`. -/
def Scanner.popParseState (s : Scanner) : Scanner :=
  let rest := s.parseState.tail
  if rest.length = 0 then { s with parseState := rest, step := .stateEndTop, endTop := true }
  else { s with parseState := rest, step := .stateEndValue }

/-- The step function `stateEndTop`. -/
def stateEndTop (s : Scanner) (c : Nat) : Scanner × Op :=
  if !isSpace c then (s.error.1, .scanEnd) else (s, .scanEnd)

/-- The step function `stateEndValue`. -/
def stateEndValue (s : Scanner) (c : Nat) : Scanner × Op :=
  match s.parseState with
  | [] => stateEndTop { s with step := .stateEndTop, endTop := true } c
  | ps :: rest =>
    if isSpace c then ({ s with step := .stateEndValue }, .scanSkipSpace)
    else
      match ps with
      | .parseObjectKey =>
        if c = 58 then
          ({ s with parseState := .parseObjectValue :: rest, step := .stateBeginValue },
            .scanObjectKey)
        else s.error
      | .parseObjectValue =>
        if c = 44 then
          ({ s with parseState := .parseObjectKey :: rest, step := .stateBeginString },
            .scanObjectValue)
        else if c = 125 then (s.popParseState, .scanEndObject)
        else s.error
      | .parseArrayValue =>
        if c = 44 then ({ s with step := .stateBeginValue }, .scanArrayValue)
        else if c = 93 then (s.popParseState, .scanEndArray)
        else s.error

/-- The step function `stateBeginValue`. -/
def stateBeginValue (s : Scanner) (c : Nat) : Scanner × Op :=
  if isSpace c then (s, .scanSkipSpace)
  else if c = 123 then
    Scanner.pushParseState { s with step := .stateBeginStringOrEmpty } .parseObjectKey
      .scanBeginObject
  else if c = 91 then
    Scanner.pushParseState { s with step := .stateBeginValueOrEmpty } .parseArrayValue
      .scanBeginArray
  else if c = 34 then ({ s with step := .stateInString }, .scanBeginLiteral)
  else if c = 45 then ({ s with step := .stateNeg }, .scanBeginLiteral)
  else if c = 48 then ({ s with step := .state0 }, .scanBeginLiteral)
  else if c = 116 then ({ s with step := .stateT }, .scanBeginLiteral)
  else if c = 102 then ({ s with step := .stateF }, .scanBeginLiteral)
  else if c = 110 then ({ s with step := .stateN }, .scanBeginLiteral)
  else if 49 ≤ c ∧ c ≤ 57 then ({ s with step := .state1 }, .scanBeginLiteral)
  else s.error

/-- The step function `stateBeginValueOrEmpty`. -/
def stateBeginValueOrEmpty (s : Scanner) (c : Nat) : Scanner × Op :=
  if isSpace c then (s, .scanSkipSpace)
  else if c = 93 then stateEndValue s c
  else stateBeginValue s c

/-- The step function `stateBeginString`. -/
def stateBeginString (s : Scanner) (c : Nat) : Scanner × Op :=
  if isSpace c then (s, .scanSkipSpace)
  else if c = 34 then ({ s with step := .stateInString }, .scanBeginLiteral)
  else s.error

/-- The step function `stateBeginStringOrEmpty`. -/
def stateBeginStringOrEmpty (s : Scanner) (c : Nat) : Scanner × Op :=
  if isSpace c then (s, .scanSkipSpace)
  else if c = 125 then
    stateEndValue { s with parseState := .parseObjectValue :: s.parseState.tail } c
  else stateBeginString s c

/-- The step function `stateInString`. -/
def stateInString (s : Scanner) (c : Nat) : Scanner × Op :=
  if c = 34 then ({ s with step := .stateEndValue }, .scanContinue)
  else if c = 92 then ({ s with step := .stateInStringEsc }, .scanContinue)
  else if c < 32 then s.error
  else (s, .scanContinue)

/-- The step function `stateInStringEsc`. -/
def stateInStringEsc (s : Scanner) (c : Nat) : Scanner × Op :=
  if c = 98 ∨ c = 102 ∨ c = 110 ∨ c = 114 ∨ c = 116 ∨ c = 92 ∨ c = 47 ∨ c = 34 then
    ({ s with step := .stateInString }, .scanContinue)
  else if c = 117 then ({ s with step := .stateInStringEscU }, .scanContinue)
  else s.error

/-- The step functions `stateInStringEscU`, `…U1`, `…U12`, `…U123`: one hexadecimal
digit each, moving on to `next`. -/
def stateHexDigit (next : StateFn) (s : Scanner) (c : Nat) : Scanner × Op :=
  if isHex c then ({ s with step := next }, .scanContinue) else s.error

/-- The step function `state0`. -/
def state0 (s : Scanner) (c : Nat) : Scanner × Op :=
  if c = 46 then ({ s with step := .stateDot }, .scanContinue)
  else if c = 101 ∨ c = 69 then ({ s with step := .stateE }, .scanContinue)
  else stateEndValue s c

/-- The step function `state1`. -/
def state1 (s : Scanner) (c : Nat) : Scanner × Op :=
  if isDigit c then ({ s with step := .state1 }, .scanContinue) else state0 s c

/-- The step function `stateNeg`. -/
def stateNeg (s : Scanner) (c : Nat) : Scanner × Op :=
  if c = 48 then ({ s with step := .state0 }, .scanContinue)
  else if 49 ≤ c ∧ c ≤ 57 then ({ s with step := .state1 }, .scanContinue)
  else s.error

/-- The step function `stateDot`. -/
def stateDot (s : Scanner) (c : Nat) : Scanner × Op :=
  if isDigit c then ({ s with step := .stateDot0 }, .scanContinue) else s.error

/-- The step function `stateDot0`. -/
def stateDot0 (s : Scanner) (c : Nat) : Scanner × Op :=
  if isDigit c then (s, .scanContinue)
  else if c = 101 ∨ c = 69 then ({ s with step := .stateE }, .scanContinue)
  else stateEndValue s c

/-- The step function `stateESign`. -/
def stateESign (s : Scanner) (c : Nat) : Scanner × Op :=
  if isDigit c then ({ s with step := .stateE0 }, .scanContinue) else s.error

/-- The step function `stateE`. -/
def stateE (s : Scanner) (c : Nat) : Scanner × Op :=
  if c = 43 ∨ c = 45 then ({ s with step := .stateESign }, .scanContinue)
  else stateESign s c

/-- The step function `stateE0`. -/
def stateE0 (s : Scanner) (c : Nat) : Scanner × Op :=
  if isDigit c then (s, .scanContinue) else stateEndValue s c

/-- The step functions that expect one fixed letter of `true`, `false` or `null`
(`stateT`, `stateTr`, …, `stateNul`), moving on to `next`. -/
def stateLetter (letter : Nat) (next : StateFn) (s : Scanner) (c : Nat) : Scanner × Op :=
  if c = letter then ({ s with step := next }, .scanContinue) else s.error

/-- The call `s.step(s, c)`: run the current step function on one byte. -/
def Scanner.stepFn (s : Scanner) (c : Nat) : Scanner × Op :=
  match s.step with
  | .stateBeginValueOrEmpty => stateBeginValueOrEmpty s c
  | .stateBeginValue => stateBeginValue s c
  | .stateBeginStringOrEmpty => stateBeginStringOrEmpty s c
  | .stateBeginString => stateBeginString s c
  | .stateEndValue => stateEndValue s c
  | .stateEndTop => stateEndTop s c
  | .stateInString => stateInString s c
  | .stateInStringEsc => stateInStringEsc s c
  | .stateInStringEscU => stateHexDigit .stateInStringEscU1 s c
  | .stateInStringEscU1 => stateHexDigit .stateInStringEscU12 s c
  | .stateInStringEscU12 => stateHexDigit .stateInStringEscU123 s c
  | .stateInStringEscU123 => stateHexDigit .stateInString s c
  | .stateNeg => stateNeg s c
  | .state1 => state1 s c
  | .state0 => state0 s c
  | .stateDot => stateDot s c
  | .stateDot0 => stateDot0 s c
  | .stateE => stateE s c
  | .stateESign => stateESign s c
  | .stateE0 => stateE0 s c
  | .stateT => stateLetter 114 .stateTr s c
  | .stateTr => stateLetter 117 .stateTru s c
  | .stateTru => stateLetter 101 .stateEndValue s c
  | .stateF => stateLetter 97 .stateFa s c
  | .stateFa => stateLetter 108 .stateFal s c
  | .stateFal => stateLetter 115 .stateFals s c
  | .stateFals => stateLetter 101 .stateEndValue s c
  | .stateN => stateLetter 117 .stateNu s c
  | .stateNu => stateLetter 108 .stateNul s c
  | .stateNul => stateLetter 108 .stateEndValue s c
  | .stateError => (s, .scanError)

/-- The method `(*scanner).eof`: the scanner is told the input has ended. -/
def Scanner.eof (s : Scanner) : Scanner × Op :=
  if s.err then (s, .scanError)
  else if s.endTop then (s, .scanEnd)
  else
    let s1 := (s.stepFn 32).1
    if s1.endTop then (s1, .scanEnd)
    else ({ s1 with err := true }, .scanError)

/-- The function `checkValid` behind `json.Valid`: the whole of `data` is one JSON
value, surrounded by optional white space. -/
def checkValidFrom : Scanner → List Nat → Bool
  | s, [] => decide ((s.eof).2 ≠ .scanError)
  | s, c :: rest =>
    let r := s.stepFn c
    if r.2 = .scanError then false else checkValidFrom r.1 rest

/-- Go `json.Valid(data)`. -/
def jsonValid (data : List Nat) : Bool := checkValidFrom Scanner.reset data

/-! ## `encoding/json`: decoding into a `map[string]string`

The connection delivers the bytes of a finite stream and then reports how the
stream ends. -/

/-- What a read returns once the bytes of the stream are used up: `io.EOF` or
another error. -/
inductive ReadEnd
  | eof
  | err
  deriving DecidableEq, Repr

/-- The errors `(*Decoder).Decode` can return, by kind. -/
inductive JsonErr
  /-- A `*json.SyntaxError` of the scanner. -/
  | syntaxError
  /-- The error `io.ErrUnexpectedEOF`: the stream ended inside a value. -/
  | unexpectedEOF
  /-- The error `io.EOF`: the stream ended before any value. -/
  | eof
  /-- The error of the underlying reader. -/
  | readError
  /-- A `*json.UnmarshalTypeError`: the value does not fit `map[string]string`. -/
  | unmarshalType
  /-- The run-time panic "JSON decoder out of sync". -/
  | phasePanic
  deriving DecidableEq, Repr

/-- The function `nonSpace` of `stream.go`. -/
def nonSpace (b : List Nat) : Bool := b.any (fun c => !isSpace c)

/-- The method `(*Decoder).readValue`: scan the stream for one complete value and
return its length in bytes.  `buf` is everything read, `n` the number of bytes
scanned so far. -/
def readValueFrom (ending : ReadEnd) (buf : List Nat) : Scanner → List Nat → Nat →
    Except JsonErr Nat
  | s, [], n =>
    match ending with
    | .eof =>
      if (s.stepFn 32).2 = .scanEnd then .ok n
      else if nonSpace buf then .error .unexpectedEOF
      else .error .eof
    | .err => .error .readError
  | s, c :: rest, n =>
    let r := s.stepFn c
    match r.2 with
    | .scanEnd => .ok n
    | .scanEndObject =>
      if (stateEndValue r.1 32).2 = .scanEnd then .ok (n + 1)
      else readValueFrom ending buf r.1 rest (n + 1)
    | .scanEndArray =>
      if (stateEndValue r.1 32).2 = .scanEnd then .ok (n + 1)
      else readValueFrom ending buf r.1 rest (n + 1)
    | .scanError => .error .syntaxError
    | _ => readValueFrom ending buf r.1 rest (n + 1)

/-- The method `(*Decoder).readValue` on a fresh decoder. -/
def readValue (data : List Nat) (ending : ReadEnd) : Except JsonErr Nat :=
  readValueFrom ending data Scanner.reset data 0

/-! ### `unquoteBytes` -/

/-- The value of one hexadecimal digit, as in the loop of `getu4`. -/
def hexVal (c : Nat) : Option Nat :=
  if 48 ≤ c ∧ c ≤ 57 then some (c - 48)
  else if 97 ≤ c ∧ c ≤ 102 then some (c - 97 + 10)
  else if 65 ≤ c ∧ c ≤ 70 then some (c - 65 + 10)
  else none

/-- The function `getu4`: the rune of a leading `\uXXXX`, `none` where the Go code
returns `-1`. -/
def getu4 (s : List Nat) : Option Nat :=
  match s with
  | 92 :: 117 :: a :: b :: c :: d :: _ =>
    match hexVal a, hexVal b, hexVal c, hexVal d with
    | some a, some b, some c, some d => some (((a * 16 + b) * 16 + c) * 16 + d)
    | _, _, _, _ => none
  | _ => none

/-- The first loop of `unquoteBytes`: the length `r` of the longest prefix without
"unusual" characters (backslash, quote, control characters, invalid UTF-8). -/
def unquoteScan : Nat → List Nat → Nat
  | 0, _ => 0
  | _, [] => 0
  | fuel + 1, c :: rest =>
    if c = 92 ∨ c = 34 ∨ c < 32 then 0
    else if c < 0x80 then 1 + unquoteScan fuel rest
    else
      let d := decodeRune (c :: rest)
      if d.1 = runeError ∧ d.2 = 1 then 0
      else d.2 + unquoteScan fuel ((c :: rest).drop d.2)

/-- The second loop of `unquoteBytes`: unquote `s`, `none` on a malformed escape,
a bare quote or a control character. -/
def unquoteLoop : Nat → List Nat → Option (List Nat)
  | 0, [] => some []
  | 0, _ :: _ => none
  | _ + 1, [] => some []
  | fuel + 1, c :: rest =>
    if c = 92 then
      match rest with
      | [] => none
      | e :: rest2 =>
        if e = 34 ∨ e = 92 ∨ e = 47 ∨ e = 39 then (unquoteLoop fuel rest2).map (e :: ·)
        else if e = 98 then (unquoteLoop fuel rest2).map (8 :: ·)
        else if e = 102 then (unquoteLoop fuel rest2).map (12 :: ·)
        else if e = 110 then (unquoteLoop fuel rest2).map (10 :: ·)
        else if e = 114 then (unquoteLoop fuel rest2).map (13 :: ·)
        else if e = 116 then (unquoteLoop fuel rest2).map (9 :: ·)
        else if e = 117 then
          match getu4 (c :: rest) with
          | none => none
          | some rr =>
            let after := (c :: rest).drop 6
            if isSurrogate rr then
              let dec := utf16DecodeRune rr (getu4 after)
              if dec ≠ runeError then
                (unquoteLoop fuel (after.drop 6)).map (encodeRune dec ++ ·)
              else (unquoteLoop fuel after).map (encodeRune runeError ++ ·)
            else (unquoteLoop fuel after).map (encodeRune rr ++ ·)
        else none
    else if c = 34 ∨ c < 32 then none
    else if c < 0x80 then (unquoteLoop fuel rest).map (c :: ·)
    else
      let d := decodeRune (c :: rest)
      (unquoteLoop fuel ((c :: rest).drop d.2)).map (encodeRune d.1 ++ ·)

/-- The function `unquoteBytes`: the string a quoted JSON string literal denotes. -/
def unquoteBytes (s : List Nat) : Option (List Nat) :=
  if s.length < 2 ∨ s.head? ≠ some 34 ∨ s.getLast? ≠ some 34 then none
  else
    let s := (s.drop 1).dropLast
    let r := unquoteScan s.length s
    if r = s.length then some s
    else (unquoteLoop s.length (s.drop r)).map (s.take r ++ ·)

/-! ### `decodeState` -/

/-- The reading position of a `decodeState`: `last` is the byte at
`d.readIndex()`, `rest` the bytes from `d.off` on, `opcode` the last op code and
`scan` the scanner. -/
structure DecodeState where
  last : Nat
  rest : List Nat
  opcode : Op
  scan : Scanner
  deriving Repr

/-- The method `(*decodeState).scanWhile`: step over bytes as long as the scanner
answers `op`. -/
def scanWhile (op : Op) : Scanner → Nat → List Nat → DecodeState
  | s, last, [] => { last := last, rest := [], opcode := (s.eof).2, scan := (s.eof).1 }
  | s, _, c :: rest =>
    let r := s.stepFn c
    if r.2 ≠ op then { last := c, rest := rest, opcode := r.2, scan := r.1 }
    else scanWhile op r.1 c rest

/-- The method `(*decodeState).scanNext`. -/
def scanNext (d : DecodeState) : DecodeState :=
  match d.rest with
  | [] => { d with opcode := (d.scan.eof).2, scan := (d.scan.eof).1 }
  | c :: rest =>
    let r := d.scan.stepFn c
    { last := c, rest := rest, opcode := r.2, scan := r.1 }

/-- The method `(*decodeState).skip`: scan to the end of the composite value that
was just opened; `depth` is the length of the parse-state stack on entry.  Running
off the end of the data is an index panic in Go. -/
def skipLoop (depth : Nat) : Scanner → List Nat → Option DecodeState
  | _, [] => none
  | s, c :: rest =>
    let r := s.stepFn c
    if r.1.parseState.length < depth then
      some { last := c, rest := rest, opcode := r.2, scan := r.1 }
    else skipLoop depth r.1 rest

/-- The method `(*decodeState).skip`. -/
def skip (d : DecodeState) : Option DecodeState :=
  skipLoop d.scan.parseState.length d.scan d.rest

/-- The string case of `rescanLiteral`: the bytes of the literal after its opening
quote (closing quote included) and the bytes after the literal. -/
def rescanString : List Nat → List Nat × List Nat
  | [] => ([], [])
  | c :: rest =>
    if c = 34 then ([34], rest)
    else if c = 92 then
      match rest with
      | [] => ([92], [])
      | e :: rest2 =>
        let r := rescanString rest2
        (92 :: e :: r.1, r.2)
    else
      let r := rescanString rest
      (c :: r.1, r.2)

/-- A byte that continues a number in `rescanLiteral`. -/
def isNumberByte (c : Nat) : Bool :=
  isDigit c || c = 46 || c = 101 || c = 69 || c = 43 || c = 45

/-- The method `(*decodeState).rescanLiteral`, called when the opening byte of a
literal (`d.last`) was just read: the literal and the state after it.  The byte
after the literal is given to `stateEndValue`. -/
def rescanLiteral (d : DecodeState) : List Nat × DecodeState :=
  let split : List Nat × List Nat :=
    if d.last = 34 then rescanString d.rest
    else if isDigit d.last ∨ d.last = 45 then
      (d.rest.takeWhile isNumberByte, d.rest.dropWhile isNumberByte)
    else if d.last = 116 then (d.rest.take 3, d.rest.drop 3)
    else if d.last = 102 then (d.rest.take 4, d.rest.drop 4)
    else if d.last = 110 then (d.rest.take 3, d.rest.drop 3)
    else ([], d.rest)
  match split.2 with
  | [] => (d.last :: split.1, { d with rest := [], opcode := .scanEnd })
  | c :: rest =>
    let r := stateEndValue d.scan c
    (d.last :: split.1, { last := c, rest := rest, opcode := r.2, scan := r.1 })

/-- The result of decoding one value of an object member into the map's element
type `string`: the element stored, whether an `UnmarshalTypeError` was saved,
and the state after the value. -/
structure ElemResult where
  elem : Str
  typeError : Bool
  next : DecodeState
  deriving Repr

/-- The method `(*decodeState).value` for a target of kind `string` (the element of
the map): arrays and objects are a type error and are skipped, `null` leaves the
zero value, `true`, `false` and numbers are a type error, a string literal is
unquoted and stored. -/
def valueString (d : DecodeState) : Except JsonErr ElemResult :=
  match d.opcode with
  | .scanBeginArray =>
    match skip d with
    | none => .error .phasePanic
    | some d1 => .ok { elem := [], typeError := true, next := scanNext d1 }
  | .scanBeginObject =>
    match skip d with
    | none => .error .phasePanic
    | some d1 => .ok { elem := [], typeError := true, next := scanNext d1 }
  | .scanBeginLiteral =>
    let r := rescanLiteral d
    let item := r.1
    if d.last = 110 then .ok { elem := [], typeError := false, next := r.2 }
    else if d.last = 116 ∨ d.last = 102 then .ok { elem := [], typeError := true, next := r.2 }
    else if d.last = 34 then
      match unquoteBytes item with
      | none => .error .phasePanic
      | some s => .ok { elem := s, typeError := false, next := r.2 }
    else if d.last ≠ 45 ∧ (d.last < 48 ∨ d.last > 57) then .error .phasePanic
    else .ok { elem := [], typeError := true, next := r.2 }
  | _ => .error .phasePanic

/-- The statement `if d.opcode == scanSkipSpace { d.scanWhile(scanSkipSpace) }`. -/
def skipSpaceIf (d : DecodeState) : DecodeState :=
  if d.opcode = .scanSkipSpace then scanWhile .scanSkipSpace d.scan d.last d.rest else d

/-- The state of the member loop of `(*decodeState).object`. -/
structure ObjectResult where
  m : GoMap
  typeError : Bool
  next : DecodeState
  deriving Repr

/-- The member loop of `(*decodeState).object` for a target of type
`map[string]string`; `d` is the state after the opening brace or after a comma. -/
def objectLoop : Nat → DecodeState → GoMap → Bool → Except JsonErr ObjectResult
  | 0, _, _, _ => .error .phasePanic
  | fuel + 1, d, m, te =>
    -- Read opening " of string key or closing }.
    let d1 := scanWhile .scanSkipSpace d.scan d.last d.rest
    if d1.opcode = .scanEndObject then .ok { m := m, typeError := te, next := d1 }
    else if d1.opcode ≠ .scanBeginLiteral then .error .phasePanic
    else
      -- Read key.
      let r := rescanLiteral d1
      match unquoteBytes r.1 with
      | none => .error .phasePanic
      | some key =>
        -- Read : before value.
        let d2 := skipSpaceIf r.2
        if d2.opcode ≠ .scanObjectKey then .error .phasePanic
        else
          let d3 := scanWhile .scanSkipSpace d2.scan d2.last d2.rest
          match valueString d3 with
          | .error e => .error e
          | .ok v =>
            -- Write value back to map.
            let m1 := GoMap.set m key v.elem
            -- Next token must be , or }.
            let d4 := skipSpaceIf v.next
            if d4.opcode = .scanEndObject then
              .ok { m := m1, typeError := te || v.typeError, next := d4 }
            else if d4.opcode ≠ .scanObjectValue then .error .phasePanic
            else objectLoop fuel d4 m1 (te || v.typeError)

/-- The method `(*decodeState).unmarshal` for a pointer to a nil
`map[string]string`: a top-level object fills a fresh map, `null` leaves the map
nil (no entries), anything else is an `UnmarshalTypeError`. -/
def unmarshal (data : List Nat) : Except JsonErr GoMap :=
  let d := scanWhile .scanSkipSpace Scanner.reset 0 data
  match d.opcode with
  | .scanBeginArray =>
    match skip d with
    | none => .error .phasePanic
    | some _ => .error .unmarshalType
  | .scanBeginObject =>
    match objectLoop (data.length + 1) d [] false with
    | .error e => .error e
    | .ok r => if r.typeError then .error .unmarshalType else .ok r.m
  | .scanBeginLiteral =>
    let r := rescanLiteral d
    if d.last = 110 then .ok []
    else if d.last = 116 ∨ d.last = 102 then .error .unmarshalType
    else if d.last = 34 then
      match unquoteBytes r.1 with
      | none => .error .phasePanic
      | some _ => .error .unmarshalType
    else if d.last ≠ 45 ∧ (d.last < 48 ∨ d.last > 57) then .error .phasePanic
    else .error .unmarshalType
  | _ => .error .phasePanic

/-- The call `json.NewDecoder(reader).Decode(&env)` with `var env map[string]string`:
read one value from the stream, then unmarshal it. -/
def jsonDecode (data : List Nat) (ending : ReadEnd) : Except JsonErr GoMap :=
  match readValue data ending with
  | .error e => .error e
  | .ok n => unmarshal (data.take n)

/-! ## `encoding/json`: encoding a `map[string]string` -/

/-- The digits of `const hex = "0123456789abcdef"`. -/
def hexDigit (n : Nat) : Nat := if n < 10 then 48 + n else 97 + (n - 10)

/-- The table `htmlSafeSet`: ASCII bytes written as they are when HTML escaping is
on, that is all but the control characters, `"`, `&`, `<`, `>` and `\`. -/
def htmlSafe (b : Nat) : Bool :=
  decide (32 ≤ b) && b != 34 && b != 38 && b != 60 && b != 62 && b != 92

/-- The loop of `appendString` with `escapeHTML` set: the body of the quoted
string. -/
def appendStringLoop : Nat → List Nat → List Nat
  | 0, _ => []
  | _, [] => []
  | fuel + 1, b :: rest =>
    if b < 0x80 then
      if htmlSafe b then b :: appendStringLoop fuel rest
      else if b = 92 ∨ b = 34 then 92 :: b :: appendStringLoop fuel rest
      else if b = 8 then 92 :: 98 :: appendStringLoop fuel rest
      else if b = 12 then 92 :: 102 :: appendStringLoop fuel rest
      else if b = 10 then 92 :: 110 :: appendStringLoop fuel rest
      else if b = 13 then 92 :: 114 :: appendStringLoop fuel rest
      else if b = 9 then 92 :: 116 :: appendStringLoop fuel rest
      else 92 :: 117 :: 48 :: 48 :: hexDigit (b / 16) :: hexDigit (b % 16) ::
        appendStringLoop fuel rest
    else
      let d := decodeRune (b :: rest)
      if d.1 = runeError ∧ d.2 = 1 then
        [92, 117, 102, 102, 102, 100] ++ appendStringLoop fuel rest
      else if d.1 = 0x2028 ∨ d.1 = 0x2029 then
        [92, 117, 50, 48, 50, hexDigit (d.1 % 16)] ++
          appendStringLoop fuel ((b :: rest).drop d.2)
      else (b :: rest).take d.2 ++ appendStringLoop fuel ((b :: rest).drop d.2)

/-- The function `appendString(dst, src, escapeHTML = true)`: `src` as a quoted JSON
string. -/
def appendString (src : Str) : List Nat :=
  34 :: appendStringLoop src.length src ++ [34]

/-- Go `strings.Compare(a, b) <= 0`: bytewise lexicographic order. -/
def strLE : Str → Str → Bool
  | [], _ => true
  | _ :: _, [] => false
  | a :: s, b :: t => decide (a < b) || (a == b && strLE s t)

/-- The members of an encoded object, separated by commas. -/
def encodeMembers : List (Str × Str) → List Nat
  | [] => []
  | [kv] => appendString kv.1 ++ 58 :: appendString kv.2
  | kv :: kv2 :: rest =>
    appendString kv.1 ++ 58 :: appendString kv.2 ++ 44 :: encodeMembers (kv2 :: rest)

/-- The encoder `mapEncoder.encode` for a non-nil `map[string]string`: the keys are
sorted, the members written as `"key":"value"` between braces. -/
def mapEncode (m : GoMap) : List Nat :=
  123 :: encodeMembers (m.insertionSort (fun a b => strLE a.1 b.1)) ++ [125]

/-- The call `json.NewEncoder(w).Encode(env)`: the encoded map followed by a
newline. -/
def jsonEncode (m : GoMap) : List Nat := mapEncode m ++ [10]

/-! ## The process environment: `syscall.Setenv` and lookup -/

/-- The table update of `syscall.Setenv`: the entry of key `k` is replaced by
`k=v`, or `k=v` is appended when there is none. -/
def setenvEntries : List Str → Str → Str → List Str
  | [], k, v => [k ++ eqByte :: v]
  | s :: rest, k, v =>
    if envKey s = some k then (k ++ eqByte :: v) :: rest
    else s :: setenvEntries rest k v

/-- Go `os.Setenv(k, v)`: `none` is the error `EINVAL` (empty key, `=` or NUL in the
key, NUL in the value), in which case the table is unchanged. -/
def setenv (envs : List Str) (k v : Str) : Option (List Str) :=
  if k.length = 0 then none
  else if k.any (fun c => c == eqByte || c == 0) then none
  else if v.any (fun c => c == 0) then none
  else some (setenvEntries envs k v)

/-- The value an environment block gives a key: the text after the first `=` of
the first entry whose text before the first `=` is the key. -/
def lookupEnv : List Str → Str → Option Str
  | [], _ => none
  | e :: rest, k =>
    if envKey e = some k then some (rawValue e) else lookupEnv rest k

/-! ## `boot.go`: the Boot Handoff -/

/-- The constant `hostCID`. -/
def hostCID : Nat := 3

/-- The constant `port`. -/
def port : Nat := 1025

/-- The constant `path`. -/
def path : Str := bs "/env"

/-- Everything outside the program that a run of `main` depends on. -/
structure World where
  /-- The argument vector `os.Args`. -/
  args : List Str
  /-- Whether `vsock.Dial` succeeds. -/
  dialOk : Bool
  /-- Whether `conn.Write` succeeds. -/
  writeOk : Bool
  /-- The bytes the connection delivers to reads. -/
  response : List Nat
  /-- How reads end once the bytes are used up. -/
  ending : ReadEnd
  /-- The environment table of the process at start-up. -/
  environ : List Str
  /-- The order in which `range env` visits the entries of a map. -/
  rangeOrder : GoMap → List (Str × Str)
  /-- Whether `syscall.Exec` succeeds. -/
  execOk : Bool

/-- The calls to the outside made by a run, in order. -/
inductive Event
  /-- The call `vsock.Dial(cid, port, nil)`. -/
  | dial (cid port : Nat)
  /-- The call `conn.Write(data)` and whether it succeeded. -/
  | write (data : Str) (ok : Bool)
  /-- A call `reader.ReadString` for the status line. -/
  | readStatusLine
  /-- A call `reader.ReadString` for a header line. -/
  | readHeaderLine
  /-- The call `dec.Decode(&env)`. -/
  | decodeBody
  /-- The call `os.Setenv(k, v)`. -/
  | setenv (k v : Str)
  /-- The call `syscall.Exec(argv0, argv, envv)`. -/
  | exec (argv0 : Str) (argv : List Str) (envv : List Str)
  deriving DecidableEq, Repr

/-- The `log.Fatalf` calls of `main`. -/
inductive FatalSite
  /-- The message "usage: boot <command> [args...]". -/
  | usage
  /-- The message "dial vsock: …". -/
  | dialVsock
  /-- The message "reading status line: …". -/
  | readingStatusLine
  /-- The message "unexpected response: …". -/
  | unexpectedResponse
  /-- The message "reading headers: …". -/
  | readingHeaders
  /-- The message "decode: …". -/
  | decode
  /-- The message "exec: …". -/
  | exec
  deriving DecidableEq, Repr

/-- The error taxonomy of the specification. -/
inductive ErrorKind
  | usageError
  | channelError
  | protocolError
  | decodeError
  | execError
  deriving DecidableEq, Repr

/-- The kind of error each fatal exit of `main` reports. -/
def FatalSite.kind : FatalSite → ErrorKind
  | .usage => .usageError
  | .dialVsock => .channelError
  | .readingStatusLine => .channelError
  | .unexpectedResponse => .protocolError
  | .readingHeaders => .channelError
  | .decode => .decodeError
  | .exec => .execError

/-- How a run ends. -/
inductive Outcome
  /-- The call `log.Fatalf`: the process exits with status 1. -/
  | fatal (site : FatalSite)
  /-- A run-time panic. -/
  | panicked
  /-- The call `syscall.Exec` succeeded: the process image is the daemon. -/
  | replaced
  deriving DecidableEq, Repr

/-- The states of the Boot Handoff state machine. -/
inductive HandoffState
  | start
  | connected
  | fetched
  | environmentInstalled
  | replaced
  deriving DecidableEq, Repr

/-- A run of `main`: its calls to the outside, the last state of the state
machine it reached, the environment table of the process when the run ends, and
how it ended. -/
structure Run where
  events : List Event
  state : HandoffState
  environ : List Str
  outcome : Outcome
  deriving DecidableEq, Repr

/-- Go `(*bufio.Reader).ReadString(delim)` on the bytes still to be read: the line up
to and including the first `delim` and the bytes after it; `none` when the stream
ends (with `io.EOF` or an error) before a `delim`. -/
def readString : List Nat → Nat → Option (Str × List Nat)
  | [], _ => none
  | b :: rest, delim =>
    if b = delim then some ([b], rest)
    else (readString rest delim).map (fun r => (b :: r.1, r.2))

/-- The loop "skip headers until we hit an empty line": the number of `ReadString`
calls made, and the bytes after the line `"\r\n"`, or `none` when a read
failed. -/
def skipHeaders : Nat → List Nat → Nat × Option (List Nat)
  | 0, _ => (0, none)
  | fuel + 1, data =>
    match readString data 10 with
    | none => (1, none)
    | some (line, rest) =>
      if line = [13, 10] then (1, some rest)
      else
        let r := skipHeaders fuel rest
        (r.1 + 1, r.2)

/-- The request written to the connection. -/
def request : Str := bs "GET " ++ path ++ bs " HTTP/1.1\r\nHost: localhost\r\n\r\n"

/-- The result of the fetch phase of `main` (lines 25 to 63): the calls made, and
the decoded map or the way the run ended. -/
structure Fetch where
  events : List Event
  state : HandoffState
  result : Except Outcome GoMap

/-- Lines 25 to 63 of `main`: dial, write the request, read the status line, skip
the headers, decode the body. -/
def fetchEnvironment (w : World) : Fetch :=
  if !w.dialOk then
    { events := [.dial hostCID port], state := .start, result := .error (.fatal .dialVsock) }
  else
    let ev1 : List Event := [.dial hostCID port, .write request w.writeOk, .readStatusLine]
    match readString w.response 10 with
    | none => { events := ev1, state := .connected, result := .error (.fatal .readingStatusLine) }
    | some (statusLine, rest) =>
      if !contains statusLine (bs "200 OK") then
        { events := ev1, state := .connected, result := .error (.fatal .unexpectedResponse) }
      else
        let h := skipHeaders (rest.length + 1) rest
        let ev2 := ev1 ++ List.replicate h.1 Event.readHeaderLine
        match h.2 with
        | none =>
          { events := ev2, state := .connected, result := .error (.fatal .readingHeaders) }
        | some body =>
          match jsonDecode body w.ending with
          | .error .phasePanic =>
            { events := ev2 ++ [.decodeBody], state := .connected, result := .error .panicked }
          | .error _ =>
            { events := ev2 ++ [.decodeBody], state := .connected,
              result := .error (.fatal .decode) }
          | .ok env =>
            { events := ev2 ++ [.decodeBody], state := .fetched, result := .ok env }

/-- Lines 65 to 68 of `main`: `os.Setenv` for each pair of the map, in the order of
`range`; the error of `os.Setenv` is not looked at. -/
def installEnvironment (envs : List Str) (pairs : List (Str × Str)) : List Str :=
  pairs.foldl (fun e kv => (setenv e kv.1 kv.2).getD e) envs

/-- The daemon binary, `cmd := "/proxy/nitriding-daemon"`. -/
def daemonCmd : Str := bs "/proxy/nitriding-daemon"

/-- The argument vector `args` of lines 72 to 79. -/
def daemonArgs (osArgs : List Str) : List Str :=
  [daemonCmd,
   bs "-fqdn", bs "localhost",
   bs "-extport", bs "8443",
   bs "-intport", bs "8081",
   bs "-appwebsrv", bs "http://localhost:8080",
   bs "-appcmd", join (osArgs.drop 1) (bs " ")]

/-- The function `main` of `boot.go`. -/
def main (w : World) : Run :=
  if w.args.length < 2 then
    { events := [], state := .start, environ := w.environ, outcome := .fatal .usage }
  else
    let f := fetchEnvironment w
    match f.result with
    | .error o => { events := f.events, state := f.state, environ := w.environ, outcome := o }
    | .ok env =>
      let pairs := w.rangeOrder env
      let envs := installEnvironment (copyenv w.environ) pairs
      let ev := f.events ++ pairs.map (fun kv => Event.setenv kv.1 kv.2) ++
        [Event.exec daemonCmd (daemonArgs w.args) (osEnviron envs)]
      if w.execOk then
        { events := ev, state := .replaced, environ := envs, outcome := .replaced }
      else
        { events := ev, state := .environmentInstalled, environ := envs, outcome := .fatal .exec }

/-- The environment of an `exec` event. -/
def Event.envOf : Event → Option (List Str)
  | .exec _ _ envv => some envv
  | _ => none

/-- The argument vector of an `exec` event. -/
def Event.argsOf : Event → Option (List Str)
  | .exec _ argv _ => some argv
  | _ => none

/-- The pair of a `setenv` event. -/
def Event.pairOf : Event → Option (Str × Str)
  | .setenv k v => some (k, v)
  | _ => none

/-- The environment handed to `syscall.Exec`, if the run got that far. -/
def Run.execEnv (r : Run) : Option (List Str) := r.events.findSome? Event.envOf

/-- The argument vector handed to `syscall.Exec`, if the run got that far. -/
def Run.execArgs (r : Run) : Option (List Str) := r.events.findSome? Event.argsOf

/-- The calls `os.Setenv` of a run. -/
def Run.setenvs (r : Run) : List (Str × Str) := r.events.filterMap Event.pairOf

/-- Whether the run made a call of the network: dial, write or read. -/
def Event.isNetwork : Event → Bool
  | .dial _ _ => true
  | .write _ _ => true
  | .readStatusLine => true
  | .readHeaderLine => true
  | .decodeBody => true
  | _ => false

/-- The end of the fetch phase, by the result of `Decode`. -/
def decodeResult : Except JsonErr GoMap → HandoffState × Except Outcome GoMap
  | .error .phasePanic => (.connected, .error .panicked)
  | .error _ => (.connected, .error (.fatal .decode))
  | .ok env => (.fetched, .ok env)

/-! ### The specification's reading of a response -/

/-- The header lines of a response: each line is followed by a line feed. -/
def headerBlock (lines : List (List Nat)) : List Nat :=
  (lines.map (fun l => l ++ [10])).flatten

/-- An entry the claim C2 calls irrelevant: it has no `=`, or its key does not start
with the prefix, or its key is exactly the prefix. -/
def notQualifying (pfx : Str) (e : Str) : Prop :=
  eqByte ∉ e ∨ ¬ pfx <+: rawKey e ∨ rawKey e = pfx

/-- The pairs `os.Setenv` accepts: the key is not empty and has no `=` and no NUL,
the value has no NUL. -/
def setenvAccepts (k v : Str) : Prop := k ≠ [] ∧ eqByte ∉ k ∧ 0 ∉ k ∧ 0 ∉ v

/-! ### Example worlds -/

/-- A response that is served in the examples: status line, three headers, the empty
line, and the body `{"API_KEY":"abc123"}` followed by a newline. -/
def sampleResponse : List Nat :=
  bs "HTTP/1.1 200 OK\r\nContent-Type: text/plain\r\nContent-Length: 21\r\n\r\n\x7b\"API_KEY\":\"abc123\"\x7d\n"

/-- A world in which every call succeeds. -/
def sampleWorld : World :=
  { args := [bs "boot", bs "run", bs "worker", bs "--flag"]
    dialOk := true
    writeOk := true
    response := sampleResponse
    ending := .eof
    environ := [bs "PATH=/usr/bin", bs "API_KEY=old"]
    rangeOrder := id
    execOk := true }

/-- A world whose response body is `{"A=B":"c"}`. -/
def badKeyWorld : World :=
  { sampleWorld with response := bs "HTTP/1.1 200 OK\r\n\r\n\x7b\"A=B\":\"c\"\x7d\n" }

/-- A world whose response body is `{"A":"1"}x`: a JSON object followed by a stray
byte. -/
def trailingGarbageWorld : World :=
  { sampleWorld with response := bs "HTTP/1.1 200 OK\r\n\r\n\x7b\"A\":\"1\"\x7dx" }

/-! ## The JSON text of an object of strings

The specification's reading of "a JSON object mapping string keys to string
values" (RFC 8259): white space, `{`, members `"key" : "value"` separated by commas,
`}`.  A string literal is a sequence of items; the text is UTF-8. -/

/-- The value of a hexadecimal digit. -/
def hexValue (c : Nat) : Nat :=
  if c ≤ 57 then c - 48 else if c ≤ 70 then c - 55 else c - 87

/-- The code unit written by four hexadecimal digits. -/
def hex4 (a b c d : Nat) : Nat :=
  ((hexValue a * 16 + hexValue b) * 16 + hexValue c) * 16 + hexValue d

/-- One item of a JSON string literal: an unescaped character, a two-character
escape, a `\uXXXX` escape, or a surrogate pair of two `\uXXXX` escapes. -/
inductive StrItem
  | plain (c : Nat)
  | esc (b : Nat)
  | uni (a b c d : Nat)
  | pair (a b c d e f g h : Nat)

/-- The items RFC 8259 allows: an unescaped character is a Unicode scalar value from
U+0020 on other than the quotation mark and the backslash; a two-character escape is
one of the eight of the grammar; a `\uXXXX` escape that stands alone is not a
surrogate; a pair is a high surrogate followed by a low one. -/
def StrItem.valid : StrItem → Prop
  | .plain c => isScalar c ∧ 0x20 ≤ c ∧ c ≠ 0x22 ∧ c ≠ 0x5C
  | .esc b => b = 34 ∨ b = 92 ∨ b = 47 ∨ b = 98 ∨ b = 102 ∨ b = 110 ∨ b = 114 ∨ b = 116
  | .uni a b c d =>
    isHex a = true ∧ isHex b = true ∧ isHex c = true ∧ isHex d = true ∧
      ¬ (0xD800 ≤ hex4 a b c d ∧ hex4 a b c d < 0xE000)
  | .pair a b c d e f g h =>
    isHex a = true ∧ isHex b = true ∧ isHex c = true ∧ isHex d = true ∧
    isHex e = true ∧ isHex f = true ∧ isHex g = true ∧ isHex h = true ∧
      0xD800 ≤ hex4 a b c d ∧ hex4 a b c d < 0xDC00 ∧
      0xDC00 ≤ hex4 e f g h ∧ hex4 e f g h < 0xE000

/-- The bytes of an item in the JSON text. -/
def StrItem.render : StrItem → List Nat
  | .plain c => encodeRune c
  | .esc b => [92, b]
  | .uni a b c d => [92, 117, a, b, c, d]
  | .pair a b c d e f g h => [92, 117, a, b, c, d, 92, 117, e, f, g, h]

/-- The character a two-character escape stands for. -/
def escapeChar (b : Nat) : Nat :=
  if b = 98 then 8 else if b = 102 then 12 else if b = 110 then 10
  else if b = 114 then 13 else if b = 116 then 9 else b

/-- The bytes (UTF-8) of the text an item stands for. -/
def StrItem.denote : StrItem → List Nat
  | .plain c => encodeRune c
  | .esc b => [escapeChar b]
  | .uni a b c d => encodeRune (hex4 a b c d)
  | .pair a b c d e f g h =>
    encodeRune ((hex4 a b c d - 0xD800) * 1024 + (hex4 e f g h - 0xDC00) + 0x10000)

/-- The bytes of the items of a string literal, without the quotes. -/
def renderItems (items : List StrItem) : List Nat := items.flatMap StrItem.render

/-- A string literal: the items between quotation marks. -/
def renderString (items : List StrItem) : List Nat := 34 :: renderItems items ++ [34]

/-- The string a literal stands for. -/
def denoteString (items : List StrItem) : Str := items.flatMap StrItem.denote

/-- JSON white space: space, tab, line feed, carriage return. -/
def isWhitespace (ws : List Nat) : Prop := ∀ b ∈ ws, b = 32 ∨ b = 9 ∨ b = 10 ∨ b = 13

/-- A member of an object of strings, with the white space around its tokens. -/
structure Member where
  ws1 : List Nat
  key : List StrItem
  ws2 : List Nat
  ws3 : List Nat
  val : List StrItem
  ws4 : List Nat

/-- A member is well-formed when its white space is white space and its items are
valid. -/
def Member.valid (m : Member) : Prop :=
  isWhitespace m.ws1 ∧ isWhitespace m.ws2 ∧ isWhitespace m.ws3 ∧ isWhitespace m.ws4 ∧
    (∀ i ∈ m.key, i.valid) ∧ (∀ i ∈ m.val, i.valid)

/-- The text of a member: `ws "key" ws : ws "value" ws`. -/
def Member.render (m : Member) : List Nat :=
  m.ws1 ++ (renderString m.key ++ (m.ws2 ++ 58 :: (m.ws3 ++ (renderString m.val ++ m.ws4))))

/-- The key and the value a member stands for. -/
def Member.pair (m : Member) : Str × Str := (denoteString m.key, denoteString m.val)

/-- The text of the members of an object, separated by commas. -/
def renderMembers : List Member → List Nat
  | [] => []
  | [m] => m.render
  | m :: m2 :: rest => m.render ++ 44 :: renderMembers (m2 :: rest)

/-- The text between the braces: the members, or white space when there are none. -/
def renderInner (wsE : List Nat) (members : List Member) : List Nat :=
  if members.isEmpty then wsE else renderMembers members

/-- The text of an object of strings: `ws { members }`. -/
def renderObject (ws0 wsE : List Nat) (members : List Member) : List Nat :=
  ws0 ++ 123 :: (renderInner wsE members ++ [125])

/-- The map an object of strings stands for; of members with the same key the last
one counts. -/
def objectMap (members : List Member) : GoMap :=
  (members.map Member.pair).foldl (fun m p => GoMap.set m p.1 p.2) []

/-! ## Vocabulary of the proofs about the scanner -/

/-- A scanner with no error recorded and the top-level value not ended. -/
def sk (step : StateFn) (ps : List ParseState) : Scanner :=
  { step := step, endTop := false, parseState := ps, err := false }

/-- The scanner steps over the bytes of `seg` from `s` to `t` without reporting the end
of a value, the closing of a composite or an error. -/
inductive Quiet : Scanner → List Nat → Scanner → Prop
  | nil (s : Scanner) : Quiet s [] s
  | cons (s t : Scanner) (c : Nat) (seg : List Nat)
      (h1 : (s.stepFn c).2 ≠ .scanEnd) (h2 : (s.stepFn c).2 ≠ .scanEndObject)
      (h3 : (s.stepFn c).2 ≠ .scanEndArray) (h4 : (s.stepFn c).2 ≠ .scanError)
      (h : Quiet (s.stepFn c).1 seg t) : Quiet s (c :: seg) t

/-- The states the scanner is in while `readValue` is still looking for the end of
the value: no error recorded, the top-level value not ended. -/
def ScanInv (s : Scanner) : Prop :=
  s.err = false ∧ s.endTop = false ∧ s.step ≠ .stateEndTop ∧ s.step ≠ .stateError ∧
    (s.step = .stateBeginValueOrEmpty → s.parseState ≠ [])

/-- The step functions that end a top-level value on the byte after it. -/
def endsValue : StateFn → Bool
  | .stateEndValue => true
  | .state0 => true
  | .state1 => true
  | .stateDot0 => true
  | .stateE0 => true
  | _ => false

/-- What one step of the scanner does under the invariant: it reports an error, or the
end of a top-level value that ended before the byte, or the closing of the top-level
composite, or it goes on under the invariant. -/
def StepClass (s : Scanner) (r : Scanner × Op) : Prop :=
  r.2 = .scanError ∨
  (r.2 = .scanEnd ∧ s.parseState = [] ∧ endsValue s.step = true) ∨
  ((r.2 = .scanEndObject ∨ r.2 = .scanEndArray) ∧
    r.1.parseState = [] ∧ r.1.endTop = true ∧ r.1.err = false) ∨
  (r.2 ≠ .scanEnd ∧ r.2 ≠ .scanError ∧ ScanInv r.1 ∧
    ((r.2 = .scanEndObject ∨ r.2 = .scanEndArray) → r.1.parseState ≠ []))

/-- The states in which white space is skipped and the scanner stays as it is. -/
def skipsSpace (step : StateFn) (ps : List ParseState) : Prop :=
  step = .stateBeginValue ∨ step = .stateBeginString ∨ step = .stateBeginStringOrEmpty ∨
    (step = .stateEndValue ∧ ps ≠ [])

/-- The states in which a string literal may begin. -/
def beginsString (step : StateFn) : Prop :=
  step = .stateBeginValue ∨ step = .stateBeginString ∨ step = .stateBeginStringOrEmpty

/-- An item that is a plain character. -/
def StrItem.isPlain : StrItem → Bool
  | .plain _ => true
  | _ => false

/-- The scanner after the closing brace of the top-level object. -/
def closed : Scanner :=
  { step := .stateEndTop, endTop := true, parseState := [], err := false }

/-- The items of a literal that writes every character of `s` unescaped. -/
def plainItems (s : Str) : List StrItem := s.map StrItem.plain

/-- The member `"API_KEY":"abc123"`. -/
def sampleMember : Member :=
  ⟨[], plainItems (bs "API_KEY"), [], [], plainItems (bs "abc123"), []⟩

/-- The item `appendString` writes for a character: itself, a two-character escape,
or a `\u00XX` escape (`\u202X` for the line and paragraph separators). -/
def encItem (c : Nat) : StrItem :=
  if c < 0x80 then
    if htmlSafe c then .plain c
    else if c = 92 ∨ c = 34 then .esc c
    else if c = 8 then .esc 98
    else if c = 12 then .esc 102
    else if c = 10 then .esc 110
    else if c = 13 then .esc 114
    else if c = 9 then .esc 116
    else .uni 48 48 (hexDigit (c / 16)) (hexDigit (c % 16))
  else if c = 0x2028 ∨ c = 0x2029 then .uni 50 48 50 (hexDigit (c % 16))
  else .plain c

/-- The member `"key":"value"` the encoder writes, given the items of the two
literals. -/
def encMember (key val : List StrItem) : Member := ⟨[], key, [], [], val, []⟩

/-! ## Lemmas: strings and maps -/

theorem indexByte_nonneg_or (s : Str) (c : Nat) : indexByte s c = -1 ∨ 0 ≤ indexByte s c := by
  induction s with
  | nil => left; rfl
  | cons b s ih =>
    simp only [indexByte]
    split
    · right; exact le_refl _
    · rcases ih with h | h
      · left; simp [h]
      · right
        have : ¬ indexByte s c < 0 := by omega
        simp only [this, if_false]; omega

theorem indexByte_of_not_mem (s : Str) (c : Nat) (h : c ∉ s) : indexByte s c = -1 := by
  induction s with
  | nil => rfl
  | cons b s ih =>
    simp only [List.mem_cons, not_or] at h
    have hb : ¬ b = c := fun e => h.1 e.symm
    simp [indexByte, hb, ih h.2]

theorem indexByte_of_mem (s : Str) (c : Nat) (h : c ∈ s) :
    indexByte s c = ((s.takeWhile (fun b => b != c)).length : Int) := by
  induction s with
  | nil => cases h
  | cons b s ih =>
    by_cases hb : b = c
    · simp [indexByte, hb, List.takeWhile]
    · have hm : c ∈ s := by
        rcases List.mem_cons.1 h with e | e
        · exact absurd e.symm hb
        · exact e
      have hne : (b != c) = true := by simpa using hb
      simp only [indexByte, hb, if_false, List.takeWhile, hne, ih hm, List.length_cons]
      have : ¬ ((List.takeWhile (fun b => b != c) s).length : Int) < 0 := by omega
      simp only [this, if_false]
      push_cast; ring

theorem take_takeWhile_length (p : Nat → Bool) (s : Str) :
    s.take (s.takeWhile p).length = s.takeWhile p := by
  induction s with
  | nil => rfl
  | cons b s ih =>
    by_cases h : p b = true
    · simp [List.takeWhile, h, ih]
    · simp [List.takeWhile, h]

theorem drop_takeWhile_length (p : Nat → Bool) (s : Str) :
    s.drop (s.takeWhile p).length = s.dropWhile p := by
  induction s with
  | nil => rfl
  | cons b s ih =>
    by_cases h : p b = true
    · simp [List.takeWhile, List.dropWhile, h, ih]
    · simp [List.takeWhile, List.dropWhile, h]

/-- One iteration of the provider's loop, in the specification's words. -/
theorem snapshotStep_eq (pfx : Str) (env : GoMap) (e : Str) :
    snapshotStep pfx env e =
      if qualifies pfx e = true then env.set (strippedPair pfx e).1 (strippedPair pfx e).2
      else env := by
  by_cases hm : eqByte ∈ e
  · have hi := indexByte_of_mem e eqByte hm
    have hc : e.contains eqByte = true := by simpa using hm
    simp only [snapshotStep, qualifies, strippedPair, rawKey, rawValue, hi, hc, Bool.true_and]
    by_cases h0 : (List.takeWhile (fun b => b != eqByte) e).length = 0
    · have hq : ¬ pfx.length < (List.takeWhile (fun b => b != eqByte) e).length := by omega
      simp [h0, hq]
    · have hpos : ((List.takeWhile (fun b => b != eqByte) e).length : Int) > 0 := by omega
      simp only [hpos, if_true, Int.toNat_ofNat, take_takeWhile_length]
      rw [← List.drop_drop, drop_takeWhile_length]
      by_cases hl : pfx.length < (List.takeWhile (fun b => b != eqByte) e).length
      · have hpre : (List.take pfx.length (List.takeWhile (fun b => b != eqByte) e) = pfx) ↔
            pfx.isPrefixOf (List.takeWhile (fun b => b != eqByte) e) = true := by
          rw [List.isPrefixOf_iff_prefix, List.prefix_iff_eq_take]
          exact eq_comm
        by_cases hp : pfx.isPrefixOf (List.takeWhile (fun b => b != eqByte) e) = true
        · simp [hl, hp, hpre.2 hp]
        · have hp2 : ¬ (List.take pfx.length (List.takeWhile (fun b => b != eqByte) e) = pfx) :=
            fun h => hp (hpre.1 h)
          simp [hl, hp, hp2]
      · simp [hl]
  · have hi := indexByte_of_not_mem e eqByte hm
    have hc : e.contains eqByte = false := by simpa using hm
    simp [snapshotStep, qualifies, hi, hc, hm]

theorem GoMap.get_set (m : GoMap) (k v k2 : Str) :
    (m.set k v).get k2 = if k = k2 then some v else m.get k2 := by
  induction m with
  | nil => simp [GoMap.set, GoMap.get]
  | cons p m ih =>
    obtain ⟨a, b⟩ := p
    by_cases hak : a = k
    · subst hak
      by_cases h2 : a = k2
      · simp [GoMap.set, GoMap.get, h2]
      · simp [GoMap.set, GoMap.get, h2]
    · by_cases h2 : a = k2
      · subst h2
        have : ¬ k = a := fun e => hak e.symm
        simp [GoMap.set, GoMap.get, hak, this]
      · simp [GoMap.set, GoMap.get, hak, h2, ih]

theorem GoMap.keys_set (m : GoMap) (k v : Str) :
    (m.set k v).keys = if k ∈ m.keys then m.keys else m.keys ++ [k] := by
  induction m with
  | nil => simp [GoMap.set, GoMap.keys]
  | cons p m ih =>
    obtain ⟨a, b⟩ := p
    by_cases hak : a = k
    · subst hak; simp [GoMap.set, GoMap.keys]
    · have hka : ¬ k = a := fun e => hak e.symm
      simp only [GoMap.keys] at ih
      simp only [GoMap.set, hak, if_false, GoMap.keys, List.map_cons, ih, List.mem_cons, hka,
        false_or]
      split <;> simp

theorem GoMap.nodup_set (m : GoMap) (k v : Str) (h : m.keys.Nodup) : (m.set k v).keys.Nodup := by
  rw [GoMap.keys_set]
  split
  · exact h
  · rename_i hk
    rw [List.nodup_append]
    refine ⟨h, List.nodup_singleton _, ?_⟩
    intro a ha hb
    simp only [List.mem_singleton] at hb
    exact hk (hb ▸ ha)

theorem GoMap.get_eq_none_iff (m : GoMap) (k : Str) : m.get k = none ↔ k ∉ m.keys := by
  induction m with
  | nil => simp [GoMap.get, GoMap.keys]
  | cons p m ih =>
    obtain ⟨a, b⟩ := p
    simp only [GoMap.keys] at ih
    by_cases h : a = k
    · simp [GoMap.get, GoMap.keys, h]
    · have hk : ¬ k = a := fun e => h e.symm
      simp [GoMap.get, GoMap.keys, h, hk, ih]

theorem GoMap.get_of_mem (m : GoMap) (h : m.keys.Nodup) (k v : Str) (hm : (k, v) ∈ m) :
    m.get k = some v := by
  induction m with
  | nil => cases hm
  | cons p m ih =>
    obtain ⟨a, b⟩ := p
    simp only [GoMap.keys, List.map_cons, List.nodup_cons] at h
    rcases List.mem_cons.1 hm with e | e
    · cases e; simp [GoMap.get]
    · have hne : ¬ a = k := by
        intro e2; subst e2
        exact h.1 (List.mem_map.2 ⟨(a, v), e, rfl⟩)
      simp only [GoMap.get, hne, if_false]
      exact ih h.2 e

theorem GoMap.mem_of_get (m : GoMap) (k v : Str) (h : m.get k = some v) : (k, v) ∈ m := by
  induction m with
  | nil => simp [GoMap.get] at h
  | cons p m ih =>
    obtain ⟨a, b⟩ := p
    by_cases e : a = k
    · simp only [GoMap.get, e, if_true, Option.some.injEq] at h
      subst h; subst e; exact List.mem_cons_self _ _
    · simp only [GoMap.get, e, if_false] at h
      exact List.mem_cons_of_mem _ (ih h)

/-! ## The Env Provider -/

/-- The snapshot is the fold of the qualifying entries, stripped. -/
theorem snapshotLoop_foldl (pfx : Str) (E : List Str) (m : GoMap) :
    E.foldl (snapshotStep pfx) m =
      ((E.filter (qualifies pfx)).map (strippedPair pfx)).foldl (fun m p => GoMap.set m p.1 p.2) m := by
  induction E generalizing m with
  | nil => rfl
  | cons e E ih =>
    simp only [List.foldl_cons, snapshotStep_eq, List.filter_cons]
    by_cases h : qualifies pfx e = true
    · simp [h, ih]
    · simp [h, ih]

theorem snapshotLoop_eq (pfx : Str) (E : List Str) :
    snapshotLoop E pfx =
      ((E.filter (qualifies pfx)).map (strippedPair pfx)).foldl (fun m p => GoMap.set m p.1 p.2) [] :=
  snapshotLoop_foldl pfx E []

/-- After a sequence of assignments a key holds the value of the last assignment
to it, or what it held before when there is none. -/
theorem GoMap.get_foldl_set (ps : List (Str × Str)) (m : GoMap) (k v : Str) :
    (ps.foldl (fun m p => GoMap.set m p.1 p.2) m).get k = some v ↔
      (∃ l r, ps = l ++ (k, v) :: r ∧ ∀ p ∈ r, p.1 ≠ k) ∨
      ((∀ p ∈ ps, p.1 ≠ k) ∧ m.get k = some v) := by
  induction ps generalizing m with
  | nil => simp
  | cons p ps ih =>
    rw [List.foldl_cons, ih]
    constructor
    · rintro (⟨l, r, hps, hr⟩ | ⟨hall, hget⟩)
      · exact Or.inl ⟨p :: l, r, by simp [hps], hr⟩
      · rw [GoMap.get_set] at hget
        by_cases hk : p.1 = k
        · simp only [hk, if_true, Option.some.injEq] at hget
          refine Or.inl ⟨[], ps, ?_, hall⟩
          obtain ⟨a, b⟩ := p
          simp only at hk hget
          simp [hk, hget]
        · simp only [hk, if_false] at hget
          refine Or.inr ⟨?_, hget⟩
          intro q hq
          rcases List.mem_cons.1 hq with e | e
          · subst e; exact hk
          · exact hall q e
    · rintro (⟨l, r, hps, hr⟩ | ⟨hall, hget⟩)
      · cases l with
        | nil =>
          simp only [List.nil_append, List.cons.injEq] at hps
          obtain ⟨hp, hps⟩ := hps
          subst hp; subst hps
          exact Or.inr ⟨hr, by simp [GoMap.get_set]⟩
        | cons a l =>
          simp only [List.cons_append, List.cons.injEq] at hps
          exact Or.inl ⟨l, r, hps.2, hr⟩
      · refine Or.inr ⟨fun q hq => hall q (List.mem_cons_of_mem _ hq), ?_⟩
        have hk : ¬ p.1 = k := hall p (List.mem_cons_self _ _)
        rw [GoMap.get_set]; simp [hk, hget]

theorem filter_map_split {α β : Type} (q : α → Bool) (f : α → β) (E : List α) (l r : List β) (b : β)
    (h : (E.filter q).map f = l ++ b :: r) :
    ∃ l' e r', E = l' ++ e :: r' ∧ q e = true ∧ f e = b ∧ (r'.filter q).map f = r := by
  induction E generalizing l with
  | nil => simp at h
  | cons a E ih =>
    by_cases ha : q a = true
    · simp only [List.filter_cons, ha, if_true, List.map_cons] at h
      cases l with
      | nil =>
        simp only [List.nil_append, List.cons.injEq] at h
        exact ⟨[], a, E, rfl, ha, h.1, h.2⟩
      | cons x l =>
        simp only [List.cons_append, List.cons.injEq] at h
        obtain ⟨l', e, r', hE, hq, hf, hr⟩ := ih l h.2
        exact ⟨a :: l', e, r', by simp [hE], hq, hf, hr⟩
    · simp only [List.filter_cons, ha] at h
      obtain ⟨l', e, r', hE, hq, hf, hr⟩ := ih l h
      exact ⟨a :: l', e, r', by simp [hE], hq, hf, hr⟩

/-- A map read back from a list of pairs with distinct keys holds the pairs. -/
theorem get_foldl_set_nodup (ps : List (Str × Str)) (hk : (ps.map Prod.fst).Nodup) (k : Str) :
    (ps.foldl (fun m p => GoMap.set m p.1 p.2) []).get k = GoMap.get ps k := by
  apply Option.ext
  intro v
  simp only [Option.mem_def]
  rw [GoMap.get_foldl_set]
  constructor
  · rintro (⟨l, r, e, _⟩ | ⟨_, h⟩)
    · exact GoMap.get_of_mem ps hk k v (by rw [e]; simp)
    · simp [GoMap.get] at h
  · intro h
    have hm := GoMap.mem_of_get ps k v h
    obtain ⟨l, r, e⟩ := List.append_of_mem hm
    refine Or.inl ⟨l, r, e, ?_⟩
    intro p hp hpk
    rw [e] at hk
    simp only [List.map_append, List.map_cons] at hk
    have := (List.nodup_cons.1 (List.nodup_append.1 hk).2.1).1
    exact this (by rw [← hpk]; exact List.mem_map_of_mem _ hp)

theorem GoMap.set_of_not_mem (m : GoMap) (k v : Str) (h : k ∉ m.keys) :
    m.set k v = m ++ [(k, v)] := by
  induction m with
  | nil => rfl
  | cons p m ih =>
    obtain ⟨a, b⟩ := p
    simp only [GoMap.keys, List.map_cons, List.mem_cons, not_or] at h
    have hne : ¬ a = k := fun e => h.1 e.symm
    simp only [GoMap.set, hne, if_false, List.cons_append]
    rw [ih h.2]

/-- Assigning pairs with distinct new keys appends them in order. -/
theorem foldl_set_append (ps : List (Str × Str)) (acc : GoMap)
    (h : (acc.keys ++ ps.map Prod.fst).Nodup) :
    ps.foldl (fun m p => GoMap.set m p.1 p.2) acc = acc ++ ps := by
  induction ps generalizing acc with
  | nil => simp
  | cons p ps ih =>
    have hp : p.1 ∉ acc.keys := by
      intro hm
      exact (List.nodup_append.1 h).2.2 hm (List.mem_cons_self _ _)
    rw [List.foldl_cons, GoMap.set_of_not_mem acc p.1 p.2 hp, ih]
    · simp
    · simpa [GoMap.keys] using h

/-! ## Lemmas: `os.Environ()` and the qualifying entries -/

theorem envKey_of_qualifies (pfx e : Str) (h : qualifies pfx e = true) :
    envKey e = some (rawKey e) := by
  simp only [qualifies, Bool.and_eq_true] at h
  simp only [envKey, h.1.1, if_true]

theorem contains_of_envKey (e key : Str) (h : envKey e = some key) :
    e.contains eqByte = true ∧ rawKey e = key := by
  unfold envKey at h
  by_cases hc : e.contains eqByte = true
  · rw [if_pos hc] at h
    exact ⟨hc, Option.some.inj h⟩
  · rw [if_neg hc] at h
    cases h

theorem qualifies_false_of_envKey_none (pfx e : Str) (h : envKey e = none) :
    qualifies pfx e = false := by
  unfold envKey at h
  by_cases hc : e.contains eqByte = true
  · rw [if_pos hc] at h; cases h
  · simp only [Bool.not_eq_true] at hc
    simp only [qualifies, hc, Bool.false_and]

/-- Whether an entry qualifies depends on its key alone. -/
theorem qualifies_congr (pfx a b : Str) (key : Str) (ha : envKey a = some key)
    (hb : envKey b = some key) : qualifies pfx a = qualifies pfx b := by
  obtain ⟨ca, ka⟩ := contains_of_envKey a key ha
  obtain ⟨cb, kb⟩ := contains_of_envKey b key hb
  simp only [qualifies, ca, cb, ka, kb]

/-- The qualifying entries that `copyenv` keeps are what `copyenv` keeps of the
qualifying entries. -/
theorem filter_copyenvFrom (pfx : Str) (E : List Str) (seen seen2 : List Str)
    (h : ∀ e, qualifies pfx e = true → (rawKey e ∈ seen ↔ rawKey e ∈ seen2)) :
    (copyenvFrom seen E).filter (qualifies pfx) =
      copyenvFrom seen2 (E.filter (qualifies pfx)) := by
  induction E generalizing seen seen2 with
  | nil => simp [copyenvFrom]
  | cons s rest ih =>
    cases hk : envKey s with
    | none =>
      have hq := qualifies_false_of_envKey_none pfx s hk
      simp only [copyenvFrom, hk, List.filter_cons, hq, Bool.false_eq_true, if_false]
      exact ih seen seen2 h
    | some key =>
      obtain ⟨hc, hkey⟩ := contains_of_envKey s key hk
      by_cases hq : qualifies pfx s = true
      · have hiff := h s hq
        rw [hkey] at hiff
        by_cases hs : key ∈ seen
        · have hs2 : key ∈ seen2 := hiff.1 hs
          simp only [copyenvFrom, hk, hs, if_true, List.filter_cons, hq, hs2]
          exact ih seen seen2 h
        · have hs2 : key ∉ seen2 := fun x => hs (hiff.2 x)
          simp only [copyenvFrom, hk, hs, if_false, List.filter_cons, hq, if_true, hs2]
          congr 1
          apply ih
          intro e he
          simp only [List.mem_cons, h e he]
      · have hq2 : qualifies pfx s = false := by simpa using hq
        by_cases hs : key ∈ seen
        · simp only [copyenvFrom, hk, hs, if_true, List.filter_cons, hq2, Bool.false_eq_true,
            if_false]
          exact ih seen seen2 h
        · simp only [copyenvFrom, hk, hs, if_false, List.filter_cons, hq2, Bool.false_eq_true]
          apply ih
          intro e he
          have hne : rawKey e ≠ key := by
            intro heq
            have := qualifies_congr pfx e s key (by rw [envKey_of_qualifies pfx e he, heq]) hk
            rw [he, hq2] at this
            cases this
          simp only [List.mem_cons, hne, false_or, h e he]

theorem filter_osEnviron (pfx : Str) (X : List Str) :
    (osEnviron X).filter (qualifies pfx) = X.filter (qualifies pfx) := by
  simp only [osEnviron, List.filter_filter]
  apply List.filter_congr
  intro e _
  by_cases hq : qualifies pfx e = true
  · have hc : e.contains eqByte = true := (contains_of_envKey e _ (envKey_of_qualifies pfx e hq)).1
    cases e with
    | nil => simp at hc
    | cons b e => simp [hq]
  · have hq2 : qualifies pfx e = false := by simpa using hq
    simp [hq2]

/-- The qualifying entries of `os.Environ()` are a function of the qualifying entries
of the environment block. -/
theorem filter_environ (pfx : Str) (envs : List Str) :
    (osEnviron (copyenv envs)).filter (qualifies pfx) =
      copyenv (envs.filter (qualifies pfx)) := by
  rw [filter_osEnviron]
  exact filter_copyenvFrom pfx envs [] [] (fun _ _ => Iff.rfl)

/-- The keys of the entries `copyenv` keeps are distinct and new. -/
theorem copyenvFrom_keys (E : List Str) (seen : List Str) :
    ((copyenvFrom seen E).filterMap envKey).Nodup ∧
      ∀ k ∈ (copyenvFrom seen E).filterMap envKey, k ∉ seen := by
  induction E generalizing seen with
  | nil => simp [copyenvFrom]
  | cons s rest ih =>
    cases hk : envKey s with
    | none =>
      simp only [copyenvFrom, hk, List.filterMap_cons]
      exact ih seen
    | some key =>
      by_cases hs : key ∈ seen
      · simp only [copyenvFrom, hk, hs, if_true]
        exact ih seen
      · obtain ⟨h1, h2⟩ := ih (key :: seen)
        simp only [copyenvFrom, hk, hs, if_false, List.filterMap_cons, List.nodup_cons,
          List.mem_cons]
        refine ⟨⟨fun hm => h2 key hm (List.mem_cons_self _ _), h1⟩, ?_⟩
        rintro k (e | hm)
        · rw [e]; exact hs
        · exact fun hks => h2 k hm (List.mem_cons_of_mem _ hks)

theorem rawKey_of_qualifies (pfx e : Str) (h : qualifies pfx e = true) :
    rawKey e = pfx ++ (strippedPair pfx e).1 := by
  simp only [qualifies, Bool.and_eq_true] at h
  obtain ⟨t, ht⟩ := List.isPrefixOf_iff_prefix.1 h.1.2
  simp only [strippedPair, ← ht, List.drop_left]

theorem stripped_keys_nodup (pfx : Str) (l : List Str)
    (hall : ∀ e ∈ l, qualifies pfx e = true) (hnd : (l.filterMap envKey).Nodup) :
    ((l.map (strippedPair pfx)).map Prod.fst).Nodup := by
  induction l with
  | nil => simp
  | cons e l ih =>
    have hq := hall e (List.mem_cons_self _ _)
    rw [List.filterMap_cons, envKey_of_qualifies pfx e hq] at hnd
    obtain ⟨h1, h2⟩ := List.nodup_cons.1 hnd
    simp only [List.map_cons, List.nodup_cons]
    refine ⟨?_, ih (fun x hx => hall x (List.mem_cons_of_mem _ hx)) h2⟩
    intro hm
    obtain ⟨p, hp, hpe⟩ := List.mem_map.1 hm
    obtain ⟨e2, he2, rfl⟩ := List.mem_map.1 hp
    have hq2 := hall e2 (List.mem_cons_of_mem _ he2)
    apply h1
    rw [List.mem_filterMap]
    refine ⟨e2, he2, ?_⟩
    rw [envKey_of_qualifies pfx e2 hq2, rawKey_of_qualifies pfx e2 hq2,
      rawKey_of_qualifies pfx e hq, hpe]

/-- The stripped keys of the qualifying entries of `os.Environ()` are distinct. -/
theorem environ_pairs_nodup (pfx : Str) (envs : List Str) :
    ((((osEnviron (copyenv envs)).filter (qualifies pfx)).map (strippedPair pfx)).map
      Prod.fst).Nodup := by
  have hsub : ((osEnviron (copyenv envs)).filter (qualifies pfx)).Sublist (copyenv envs) :=
    (List.filter_sublist _).trans (List.filter_sublist _)
  exact stripped_keys_nodup pfx _ (fun e he => (List.mem_filter.1 he).2)
    ((copyenvFrom_keys envs []).1.sublist (hsub.filterMap envKey))

/-- The snapshot is the list of the stripped pairs of the qualifying entries of
`os.Environ()`, in their order. -/
theorem buildSnapshot_eq (pfx : Str) (envs : List Str) :
    buildSnapshot envs pfx =
      ((osEnviron (copyenv envs)).filter (qualifies pfx)).map (strippedPair pfx) := by
  rw [buildSnapshot, snapshotLoop_eq,
    foldl_set_append _ [] (by simpa [GoMap.keys] using environ_pairs_nodup pfx envs)]
  rfl

/-- On a block whose keys are distinct `copyenv` clears nothing. -/
theorem copyenvFrom_of_nodup (E : List Str) (seen : List Str)
    (hnd : (E.filterMap envKey).Nodup) (hs : ∀ k ∈ E.filterMap envKey, k ∉ seen) :
    copyenvFrom seen E = E := by
  induction E generalizing seen with
  | nil => rfl
  | cons s rest ih =>
    cases hk : envKey s with
    | none =>
      rw [List.filterMap_cons, hk] at hnd hs
      simp only [copyenvFrom, hk]
      rw [ih seen hnd hs]
    | some key =>
      rw [List.filterMap_cons, hk] at hnd hs
      obtain ⟨h1, h2⟩ := List.nodup_cons.1 hnd
      have hkey : key ∉ seen := hs key (List.mem_cons_self _ _)
      simp only [copyenvFrom, hk, hkey, if_false]
      rw [ih (key :: seen) h2]
      intro k hk2 hm
      rcases List.mem_cons.1 hm with e | e
      · exact h1 (e ▸ hk2)
      · exact hs k (List.mem_cons_of_mem _ hk2) e

/-- The environment block with a key twice: `os.Environ()` returns the first entry of
the key, and the snapshot holds its pair. -/
theorem buildSnapshot_duplicate_key :
    osEnviron (copyenv [bs "ENCLAVE_A=1", bs "ENCLAVE_A=2"]) = [bs "ENCLAVE_A=1"] ∧
    buildSnapshot [bs "ENCLAVE_A=1", bs "ENCLAVE_A=2"] enclavePrefix = [(bs "A", bs "1")] := by
  decide

/-! ## Lemmas: reading lines -/

theorem readString_of_not_mem (data : List Nat) (d : Nat) (h : d ∉ data) :
    readString data d = none := by
  induction data with
  | nil => rfl
  | cons b data ih =>
    simp only [List.mem_cons, not_or] at h
    have hb : ¬ b = d := fun e => h.1 e.symm
    simp [readString, hb, ih h.2]

theorem readString_line (line rest : List Nat) (d : Nat) (h : d ∉ line) :
    readString (line ++ d :: rest) d = some (line ++ [d], rest) := by
  induction line with
  | nil => simp [readString]
  | cons b line ih =>
    simp only [List.mem_cons, not_or] at h
    have hb : ¬ b = d := fun e => h.1 e.symm
    simp [readString, hb, ih h.2]

theorem readString_length (data : List Nat) (d : Nat) (line rest : List Nat)
    (h : readString data d = some (line, rest)) : rest.length < data.length := by
  induction data generalizing line with
  | nil => simp [readString] at h
  | cons b data ih =>
    simp only [readString] at h
    split at h
    · simp only [Option.some.injEq, Prod.mk.injEq] at h
      simp [← h.2]
    · cases hr : readString data d with
      | none => simp [hr] at h
      | some r =>
        obtain ⟨l2, r2⟩ := r
        simp only [hr, Option.map_some', Option.some.injEq, Prod.mk.injEq] at h
        have := ih l2 (by rw [hr, ← h.2])
        simp only [List.length_cons]; omega

theorem headerBlock_length (lines : List (List Nat)) :
    lines.length ≤ (headerBlock lines).length := by
  induction lines with
  | nil => simp [headerBlock]
  | cons l lines ih =>
    simp only [headerBlock, List.map_cons, List.flatten_cons, List.length_append,
      List.length_cons, List.length_nil] at ih ⊢
    omega

/-- Skipping a block of header lines followed by the empty line: every line is read
and the body starts right after the empty line. -/
theorem skipHeaders_block (lines : List (List Nat)) (body : List Nat) (fuel : Nat)
    (hl : ∀ l ∈ lines, 10 ∉ l ∧ l ≠ [13]) (hf : lines.length < fuel) :
    skipHeaders fuel (headerBlock lines ++ 13 :: 10 :: body) = (lines.length + 1, some body) := by
  induction lines generalizing fuel with
  | nil =>
    cases fuel with
    | zero => simp at hf
    | succ fuel =>
      have h := readString_line [13] body 10 (by simp)
      simp only [List.singleton_append, List.cons_append, List.nil_append] at h
      simp [headerBlock, skipHeaders, h]
  | cons l lines ih =>
    cases fuel with
    | zero => simp at hf
    | succ fuel =>
      have hl1 := hl l (List.mem_cons_self _ _)
      have h := readString_line l (headerBlock lines ++ 13 :: 10 :: body) 10 hl1.1
      have he : headerBlock (l :: lines) ++ 13 :: 10 :: body =
          l ++ 10 :: (headerBlock lines ++ 13 :: 10 :: body) := by
        simp [headerBlock]
      have hne : ¬ (l ++ [10] = [13, 10]) := by
        intro e
        apply hl1.2
        have : l ++ [10] = [13] ++ [10] := by simpa using e
        exact List.append_cancel_right this
      rw [he]
      simp only [skipHeaders, h, hne, if_false]
      rw [ih fuel (fun x hx => hl x (List.mem_cons_of_mem _ hx))
        (by simp only [List.length_cons] at hf; omega)]
      simp

/-- Skipping header lines when the stream ends before an empty line: the read
fails. -/
theorem skipHeaders_no_separator (lines : List (List Nat)) (tail : List Nat) (fuel : Nat)
    (hl : ∀ l ∈ lines, 10 ∉ l ∧ l ≠ [13]) (ht : 10 ∉ tail) (hf : lines.length < fuel) :
    skipHeaders fuel (headerBlock lines ++ tail) = (lines.length + 1, none) := by
  induction lines generalizing fuel with
  | nil =>
    cases fuel with
    | zero => simp at hf
    | succ fuel => simp [headerBlock, skipHeaders, readString_of_not_mem _ _ ht]
  | cons l lines ih =>
    cases fuel with
    | zero => simp at hf
    | succ fuel =>
      have hl1 := hl l (List.mem_cons_self _ _)
      have h := readString_line l (headerBlock lines ++ tail) 10 hl1.1
      have he : headerBlock (l :: lines) ++ tail = l ++ 10 :: (headerBlock lines ++ tail) := by
        simp [headerBlock]
      have hne : ¬ (l ++ [10] = [13, 10]) := by
        intro e
        apply hl1.2
        have : l ++ [10] = [13] ++ [10] := by simpa using e
        exact List.append_cancel_right this
      rw [he]
      simp only [skipHeaders, h, hne, if_false]
      rw [ih fuel (fun x hx => hl x (List.mem_cons_of_mem _ hx))
        (by simp only [List.length_cons] at hf; omega)]
      simp

/-! ## Lemmas: the shape of a run -/

theorem fetch_dial_fail (w : World) (hd : w.dialOk = false) :
    fetchEnvironment w =
      { events := [.dial hostCID port], state := .start,
        result := .error (.fatal .dialVsock) } := by
  simp [fetchEnvironment, hd]

theorem fetch_status_read_fail (w : World) (hd : w.dialOk = true)
    (hr : readString w.response 10 = none) :
    fetchEnvironment w =
      { events := [.dial hostCID port, .write request w.writeOk, .readStatusLine],
        state := .connected, result := .error (.fatal .readingStatusLine) } := by
  simp [fetchEnvironment, hd, hr]

theorem fetch_bad_status (w : World) (line rest : List Nat) (hd : w.dialOk = true)
    (hr : readString w.response 10 = some (line, rest))
    (hc : contains line (bs "200 OK") = false) :
    fetchEnvironment w =
      { events := [.dial hostCID port, .write request w.writeOk, .readStatusLine],
        state := .connected, result := .error (.fatal .unexpectedResponse) } := by
  simp [fetchEnvironment, hd, hr, hc]

theorem fetch_headers_fail (w : World) (line rest : List Nat) (n : Nat) (hd : w.dialOk = true)
    (hr : readString w.response 10 = some (line, rest))
    (hc : contains line (bs "200 OK") = true)
    (hh : skipHeaders (rest.length + 1) rest = (n, none)) :
    fetchEnvironment w =
      { events := [.dial hostCID port, .write request w.writeOk, .readStatusLine] ++
          List.replicate n Event.readHeaderLine,
        state := .connected, result := .error (.fatal .readingHeaders) } := by
  simp [fetchEnvironment, hd, hr, hc, hh]

theorem fetch_decoded (w : World) (line rest body : List Nat) (n : Nat) (hd : w.dialOk = true)
    (hr : readString w.response 10 = some (line, rest))
    (hc : contains line (bs "200 OK") = true)
    (hh : skipHeaders (rest.length + 1) rest = (n, some body)) :
    fetchEnvironment w =
      { events := [.dial hostCID port, .write request w.writeOk, .readStatusLine] ++
          List.replicate n Event.readHeaderLine ++ [.decodeBody],
        state := (decodeResult (jsonDecode body w.ending)).1,
        result := (decodeResult (jsonDecode body w.ending)).2 } := by
  simp only [fetchEnvironment, hd, hr, hc, hh]
  cases hj : jsonDecode body w.ending with
  | ok env => simp [decodeResult]
  | error e => cases e <;> simp [decodeResult]

/-- The ways the fetch phase can end. -/
theorem fetch_cases (w : World) :
    (fetchEnvironment w =
        { events := [.dial hostCID port], state := .start,
          result := .error (.fatal .dialVsock) }) ∨
    (∃ n site, (site = .readingStatusLine ∨ site = .unexpectedResponse ∨ site = .readingHeaders) ∧
      fetchEnvironment w =
        { events := [.dial hostCID port, .write request w.writeOk, .readStatusLine] ++
            List.replicate n Event.readHeaderLine,
          state := .connected, result := .error (.fatal site) }) ∨
    (∃ n body,
      fetchEnvironment w =
        { events := [.dial hostCID port, .write request w.writeOk, .readStatusLine] ++
            List.replicate n Event.readHeaderLine ++ [.decodeBody],
          state := (decodeResult (jsonDecode body w.ending)).1,
          result := (decodeResult (jsonDecode body w.ending)).2 }) := by
  cases hd : w.dialOk with
  | false => exact Or.inl (fetch_dial_fail w hd)
  | true =>
    cases hr : readString w.response 10 with
    | none =>
      exact Or.inr (Or.inl ⟨0, _, Or.inl rfl, by simp [fetch_status_read_fail w hd hr]⟩)
    | some p =>
      obtain ⟨line, rest⟩ := p
      cases hc : contains line (bs "200 OK") with
      | false =>
        exact Or.inr (Or.inl ⟨0, _, Or.inr (Or.inl rfl), by simp [fetch_bad_status w _ _ hd hr hc]⟩)
      | true =>
        cases hh : skipHeaders (rest.length + 1) rest with
        | mk n ob =>
          cases ob with
          | none =>
            exact Or.inr (Or.inl ⟨n, _, Or.inr (Or.inr rfl), fetch_headers_fail w _ _ n hd hr hc hh⟩)
          | some body =>
            exact Or.inr (Or.inr ⟨n, body, fetch_decoded w _ _ body n hd hr hc hh⟩)

theorem decodeResult_cases (r : Except JsonErr GoMap) :
    (∃ env, r = .ok env ∧ decodeResult r = (.fetched, .ok env)) ∨
    (r = .error .phasePanic ∧ decodeResult r = (.connected, .error .panicked)) ∨
    (∃ e, r = .error e ∧ e ≠ .phasePanic ∧ decodeResult r = (.connected, .error (.fatal .decode))) := by
  cases r with
  | ok env => exact Or.inl ⟨env, rfl, rfl⟩
  | error e =>
    cases e
    case phasePanic => exact Or.inr (Or.inl ⟨rfl, rfl⟩)
    all_goals exact Or.inr (Or.inr ⟨_, rfl, by simp, rfl⟩)

theorem mem_replicate_network (n : Nat) (e : Event)
    (he : e ∈ List.replicate n Event.readHeaderLine) : e.isNetwork = true := by
  rw [(List.mem_replicate.1 he).2]; rfl

theorem fetch_events_network (w : World) :
    ∀ e ∈ (fetchEnvironment w).events, e.isNetwork = true := by
  intro e he
  rcases fetch_cases w with h | ⟨n, site, _, h⟩ | ⟨n, body, h⟩
  · rw [h] at he; simp at he; subst he; rfl
  · rw [h] at he
    simp only [List.mem_append, List.mem_cons, List.not_mem_nil, or_false] at he
    rcases he with (h | h | h) | h
    · subst h; rfl
    · subst h; rfl
    · subst h; rfl
    · exact mem_replicate_network n e h
  · rw [h] at he
    simp only [List.mem_append, List.mem_cons, List.not_mem_nil, or_false] at he
    rcases he with ((h | h | h) | h) | h
    · subst h; rfl
    · subst h; rfl
    · subst h; rfl
    · exact mem_replicate_network n e h
    · subst h; rfl

theorem fetch_result_not_usage (w : World) :
    (fetchEnvironment w).result ≠ .error (.fatal .usage) ∧
    (fetchEnvironment w).result ≠ .error .replaced ∧
    (fetchEnvironment w).result ≠ .error (.fatal .exec) := by
  rcases fetch_cases w with h | ⟨n, site, hs, h⟩ | ⟨n, body, h⟩
  · rw [h]; simp
  · rw [h]; rcases hs with hs | hs | hs <;> subst hs <;> simp
  · rw [h]
    rcases decodeResult_cases (jsonDecode body w.ending) with ⟨env, _, h2⟩ | ⟨_, h2⟩ | ⟨e, _, _, h2⟩ <;>
      rw [h2] <;> simp

theorem fetch_state_of_error (w : World) (o : Outcome)
    (h : (fetchEnvironment w).result = .error o) :
    (fetchEnvironment w).state = .start ∨ (fetchEnvironment w).state = .connected := by
  rcases fetch_cases w with h1 | ⟨n, site, hs, h1⟩ | ⟨n, body, h1⟩
  · rw [h1]; simp
  · rw [h1]; simp
  · rw [h1] at h ⊢
    rcases decodeResult_cases (jsonDecode body w.ending) with ⟨env, _, h2⟩ | ⟨_, h2⟩ | ⟨e, _, _, h2⟩
    · rw [h2] at h; simp at h
    · rw [h2]; simp
    · rw [h2]; simp

theorem fetch_state_of_ok (w : World) (S : GoMap)
    (h : (fetchEnvironment w).result = .ok S) : (fetchEnvironment w).state = .fetched := by
  rcases fetch_cases w with h1 | ⟨n, site, hs, h1⟩ | ⟨n, body, h1⟩
  · rw [h1] at h; simp at h
  · rw [h1] at h; simp at h
  · rw [h1] at h ⊢
    rcases decodeResult_cases (jsonDecode body w.ending) with ⟨env, _, h2⟩ | ⟨_, h2⟩ | ⟨e, _, _, h2⟩
    · rw [h2]
    · rw [h2] at h; simp at h
    · rw [h2] at h; simp at h

theorem findSome_network {β : Type} (f : Event → Option β) (l : List Event)
    (hl : ∀ e ∈ l, e.isNetwork = true) (hf : ∀ e, e.isNetwork = true → f e = none) :
    l.findSome? f = none := by
  induction l with
  | nil => rfl
  | cons a l ih =>
    simp only [List.findSome?_cons, hf a (hl a (List.mem_cons_self _ _))]
    exact ih (fun e he => hl e (List.mem_cons_of_mem _ he))

theorem filterMap_network {β : Type} (f : Event → Option β) (l : List Event)
    (hl : ∀ e ∈ l, e.isNetwork = true) (hf : ∀ e, e.isNetwork = true → f e = none) :
    l.filterMap f = [] := by
  induction l with
  | nil => rfl
  | cons a l ih =>
    simp only [List.filterMap_cons, hf a (hl a (List.mem_cons_self _ _))]
    exact ih (fun e he => hl e (List.mem_cons_of_mem _ he))

theorem execEnv_eq (r : Run) : r.execEnv = r.events.findSome? Event.envOf := rfl

theorem execArgs_eq (r : Run) : r.execArgs = r.events.findSome? Event.argsOf := rfl

theorem setenvs_eq (r : Run) : r.setenvs = r.events.filterMap Event.pairOf := rfl

theorem envOf_network (e : Event) (h : e.isNetwork = true) : e.envOf = none := by
  cases e <;> simp_all [Event.isNetwork, Event.envOf]

theorem argsOf_network (e : Event) (h : e.isNetwork = true) : e.argsOf = none := by
  cases e <;> simp_all [Event.isNetwork, Event.argsOf]

theorem pairOf_network (e : Event) (h : e.isNetwork = true) : e.pairOf = none := by
  cases e <;> simp_all [Event.isNetwork, Event.pairOf]

/-- A run that stops in the fetch phase: no `os.Setenv`, no `syscall.Exec`, the
environment table untouched. -/
theorem main_of_fetch_error (w : World) (o : Outcome) (ha : 2 ≤ w.args.length)
    (h : (fetchEnvironment w).result = .error o) :
    (main w).outcome = o ∧ (main w).events = (fetchEnvironment w).events ∧
    (main w).state = (fetchEnvironment w).state ∧ (main w).environ = w.environ ∧
    (main w).setenvs = [] ∧ (main w).execEnv = none ∧ (main w).execArgs = none := by
  have hn : ¬ w.args.length < 2 := by omega
  have hm : main w = ⟨(fetchEnvironment w).events, (fetchEnvironment w).state, w.environ, o⟩ := by
    simp only [main, hn, if_false, h]
  rw [execEnv_eq, execArgs_eq, setenvs_eq, hm]
  refine ⟨rfl, rfl, rfl, rfl, ?_, ?_, ?_⟩
  · exact filterMap_network _ _ (fetch_events_network w) pairOf_network
  · exact findSome_network _ _ (fetch_events_network w) envOf_network
  · exact findSome_network _ _ (fetch_events_network w) argsOf_network

theorem findSome_setenv_map {β : Type} (f : Event → Option β) (ps : List (Str × Str))
    (hf : ∀ k v, f (.setenv k v) = none) :
    (ps.map (fun kv => Event.setenv kv.1 kv.2)).findSome? f = none := by
  induction ps with
  | nil => rfl
  | cons a l ih => simp [List.findSome?_cons, hf, ih]

theorem filterMap_setenv_map (ps : List (Str × Str)) :
    (ps.map (fun kv => Event.setenv kv.1 kv.2)).filterMap Event.pairOf = ps := by
  induction ps with
  | nil => rfl
  | cons a l ih => simp [List.filterMap_cons, Event.pairOf, ih]

/-- A run whose fetch phase succeeds: every pair is handed to `os.Setenv`, then
`syscall.Exec` is called with the arguments and the environment built. -/
theorem main_of_fetch_ok (w : World) (S : GoMap) (ha : 2 ≤ w.args.length)
    (h : (fetchEnvironment w).result = .ok S) :
    (main w).execEnv =
      some (osEnviron (installEnvironment (copyenv w.environ) (w.rangeOrder S))) ∧
    (main w).execArgs = some (daemonArgs w.args) ∧
    (main w).setenvs = w.rangeOrder S ∧
    (main w).environ = installEnvironment (copyenv w.environ) (w.rangeOrder S) ∧
    (main w).outcome = (if w.execOk then .replaced else .fatal .exec) ∧
    (main w).state = (if w.execOk then .replaced else .environmentInstalled) := by
  have hn : ¬ w.args.length < 2 := by omega
  have hev : (main w).events = (fetchEnvironment w).events ++
      (w.rangeOrder S).map (fun kv => Event.setenv kv.1 kv.2) ++
      [Event.exec daemonCmd (daemonArgs w.args)
        (osEnviron (installEnvironment (copyenv w.environ) (w.rangeOrder S)))] := by
    simp only [main, hn, if_false, h]
    split <;> rfl
  refine ⟨?_, ?_, ?_, ?_, ?_, ?_⟩
  · rw [execEnv_eq, hev, List.findSome?_append, List.findSome?_append,
      findSome_network _ _ (fetch_events_network w) envOf_network,
      findSome_setenv_map _ _ (fun _ _ => rfl)]
    rfl
  · rw [execArgs_eq, hev, List.findSome?_append, List.findSome?_append,
      findSome_network _ _ (fetch_events_network w) argsOf_network,
      findSome_setenv_map _ _ (fun _ _ => rfl)]
    rfl
  · rw [setenvs_eq, hev, List.filterMap_append, List.filterMap_append,
      filterMap_network _ _ (fetch_events_network w) pairOf_network, filterMap_setenv_map]
    simp [Event.pairOf]
  · simp only [main, hn, if_false, h]
    split <;> simp
  · simp only [main, hn, if_false, h]
    cases w.execOk <;> simp
  · simp only [main, hn, if_false, h]
    cases w.execOk <;> simp

/-- Go `strings.Join` is the concatenation with the separator in between. -/
theorem join_eq_intercalate (l : List Str) (sep : Str) : join l sep = sep.intercalate l := by
  induction l with
  | nil => rfl
  | cons a l ih =>
    cases l with
    | nil => simp [join, List.intercalate]
    | cons b l =>
      simp only [join, ih]
      simp [List.intercalate, List.intersperse]

/-! ## Lemmas: the process environment -/

theorem rawKey_append (k v : Str) (hk : eqByte ∉ k) : rawKey (k ++ eqByte :: v) = k := by
  induction k with
  | nil => simp [rawKey, List.takeWhile]
  | cons b k ih =>
    simp only [List.mem_cons, not_or] at hk
    have hb : (b != eqByte) = true := by
      simp only [bne_iff_ne, ne_eq]; exact fun e => hk.1 e.symm
    simp only [rawKey] at ih
    simp [rawKey, List.takeWhile, hb, ih hk.2]

theorem rawValue_append (k v : Str) (hk : eqByte ∉ k) : rawValue (k ++ eqByte :: v) = v := by
  induction k with
  | nil => simp [rawValue, List.dropWhile]
  | cons b k ih =>
    simp only [List.mem_cons, not_or] at hk
    have hb : (b != eqByte) = true := by
      simp only [bne_iff_ne, ne_eq]; exact fun e => hk.1 e.symm
    simp only [rawValue] at ih
    simp [rawValue, List.dropWhile, hb, ih hk.2]

theorem envKey_append (k v : Str) (hk : eqByte ∉ k) : envKey (k ++ eqByte :: v) = some k := by
  simp [envKey, rawKey_append k v hk]

theorem lookupEnv_setenvEntries (envs : List Str) (k v k2 : Str) (hk : eqByte ∉ k) :
    lookupEnv (setenvEntries envs k v) k2 = if k = k2 then some v else lookupEnv envs k2 := by
  induction envs with
  | nil =>
    simp only [setenvEntries, lookupEnv, envKey_append k v hk, rawValue_append k v hk,
      Option.some.injEq]
  | cons s envs ih =>
    by_cases hs : envKey s = some k
    · simp only [setenvEntries, hs, if_true, lookupEnv, envKey_append k v hk,
        rawValue_append k v hk, Option.some.injEq]
      by_cases h2 : k = k2 <;> simp [h2]
    · simp only [setenvEntries, hs, if_false, lookupEnv, ih]
      by_cases h2 : envKey s = some k2
      · have : ¬ k = k2 := by intro e; subst e; exact hs h2
        simp [h2, this]
      · simp [h2]

theorem lookupEnv_osEnviron (envs : List Str) (k : Str) :
    lookupEnv (osEnviron envs) k = lookupEnv envs k := by
  induction envs with
  | nil => rfl
  | cons s envs ih =>
    simp only [osEnviron] at ih
    cases s with
    | nil => simp [osEnviron, lookupEnv, envKey, ih]
    | cons b s => simp [osEnviron, lookupEnv, ih]

theorem lookupEnv_copyenvFrom (seen : List Str) (P : List Str) (k : Str) :
    lookupEnv (copyenvFrom seen P) k = if k ∈ seen then none else lookupEnv P k := by
  induction P generalizing seen with
  | nil => simp [copyenvFrom, lookupEnv]
  | cons s P ih =>
    cases hs : envKey s with
    | none => simp [copyenvFrom, lookupEnv, hs, ih]
    | some key =>
      by_cases hseen : key ∈ seen
      · simp only [copyenvFrom, hs, hseen, if_true, ih, lookupEnv, Option.some.injEq]
        by_cases hk : k ∈ seen
        · simp [hk]
        · have : ¬ key = k := by intro e; subst e; exact hk hseen
          simp [hk, this]
      · simp only [copyenvFrom, hs, hseen, if_false, lookupEnv, ih, Option.some.injEq,
          List.mem_cons]
        by_cases hkk : key = k
        · subst hkk; simp [hseen]
        · have : ¬ k = key := fun e => hkk e.symm
          simp [hkk, this]

theorem lookupEnv_copyenv (P : List Str) (k : Str) : lookupEnv (copyenv P) k = lookupEnv P k := by
  simp [copyenv, lookupEnv_copyenvFrom]

theorem setenv_of_accepts (envs : List Str) (k v : Str) (h : setenvAccepts k v) :
    setenv envs k v = some (setenvEntries envs k v) := by
  obtain ⟨h1, h2, h3, h4⟩ := h
  have a1 : ¬ k.length = 0 := by simpa using h1
  have a2 : (k.any (fun c => c == eqByte || c == 0)) = false := by
    rw [Bool.eq_false_iff]
    intro hh
    obtain ⟨c, hc, hcc⟩ := List.any_eq_true.1 hh
    simp only [Bool.or_eq_true, beq_iff_eq] at hcc
    rcases hcc with e | e
    · exact h2 (e ▸ hc)
    · exact h3 (e ▸ hc)
  have a3 : (v.any (fun c => c == 0)) = false := by
    rw [Bool.eq_false_iff]
    intro hh
    obtain ⟨c, hc, hcc⟩ := List.any_eq_true.1 hh
    simp only [beq_iff_eq] at hcc
    exact h4 (hcc ▸ hc)
  simp [setenv, a1, a2, a3]

/-- After installing accepted pairs a key holds the value of the last pair of that
key, or what it held before when there is none. -/
theorem lookupEnv_install (ps : List (Str × Str)) (envs : List Str) (k v : Str)
    (hv : ∀ p ∈ ps, setenvAccepts p.1 p.2) :
    lookupEnv (installEnvironment envs ps) k = some v ↔
      (∃ l r, ps = l ++ (k, v) :: r ∧ ∀ p ∈ r, p.1 ≠ k) ∨
      ((∀ p ∈ ps, p.1 ≠ k) ∧ lookupEnv envs k = some v) := by
  induction ps generalizing envs with
  | nil => simp [installEnvironment]
  | cons p ps ih =>
    have hp := hv p (List.mem_cons_self _ _)
    have hstep : installEnvironment envs (p :: ps) =
        installEnvironment (setenvEntries envs p.1 p.2) ps := by
      simp [installEnvironment, setenv_of_accepts envs p.1 p.2 hp]
    rw [hstep, ih _ (fun q hq => hv q (List.mem_cons_of_mem _ hq))]
    rw [lookupEnv_setenvEntries _ _ _ _ hp.2.1]
    constructor
    · rintro (⟨l, r, hps, hr⟩ | ⟨hall, hget⟩)
      · exact Or.inl ⟨p :: l, r, by simp [hps], hr⟩
      · by_cases hk : p.1 = k
        · simp only [hk, if_true, Option.some.injEq] at hget
          refine Or.inl ⟨[], ps, ?_, hall⟩
          obtain ⟨a, b⟩ := p
          simp only at hk hget
          simp [hk, hget]
        · simp only [hk, if_false] at hget
          refine Or.inr ⟨?_, hget⟩
          intro q hq
          rcases List.mem_cons.1 hq with e | e
          · subst e; exact hk
          · exact hall q e
    · rintro (⟨l, r, hps, hr⟩ | ⟨hall, hget⟩)
      · cases l with
        | nil =>
          simp only [List.nil_append, List.cons.injEq] at hps
          obtain ⟨hp1, hps⟩ := hps
          subst hp1; subst hps
          exact Or.inr ⟨hr, by simp⟩
        | cons a l =>
          simp only [List.cons_append, List.cons.injEq] at hps
          exact Or.inl ⟨l, r, hps.2, hr⟩
      · refine Or.inr ⟨fun q hq => hall q (List.mem_cons_of_mem _ hq), ?_⟩
        have hk : ¬ p.1 = k := hall p (List.mem_cons_self _ _)
        simp [hk, hget]

/-- Installing a map whose keys are distinct, in any order: the keys of the map hold
the values of the map, all other keys are as before. -/
theorem lookupEnv_install_perm (S : GoMap) (ps : List (Str × Str)) (envs : List Str)
    (hperm : ps.Perm S) (hnd : S.keys.Nodup) (hv : ∀ p ∈ S, setenvAccepts p.1 p.2) :
    (∀ k v, GoMap.get S k = some v → lookupEnv (installEnvironment envs ps) k = some v) ∧
    (∀ k, GoMap.get S k = none →
      lookupEnv (installEnvironment envs ps) k = lookupEnv envs k) := by
  have hv2 : ∀ p ∈ ps, setenvAccepts p.1 p.2 := fun p hp => hv p (hperm.subset hp)
  have hnd2 : (ps.map Prod.fst).Nodup := (hperm.map Prod.fst).nodup_iff.2 hnd
  constructor
  · intro k v hget
    have hmem : (k, v) ∈ ps := hperm.symm.subset (GoMap.mem_of_get S k v hget)
    obtain ⟨l, r, hps⟩ := List.append_of_mem hmem
    rw [lookupEnv_install ps envs k v hv2]
    left
    refine ⟨l, r, hps, ?_⟩
    intro p hp hk
    rw [hps] at hnd2
    simp only [List.map_append, List.map_cons] at hnd2
    have := (List.nodup_append.1 hnd2).2.1
    rw [List.nodup_cons] at this
    exact this.1 (List.mem_map.2 ⟨p, hp, hk⟩)
  · intro k hget
    have hk : ∀ p ∈ ps, p.1 ≠ k := by
      intro p hp e
      have := (GoMap.get_eq_none_iff S k).1 hget
      exact this (List.mem_map.2 ⟨p, hperm.subset hp, e⟩)
    cases hl : lookupEnv envs k with
    | none =>
      cases hi : lookupEnv (installEnvironment envs ps) k with
      | none => rfl
      | some v =>
        rcases (lookupEnv_install ps envs k v hv2).1 hi with ⟨l, r, hps, _⟩ | ⟨_, h2⟩
        · exact absurd rfl (hk (k, v) (by rw [hps]; simp))
        · rw [hl] at h2; cases h2
    | some v => exact (lookupEnv_install ps envs k v hv2).2 (Or.inr ⟨hk, hl⟩)

/-! ## Lemmas: the decoded map has distinct keys -/

theorem objectLoop_nodup (fuel : Nat) (d : DecodeState) (m : GoMap) (te : Bool)
    (r : ObjectResult) (hm : m.keys.Nodup) (h : objectLoop fuel d m te = .ok r) :
    r.m.keys.Nodup := by
  induction fuel generalizing d m te with
  | zero => simp [objectLoop] at h
  | succ fuel ih =>
    simp only [objectLoop] at h
    repeat' split at h
    all_goals first
      | (cases h; done)
      | (simp only [Except.ok.injEq] at h; rw [← h]
         first | exact hm | exact GoMap.nodup_set _ _ _ hm)
      | exact ih _ _ _ (GoMap.nodup_set _ _ _ hm) h

theorem unmarshal_nodup (data : List Nat) (S : GoMap) (h : unmarshal data = .ok S) :
    S.keys.Nodup := by
  have hnil : (GoMap.keys []).Nodup := by simp [GoMap.keys]
  simp only [unmarshal] at h
  split at h
  · split at h <;> cases h
  · split at h
    · cases h
    · rename_i r hr
      split at h
      · cases h
      · simp only [Except.ok.injEq] at h
        rw [← h]
        exact objectLoop_nodup _ _ _ _ _ hnil hr
  · repeat' split at h
    all_goals first
      | (cases h; done)
      | (simp only [Except.ok.injEq] at h; rw [← h]; exact hnil)
  · cases h

theorem jsonDecode_nodup (body : List Nat) (ending : ReadEnd) (S : GoMap)
    (h : jsonDecode body ending = .ok S) : S.keys.Nodup := by
  simp only [jsonDecode] at h
  split at h
  · cases h
  · exact unmarshal_nodup _ _ h

/-- A successful fetch is a successful `Decode` of some body. -/
theorem fetch_ok_decoded (w : World) (S : GoMap) (h : (fetchEnvironment w).result = .ok S) :
    ∃ body, jsonDecode body w.ending = .ok S := by
  rcases fetch_cases w with h1 | ⟨n, site, hs, h1⟩ | ⟨n, body, h1⟩
  · rw [h1] at h; simp at h
  · rw [h1] at h; simp at h
  · rw [h1] at h
    refine ⟨body, ?_⟩
    rcases decodeResult_cases (jsonDecode body w.ending) with ⟨env, h3, h2⟩ | ⟨_, h2⟩ | ⟨e, _, _, h2⟩
    · rw [h2] at h; simp only [Except.ok.injEq] at h; rw [h3, h]
    · rw [h2] at h; simp at h
    · rw [h2] at h; simp at h

/-! ## Lemmas: the scanner and `readValue` -/

theorem stateEndValue_class (step : StateFn) (ps : List ParseState) (c : Nat)
    (r : Scanner × Op) (hs : endsValue step = true ∨ ps ≠ [])
    (hr : stateEndValue ⟨step, false, ps, false⟩ c = r) :
    StepClass ⟨step, false, ps, false⟩ r := by
  cases ps with
  | nil =>
    have hs : endsValue step = true := by simpa using hs
    simp only [stateEndValue, stateEndTop, Scanner.error] at hr
    split_ifs at hr <;> subst hr <;> simp [StepClass, hs]
  | cons p ps =>
    cases p <;> simp only [stateEndValue, Scanner.error, Scanner.popParseState] at hr <;>
      split_ifs at hr <;> subst hr <;> simp_all [StepClass, ScanInv]

theorem pushParseState_class (s0 : Scanner) (step : StateFn) (ps : List ParseState)
    (p : ParseState) (op : Op) (r : Scanner × Op)
    (hop : op = .scanBeginObject ∨ op = .scanBeginArray)
    (hstep : step = .stateBeginStringOrEmpty ∨ step = .stateBeginValueOrEmpty)
    (hr : Scanner.pushParseState ⟨step, false, ps, false⟩ p op = r) :
    StepClass s0 r := by
  unfold Scanner.pushParseState at hr
  by_cases hle : (p :: ps).length ≤ maxNestingDepth
  · simp only [hle, if_true] at hr
    subst hr
    refine Or.inr (Or.inr (Or.inr ?_))
    rcases hop with h | h <;> rcases hstep with h2 | h2 <;> subst h <;> subst h2 <;>
      simp [ScanInv]
  · simp only [hle, if_false, Scanner.error] at hr
    subst hr; exact Or.inl rfl

theorem continue_class (s0 : Scanner) (step : StateFn) (ps : List ParseState) (op : Op)
    (h3 : step ≠ .stateEndTop) (h4 : step ≠ .stateError)
    (h5 : step = .stateBeginValueOrEmpty → ps ≠ [])
    (hop : op = .scanContinue ∨ op = .scanBeginLiteral ∨ op = .scanSkipSpace) :
    StepClass s0 (⟨step, false, ps, false⟩, op) := by
  refine Or.inr (Or.inr (Or.inr ?_))
  rcases hop with h | h | h <;> subst h <;> simp [ScanInv, h3, h4] <;> exact h5

theorem stateBeginValue_class (step : StateFn) (ps : List ParseState) (c : Nat)
    (r : Scanner × Op) (hr : stateBeginValue ⟨step, false, ps, false⟩ c = r)
    (h3 : step ≠ .stateEndTop) (h4 : step ≠ .stateError)
    (h5 : step = .stateBeginValueOrEmpty → ps ≠ []) :
    StepClass ⟨step, false, ps, false⟩ r := by
  unfold stateBeginValue at hr
  by_cases h1 : isSpace c = true
  · rw [if_pos h1] at hr; subst hr; exact continue_class _ _ _ _ h3 h4 h5 (by simp)
  rw [if_neg h1] at hr
  by_cases h2 : c = 123
  · rw [if_pos h2] at hr
    exact pushParseState_class _ _ _ _ _ _ (by simp) (by simp) hr
  rw [if_neg h2] at hr
  by_cases h2b : c = 91
  · rw [if_pos h2b] at hr
    exact pushParseState_class _ _ _ _ _ _ (by simp) (by simp) hr
  rw [if_neg h2b] at hr
  by_cases k0 : c = 34
  · rw [if_pos k0] at hr; subst hr
    exact continue_class _ _ _ _ (by simp) (by simp) (by simp) (by simp)
  rw [if_neg k0] at hr
  by_cases k1 : c = 45
  · rw [if_pos k1] at hr; subst hr
    exact continue_class _ _ _ _ (by simp) (by simp) (by simp) (by simp)
  rw [if_neg k1] at hr
  by_cases k2 : c = 48
  · rw [if_pos k2] at hr; subst hr
    exact continue_class _ _ _ _ (by simp) (by simp) (by simp) (by simp)
  rw [if_neg k2] at hr
  by_cases k3 : c = 116
  · rw [if_pos k3] at hr; subst hr
    exact continue_class _ _ _ _ (by simp) (by simp) (by simp) (by simp)
  rw [if_neg k3] at hr
  by_cases k4 : c = 102
  · rw [if_pos k4] at hr; subst hr
    exact continue_class _ _ _ _ (by simp) (by simp) (by simp) (by simp)
  rw [if_neg k4] at hr
  by_cases k5 : c = 110
  · rw [if_pos k5] at hr; subst hr
    exact continue_class _ _ _ _ (by simp) (by simp) (by simp) (by simp)
  rw [if_neg k5] at hr
  by_cases k9 : 49 ≤ c ∧ c ≤ 57
  · rw [if_pos k9] at hr; subst hr
    exact continue_class _ _ _ _ (by simp) (by simp) (by simp) (by simp)
  rw [if_neg k9] at hr
  subst hr; exact Or.inl rfl

theorem stateBeginString_class (step : StateFn) (ps : List ParseState) (c : Nat)
    (r : Scanner × Op) (hr : stateBeginString ⟨step, false, ps, false⟩ c = r)
    (h3 : step ≠ .stateEndTop) (h4 : step ≠ .stateError)
    (h5 : step = .stateBeginValueOrEmpty → ps ≠ []) :
    StepClass ⟨step, false, ps, false⟩ r := by
  simp only [stateBeginString, Scanner.error] at hr
  split_ifs at hr <;> subst hr <;> simp_all [StepClass, ScanInv]

theorem step_class (s : Scanner) (c : Nat) (h : ScanInv s) : StepClass s (s.stepFn c) := by
  obtain ⟨step, endTop, ps, err⟩ := s
  obtain ⟨h1, h2, h3, h4, h5⟩ := h
  simp only at h1 h2 h3 h4 h5
  subst h1; subst h2
  generalize hr : Scanner.stepFn ⟨step, false, ps, false⟩ c = r
  cases step
  case stateEndTop => exact absurd rfl h3
  case stateError => exact absurd rfl h4
  case stateEndValue => exact stateEndValue_class _ _ _ _ (Or.inl rfl) hr
  case stateBeginValue => exact stateBeginValue_class _ _ _ _ hr h3 h4 h5
  case stateBeginString => exact stateBeginString_class _ _ _ _ hr h3 h4 h5
  case stateBeginValueOrEmpty =>
    simp only [Scanner.stepFn, stateBeginValueOrEmpty] at hr
    split_ifs at hr
    · subst hr; simp_all [StepClass, ScanInv]
    · exact stateEndValue_class _ _ _ _ (Or.inr (h5 rfl)) hr
    · exact stateBeginValue_class _ _ _ _ hr h3 h4 h5
  case stateBeginStringOrEmpty =>
    simp only [Scanner.stepFn, stateBeginStringOrEmpty] at hr
    split_ifs at hr
    · subst hr; simp_all [StepClass, ScanInv]
    · rename_i hc
      have hsp : isSpace 125 = false := by decide
      cases ps with
      | nil =>
        simp only [stateEndValue, Scanner.error, Scanner.popParseState, hsp, hc] at hr
        subst hr; simp [StepClass]
      | cons p ps =>
        cases ps with
        | nil =>
          simp only [stateEndValue, Scanner.error, Scanner.popParseState, hsp, hc] at hr
          subst hr; simp [StepClass]
        | cons q ps =>
          simp only [stateEndValue, Scanner.error, Scanner.popParseState, hsp, hc] at hr
          subst hr; simp [StepClass, ScanInv]
    · exact stateBeginString_class _ _ _ _ hr h3 h4 h5
  case state0 =>
    simp only [Scanner.stepFn, state0] at hr
    split_ifs at hr
    · subst hr; simp_all [StepClass, ScanInv]
    · subst hr; simp_all [StepClass, ScanInv]
    · exact stateEndValue_class _ _ _ _ (Or.inl rfl) hr
  case state1 =>
    simp only [Scanner.stepFn, state1, state0] at hr
    split_ifs at hr
    · subst hr; simp_all [StepClass, ScanInv]
    · subst hr; simp_all [StepClass, ScanInv]
    · subst hr; simp_all [StepClass, ScanInv]
    · exact stateEndValue_class _ _ _ _ (Or.inl rfl) hr
  case stateDot0 =>
    simp only [Scanner.stepFn, stateDot0] at hr
    split_ifs at hr
    · subst hr; simp_all [StepClass, ScanInv]
    · subst hr; simp_all [StepClass, ScanInv]
    · exact stateEndValue_class _ _ _ _ (Or.inl rfl) hr
  case stateE0 =>
    simp only [Scanner.stepFn, stateE0] at hr
    split_ifs at hr
    · subst hr; simp_all [StepClass, ScanInv]
    · exact stateEndValue_class _ _ _ _ (Or.inl rfl) hr
  all_goals
    simp only [Scanner.stepFn, stateInString, stateInStringEsc, stateHexDigit, stateNeg,
      stateDot, stateE, stateESign, stateLetter, Scanner.error] at hr
    split_ifs at hr <;> subst hr <;> simp_all [StepClass, ScanInv]

theorem endsValue_space (s : Scanner) (h : endsValue s.step = true) (hp : s.parseState = []) :
    (s.stepFn 32).1.endTop = true ∧ (s.stepFn 32).2 = .scanEnd := by
  obtain ⟨step, endTop, ps, err⟩ := s
  simp only at h hp
  subst hp
  cases step <;> simp [endsValue] at h <;>
    simp [Scanner.stepFn, state0, state1, stateDot0, stateE0, stateEndValue, stateEndTop,
      isSpace, isDigit]

theorem scanInv_reset : ScanInv Scanner.reset := by
  simp [ScanInv, Scanner.reset]

theorem eof_of_endTop (s : Scanner) (h1 : s.err = false) (h2 : s.endTop = true) :
    (s.eof).2 = .scanEnd := by
  simp [Scanner.eof, h1, h2]

theorem eof_of_endsValue (s : Scanner) (h : ScanInv s) (he : endsValue s.step = true)
    (hp : s.parseState = []) : (s.eof).2 = .scanEnd := by
  have := (endsValue_space s he hp).1
  simp [Scanner.eof, h.1, h.2.1, this]

theorem stateEndValue_space_nonempty (s : Scanner) (h : s.parseState ≠ []) :
    (stateEndValue s 32).2 = .scanSkipSpace := by
  obtain ⟨step, endTop, ps, err⟩ := s
  cases ps with
  | nil => exact absurd rfl h
  | cons p ps => simp [stateEndValue, isSpace]

theorem stateEndValue_space_empty (s : Scanner) (h : s.parseState = []) :
    (stateEndValue s 32).2 = .scanEnd := by
  obtain ⟨step, endTop, ps, err⟩ := s
  simp only at h
  subst h
  simp [stateEndValue, stateEndTop, isSpace]

theorem checkValidFrom_cons (s : Scanner) (c : Nat) (rest : List Nat)
    (h : (s.stepFn c).2 ≠ .scanError) :
    checkValidFrom s (c :: rest) = checkValidFrom (s.stepFn c).1 rest := by
  simp [checkValidFrom, h]

/-- The value `readValue` finds is well-formed JSON: the bytes it covers pass
`json.Valid`. -/
theorem readValueFrom_valid (ending : ReadEnd) (buf : List Nat) (data : List Nat)
    (s : Scanner) (n0 n : Nat) (hs : ScanInv s)
    (h : readValueFrom ending buf s data n0 = .ok n) :
    ∃ m, n = n0 + m ∧ checkValidFrom s (data.take m) = true := by
  induction data generalizing s n0 with
  | nil =>
    refine ⟨0, ?_, ?_⟩
    · cases ending <;> simp only [readValueFrom] at h
      · split at h
        · simp only [Except.ok.injEq] at h; omega
        · split at h <;> cases h
      · cases h
    · cases ending <;> simp only [readValueFrom] at h
      · split at h
        · rename_i hend
          rcases step_class s 32 hs with hc | ⟨_, hp, he⟩ | ⟨hc, _⟩ | ⟨hc, _⟩
          · rw [hend] at hc; cases hc
          · simp [checkValidFrom, eof_of_endsValue s hs he hp]
          · rw [hend] at hc; rcases hc with hc | hc <;> cases hc
          · exact absurd hend hc
        · split at h <;> cases h
      · cases h
  | cons c rest ih =>
    have hcl := step_class s c hs
    cases hop : (s.stepFn c).2
    case scanEnd =>
      simp only [readValueFrom, hop, Except.ok.injEq] at h
      refine ⟨0, by omega, ?_⟩
      rcases hcl with hc | ⟨_, hp, he⟩ | ⟨hc, _⟩ | ⟨hc, _⟩
      · rw [hop] at hc; cases hc
      · simp [checkValidFrom, eof_of_endsValue s hs he hp]
      · rw [hop] at hc; rcases hc with hc | hc <;> cases hc
      · exact absurd hop hc
    case scanError =>
      simp only [readValueFrom, hop] at h
      cases h
    case scanEndObject =>
      simp only [readValueFrom, hop] at h
      rcases hcl with hc | ⟨hc, _⟩ | ⟨_, hp, het, herr⟩ | ⟨_, _, hinv, hne⟩
      · rw [hop] at hc; cases hc
      · rw [hop] at hc; cases hc
      · rw [if_pos (stateEndValue_space_empty _ hp)] at h
        simp only [Except.ok.injEq] at h
        refine ⟨1, by omega, ?_⟩
        simp only [List.take_succ_cons, List.take_zero]
        rw [checkValidFrom_cons _ _ _ (by rw [hop]; simp)]
        simp [checkValidFrom, eof_of_endTop _ herr het]
      · have hne2 := hne (Or.inl hop)
        have : ¬ (stateEndValue (s.stepFn c).1 32).2 = .scanEnd := by
          rw [stateEndValue_space_nonempty _ hne2]; simp
        rw [if_neg this] at h
        obtain ⟨m, hm, hv⟩ := ih _ _ hinv h
        refine ⟨m + 1, by omega, ?_⟩
        simp only [List.take_succ_cons]
        rw [checkValidFrom_cons _ _ _ (by rw [hop]; simp)]
        exact hv
    case scanEndArray =>
      simp only [readValueFrom, hop] at h
      rcases hcl with hc | ⟨hc, _⟩ | ⟨_, hp, het, herr⟩ | ⟨_, _, hinv, hne⟩
      · rw [hop] at hc; cases hc
      · rw [hop] at hc; cases hc
      · rw [if_pos (stateEndValue_space_empty _ hp)] at h
        simp only [Except.ok.injEq] at h
        refine ⟨1, by omega, ?_⟩
        simp only [List.take_succ_cons, List.take_zero]
        rw [checkValidFrom_cons _ _ _ (by rw [hop]; simp)]
        simp [checkValidFrom, eof_of_endTop _ herr het]
      · have hne2 := hne (Or.inr hop)
        have : ¬ (stateEndValue (s.stepFn c).1 32).2 = .scanEnd := by
          rw [stateEndValue_space_nonempty _ hne2]; simp
        rw [if_neg this] at h
        obtain ⟨m, hm, hv⟩ := ih _ _ hinv h
        refine ⟨m + 1, by omega, ?_⟩
        simp only [List.take_succ_cons]
        rw [checkValidFrom_cons _ _ _ (by rw [hop]; simp)]
        exact hv
    all_goals
      simp only [readValueFrom, hop] at h
      rcases hcl with hc | ⟨hc, _⟩ | ⟨hc, _⟩ | ⟨_, _, hinv, _⟩
      · rw [hop] at hc; cases hc
      · rw [hop] at hc; cases hc
      · rw [hop] at hc; rcases hc with hc | hc <;> cases hc
      · obtain ⟨m, hm, hv⟩ := ih _ _ hinv h
        refine ⟨m + 1, by omega, ?_⟩
        simp only [List.take_succ_cons]
        rw [checkValidFrom_cons _ _ _ (by rw [hop]; simp)]
        exact hv

theorem readValue_valid (data : List Nat) (ending : ReadEnd) (n : Nat)
    (h : readValue data ending = .ok n) : jsonValid (data.take n) = true := by
  obtain ⟨m, hm, hv⟩ := readValueFrom_valid ending data data Scanner.reset 0 n scanInv_reset h
  have : m = n := by omega
  subst this
  exact hv

theorem readValueFrom_not_panic (ending : ReadEnd) (buf : List Nat) (data : List Nat)
    (s : Scanner) (n0 : Nat) (e : JsonErr)
    (h : readValueFrom ending buf s data n0 = .error e) : e ≠ .phasePanic := by
  induction data generalizing s n0 with
  | nil =>
    cases ending <;> simp only [readValueFrom] at h
    · split at h
      · cases h
      · split at h <;> (cases h; simp)
    · cases h; simp
  | cons c rest ih =>
    cases hop : (s.stepFn c).2 <;> simp only [readValueFrom, hop] at h
    case scanEnd => cases h
    case scanError => cases h; simp
    case scanEndObject =>
      split at h
      · cases h
      · exact ih _ _ h
    case scanEndArray =>
      split at h
      · cases h
      · exact ih _ _ h
    all_goals exact ih _ _ h

/-- A body none of whose leading parts is well-formed JSON is not decoded: `Decode`
returns an error (and does not panic). -/
theorem jsonDecode_error_of_no_valid_prefix (body : List Nat) (ending : ReadEnd)
    (h : ∀ n, jsonValid (body.take n) = false) :
    ∃ e, jsonDecode body ending = .error e ∧ e ≠ .phasePanic := by
  cases hr : readValue body ending with
  | ok n =>
    have := readValue_valid body ending n hr
    rw [h n] at this; cases this
  | error e =>
    refine ⟨e, by simp [jsonDecode, hr], ?_⟩
    exact readValueFrom_not_panic _ _ _ _ _ _ hr

/-! ## Lemmas: UTF-8 -/

theorem encodeRune_ascii (c : Nat) (h : c < 0x80) : encodeRune c = [c] := by
  have : c ≤ 0x7F := by omega
  simp [encodeRune, this]

theorem encodeRune_length_pos (c : Nat) : 0 < (encodeRune c).length := by
  unfold encodeRune
  split_ifs <;> simp

theorem encodeRune_high (c : Nat) (hs : isScalar c) (h : 0x80 ≤ c) :
    ∀ b ∈ encodeRune c, 0x80 ≤ b ∧ b < 256 := by
  unfold isScalar at hs
  unfold encodeRune
  intro b hb
  split_ifs at hb with h1 h2 h3 h4
  · omega
  · simp only [List.mem_cons, List.mem_singleton, List.not_mem_nil, or_false] at hb
    rcases hb with e | e <;> subst e <;> omega
  · simp only [List.mem_cons, List.mem_singleton, List.not_mem_nil, or_false] at hb
    rcases hb with e | e | e <;> subst e <;> omega
  · simp only [List.mem_cons, List.mem_singleton, List.not_mem_nil, or_false] at hb
    rcases hb with e | e | e | e <;> subst e <;> omega
  · omega

theorem decodeRune_two (p0 b1 : Nat) (rest : List Nat) (h0 : 0xC2 ≤ p0) (h0b : p0 < 0xE0)
    (h1 : 0x80 ≤ b1) (h1b : b1 ≤ 0xBF) :
    decodeRune (p0 :: b1 :: rest) = ((p0 % 32) * 64 + b1 % 64, 2) := by
  have a1 : ¬ p0 < 0x80 := by omega
  have a2 : ¬ (p0 < 0xC2 ∨ 0xF4 < p0) := by omega
  have a4 : ¬ p0 = 0xE0 := by omega
  have a5 : ¬ p0 = 0xF0 := by omega
  have a6 : ¬ p0 = 0xED := by omega
  have a7 : ¬ p0 = 0xF4 := by omega
  have a8 : ¬ (b1 < 0x80 ∨ 0xBF < b1) := by omega
  simp only [decodeRune, a1, a2, h0b, a4, a5, a6, a7, a8, if_true, if_false, List.length_cons]
  simp

theorem decodeRune_three (p0 b1 b2 : Nat) (rest : List Nat) (h0 : 0xE0 ≤ p0) (h0b : p0 < 0xF0)
    (h1 : (if p0 = 0xE0 then 0xA0 else 0x80) ≤ b1)
    (h1b : b1 ≤ (if p0 = 0xED then 0x9F else 0xBF))
    (h2 : 0x80 ≤ b2) (h2b : b2 ≤ 0xBF) :
    decodeRune (p0 :: b1 :: b2 :: rest) =
      ((p0 % 16) * 4096 + (b1 % 64) * 64 + b2 % 64, 3) := by
  have a1 : ¬ p0 < 0x80 := by omega
  have a2 : ¬ (p0 < 0xC2 ∨ 0xF4 < p0) := by omega
  have a3 : ¬ p0 < 0xE0 := by omega
  have a5 : ¬ p0 = 0xF0 := by omega
  have a7 : ¬ p0 = 0xF4 := by omega
  have a9 : ¬ (b2 < 0x80 ∨ 0xBF < b2) := by omega
  by_cases e0 : p0 = 0xE0
  · have a6 : ¬ p0 = 0xED := by omega
    simp only [e0, if_true] at h1
    simp only [a6, if_false] at h1b
    have a8 : ¬ (b1 < 0xA0 ∨ 0xBF < b1) := by omega
    simp only [decodeRune, a1, a2, a3, h0b, e0, a5, a6, a7, a8, a9, if_true, if_false,
      List.length_cons]
    subst e0
    simp [a8]
  · by_cases e1 : p0 = 0xED
    · simp only [e0, if_false] at h1
      simp only [e1, if_true] at h1b
      have a8 : ¬ (b1 < 0x80 ∨ 0x9F < b1) := by omega
      simp only [decodeRune, a1, a2, a3, h0b, e0, a5, e1, a7, a8, a9, if_true, if_false,
        List.length_cons]
      subst e1
      simp [a8]
    · simp only [e0, if_false] at h1
      simp only [e1, if_false] at h1b
      have a8 : ¬ (b1 < 0x80 ∨ 0xBF < b1) := by omega
      simp only [decodeRune, a1, a2, a3, h0b, e0, a5, e1, a7, a8, a9, if_true, if_false,
        List.length_cons]
      simp [a8]

theorem decodeRune_four (p0 b1 b2 b3 : Nat) (rest : List Nat) (h0 : 0xF0 ≤ p0)
    (h0b : p0 ≤ 0xF4)
    (h1 : (if p0 = 0xF0 then 0x90 else 0x80) ≤ b1)
    (h1b : b1 ≤ (if p0 = 0xF4 then 0x8F else 0xBF))
    (h2 : 0x80 ≤ b2) (h2b : b2 ≤ 0xBF) (h3 : 0x80 ≤ b3) (h3b : b3 ≤ 0xBF) :
    decodeRune (p0 :: b1 :: b2 :: b3 :: rest) =
      ((p0 % 8) * 262144 + (b1 % 64) * 4096 + (b2 % 64) * 64 + b3 % 64, 4) := by
  have a1 : ¬ p0 < 0x80 := by omega
  have a2 : ¬ (p0 < 0xC2 ∨ 0xF4 < p0) := by omega
  have a3 : ¬ p0 < 0xE0 := by omega
  have a3b : ¬ p0 < 0xF0 := by omega
  have a4 : ¬ p0 = 0xE0 := by omega
  have a6 : ¬ p0 = 0xED := by omega
  have a9 : ¬ (b2 < 0x80 ∨ 0xBF < b2) := by omega
  have a10 : ¬ (b3 < 0x80 ∨ 0xBF < b3) := by omega
  by_cases e0 : p0 = 0xF0
  · have a7 : ¬ p0 = 0xF4 := by omega
    simp only [e0, if_true] at h1
    simp only [a7, if_false] at h1b
    have a8 : ¬ (b1 < 0x90 ∨ 0xBF < b1) := by omega
    simp only [decodeRune, a1, a2, a3, a3b, a4, e0, a6, a7, a8, a9, a10, if_true, if_false,
      List.length_cons]
    subst e0
    simp [a8]
  · by_cases e1 : p0 = 0xF4
    · simp only [e0, if_false] at h1
      simp only [e1, if_true] at h1b
      have a8 : ¬ (b1 < 0x80 ∨ 0x8F < b1) := by omega
      simp only [decodeRune, a1, a2, a3, a3b, a4, e0, a6, e1, a8, a9, a10, if_true, if_false,
        List.length_cons]
      subst e1
      simp [a8]
    · simp only [e0, if_false] at h1
      simp only [e1, if_false] at h1b
      have a8 : ¬ (b1 < 0x80 ∨ 0xBF < b1) := by omega
      simp only [decodeRune, a1, a2, a3, a3b, a4, e0, a6, e1, a8, a9, a10, if_true, if_false,
        List.length_cons]
      simp [a8]

/-- Decoding the encoding of a Unicode scalar value gives the value back and consumes
exactly its encoding. -/
theorem decodeRune_encodeRune (c : Nat) (rest : List Nat) (hs : isScalar c) (h : 0x80 ≤ c) :
    decodeRune (encodeRune c ++ rest) = (c, (encodeRune c).length) := by
  unfold isScalar at hs
  unfold encodeRune
  split_ifs with h1 h2 h3 h4
  · omega
  · simp only [List.cons_append, List.nil_append, List.length_cons, List.length_nil]
    rw [decodeRune_two _ _ _ (by omega) (by omega) (by omega) (by omega)]
    congr 1; omega
  · simp only [List.cons_append, List.nil_append, List.length_cons, List.length_nil]
    rw [decodeRune_three _ _ _ _ (by omega) (by omega) (by split_ifs <;> omega)
      (by split_ifs <;> omega) (by omega) (by omega)]
    congr 1; omega
  · simp only [List.cons_append, List.nil_append, List.length_cons, List.length_nil]
    rw [decodeRune_four _ _ _ _ _ (by omega) (by omega) (by split_ifs <;> omega)
      (by split_ifs <;> omega) (by omega) (by omega) (by omega) (by omega)]
    congr 1; omega
  · omega

/-! ## Lemmas: the scanner on the text of an object of strings -/

theorem Quiet.append {s t u : Scanner} {a b : List Nat} (h1 : Quiet s a t) (h2 : Quiet t b u) :
    Quiet s (a ++ b) u := by
  induction h1 with
  | nil s => exact h2
  | cons s t c seg k1 k2 k3 k4 _ ih => exact Quiet.cons _ _ _ _ k1 k2 k3 k4 (ih h2)

theorem Quiet.single (s t : Scanner) (c : Nat) (op : Op) (h : s.stepFn c = (t, op))
    (h1 : op ≠ .scanEnd) (h2 : op ≠ .scanEndObject) (h3 : op ≠ .scanEndArray)
    (h4 : op ≠ .scanError) : Quiet s [c] t := by
  have e1 : (s.stepFn c).1 = t := by rw [h]
  have e2 : (s.stepFn c).2 = op := by rw [h]
  refine Quiet.cons _ _ _ _ (by rw [e2]; exact h1) (by rw [e2]; exact h2)
    (by rw [e2]; exact h3) (by rw [e2]; exact h4) ?_
  rw [e1]; exact Quiet.nil _

theorem isSpace_of_ws (b : Nat) (h : b = 32 ∨ b = 9 ∨ b = 10 ∨ b = 13) : isSpace b = true := by
  rcases h with h | h | h | h <;> subst h <;> decide

theorem step_space (step : StateFn) (ps : List ParseState) (c : Nat) (hc : isSpace c = true)
    (h : skipsSpace step ps) : (sk step ps).stepFn c = (sk step ps, .scanSkipSpace) := by
  rcases h with h | h | h | ⟨h, hp⟩ <;> subst h
  · simp [sk, Scanner.stepFn, stateBeginValue, hc]
  · simp [sk, Scanner.stepFn, stateBeginString, hc]
  · simp [sk, Scanner.stepFn, stateBeginStringOrEmpty, hc]
  · cases ps with
    | nil => exact absurd rfl hp
    | cons p ps => simp [sk, Scanner.stepFn, stateEndValue, hc]

theorem quiet_ws (step : StateFn) (ps : List ParseState) (ws : List Nat)
    (hw : isWhitespace ws) (h : skipsSpace step ps) : Quiet (sk step ps) ws (sk step ps) := by
  induction ws with
  | nil => exact Quiet.nil _
  | cons c ws ih =>
    have hc := isSpace_of_ws c (hw c (List.mem_cons_self _ _))
    have hs := step_space step ps c hc h
    have := Quiet.single _ _ c _ hs (by simp) (by simp) (by simp) (by simp)
    exact Quiet.append this (ih (fun b hb => hw b (List.mem_cons_of_mem _ hb)))

theorem step_quote (step : StateFn) (ps : List ParseState) (h : beginsString step) :
    (sk step ps).stepFn 34 = (sk .stateInString ps, .scanBeginLiteral) := by
  have hsp : isSpace 34 = false := by decide
  rcases h with h | h | h <;> subst h
  · simp [sk, Scanner.stepFn, stateBeginValue, hsp]
  · simp [sk, Scanner.stepFn, stateBeginString, hsp]
  · simp [sk, Scanner.stepFn, stateBeginStringOrEmpty, stateBeginString, hsp]

theorem step_inString_plain (ps : List ParseState) (b : Nat) (h1 : b ≠ 34) (h2 : b ≠ 92)
    (h3 : 32 ≤ b) : (sk .stateInString ps).stepFn b = (sk .stateInString ps, .scanContinue) := by
  have : ¬ b < 32 := by omega
  simp [sk, Scanner.stepFn, stateInString, h1, h2, this]

theorem quiet_plain_bytes (ps : List ParseState) (bs : List Nat)
    (h : ∀ b ∈ bs, b ≠ 34 ∧ b ≠ 92 ∧ 32 ≤ b) :
    Quiet (sk .stateInString ps) bs (sk .stateInString ps) := by
  induction bs with
  | nil => exact Quiet.nil _
  | cons b bs ih =>
    obtain ⟨h1, h2, h3⟩ := h b (List.mem_cons_self _ _)
    have := Quiet.single _ _ b _ (step_inString_plain ps b h1 h2 h3)
      (by simp) (by simp) (by simp) (by simp)
    exact Quiet.append this (ih (fun x hx => h x (List.mem_cons_of_mem _ hx)))

theorem plain_bytes (c : Nat) (h : (StrItem.plain c).valid) :
    ∀ b ∈ encodeRune c, b ≠ 34 ∧ b ≠ 92 ∧ 32 ≤ b := by
  obtain ⟨hs, h1, h2, h3⟩ := h
  intro b hb
  by_cases hc : c < 0x80
  · rw [encodeRune_ascii c hc] at hb
    simp only [List.mem_singleton] at hb
    subst hb
    exact ⟨h2, h3, h1⟩
  · have := encodeRune_high c hs (by omega) b hb
    omega

theorem step_hex (cur next : StateFn) (ps : List ParseState) (c : Nat) (hc : isHex c = true)
    (h : (cur = .stateInStringEscU ∧ next = .stateInStringEscU1) ∨
      (cur = .stateInStringEscU1 ∧ next = .stateInStringEscU12) ∨
      (cur = .stateInStringEscU12 ∧ next = .stateInStringEscU123) ∨
      (cur = .stateInStringEscU123 ∧ next = .stateInString)) :
    (sk cur ps).stepFn c = (sk next ps, .scanContinue) := by
  rcases h with ⟨h1, h2⟩ | ⟨h1, h2⟩ | ⟨h1, h2⟩ | ⟨h1, h2⟩ <;> subst h1 <;> subst h2 <;>
    simp [sk, Scanner.stepFn, stateHexDigit, hc]

theorem quiet_uni (ps : List ParseState) (a b c d : Nat) (ha : isHex a = true)
    (hb : isHex b = true) (hc : isHex c = true) (hd : isHex d = true) :
    Quiet (sk .stateInString ps) [92, 117, a, b, c, d] (sk .stateInString ps) := by
  have s1 : (sk .stateInString ps).stepFn 92 = (sk .stateInStringEsc ps, .scanContinue) := by
    simp [sk, Scanner.stepFn, stateInString]
  have s2 : (sk .stateInStringEsc ps).stepFn 117 = (sk .stateInStringEscU ps, .scanContinue) := by
    simp [sk, Scanner.stepFn, stateInStringEsc]
  have q1 := Quiet.single _ _ _ _ s1 (by simp) (by simp) (by simp) (by simp)
  have q2 := Quiet.single _ _ _ _ s2 (by simp) (by simp) (by simp) (by simp)
  have q3 := Quiet.single _ _ _ _ (step_hex _ _ ps a ha (Or.inl ⟨rfl, rfl⟩))
    (by simp) (by simp) (by simp) (by simp)
  have q4 := Quiet.single _ _ _ _ (step_hex _ _ ps b hb (Or.inr (Or.inl ⟨rfl, rfl⟩)))
    (by simp) (by simp) (by simp) (by simp)
  have q5 := Quiet.single _ _ _ _ (step_hex _ _ ps c hc (Or.inr (Or.inr (Or.inl ⟨rfl, rfl⟩))))
    (by simp) (by simp) (by simp) (by simp)
  have q6 := Quiet.single _ _ _ _ (step_hex _ _ ps d hd (Or.inr (Or.inr (Or.inr ⟨rfl, rfl⟩))))
    (by simp) (by simp) (by simp) (by simp)
  exact Quiet.append q1 (Quiet.append q2 (Quiet.append q3 (Quiet.append q4 (Quiet.append q5 q6))))

theorem quiet_item (ps : List ParseState) (i : StrItem) (h : i.valid) :
    Quiet (sk .stateInString ps) i.render (sk .stateInString ps) := by
  cases i with
  | plain c => exact quiet_plain_bytes ps _ (plain_bytes c h)
  | esc b =>
    have s1 : (sk .stateInString ps).stepFn 92 = (sk .stateInStringEsc ps, .scanContinue) := by
      simp [sk, Scanner.stepFn, stateInString]
    have s2 : (sk .stateInStringEsc ps).stepFn b = (sk .stateInString ps, .scanContinue) := by
      simp only [StrItem.valid] at h
      have : b = 98 ∨ b = 102 ∨ b = 110 ∨ b = 114 ∨ b = 116 ∨ b = 92 ∨ b = 47 ∨ b = 34 := by
        omega
      simp [sk, Scanner.stepFn, stateInStringEsc, this]
    have q1 := Quiet.single _ _ _ _ s1 (by simp) (by simp) (by simp) (by simp)
    have q2 := Quiet.single _ _ _ _ s2 (by simp) (by simp) (by simp) (by simp)
    exact Quiet.append q1 q2
  | uni a b c d =>
    obtain ⟨ha, hb, hc, hd, _⟩ := h
    exact quiet_uni ps a b c d ha hb hc hd
  | pair a b c d e f g h2 =>
    obtain ⟨ha, hb, hc, hd, he, hf, hg, hh, _⟩ := h
    exact Quiet.append (quiet_uni ps a b c d ha hb hc hd) (quiet_uni ps e f g h2 he hf hg hh)

theorem quiet_items (ps : List ParseState) (items : List StrItem) (h : ∀ i ∈ items, i.valid) :
    Quiet (sk .stateInString ps) (renderItems items) (sk .stateInString ps) := by
  induction items with
  | nil => exact Quiet.nil _
  | cons i items ih =>
    simp only [renderItems, List.flatMap_cons]
    exact Quiet.append (quiet_item ps i (h i (List.mem_cons_self _ _)))
      (ih (fun x hx => h x (List.mem_cons_of_mem _ hx)))

theorem quiet_string (step : StateFn) (ps : List ParseState) (items : List StrItem)
    (hb : beginsString step) (h : ∀ i ∈ items, i.valid) :
    Quiet (sk step ps) (renderString items) (sk .stateEndValue ps) := by
  have q1 := Quiet.single _ _ _ _ (step_quote step ps hb) (by simp) (by simp) (by simp) (by simp)
  have s3 : (sk .stateInString ps).stepFn 34 = (sk .stateEndValue ps, .scanContinue) := by
    simp [sk, Scanner.stepFn, stateInString]
  have q3 := Quiet.single _ _ _ _ s3 (by simp) (by simp) (by simp) (by simp)
  have := Quiet.append q1 (Quiet.append (quiet_items ps items h) q3)
  simpa [renderString] using this

theorem skipsSpace_of_begins (step : StateFn) (ps : List ParseState) (h : beginsString step) :
    skipsSpace step ps := by
  rcases h with h | h | h
  · exact Or.inl h
  · exact Or.inr (Or.inl h)
  · exact Or.inr (Or.inr (Or.inl h))

theorem quiet_member (step : StateFn) (ps : List ParseState) (m : Member)
    (hb : step = .stateBeginString ∨ step = .stateBeginStringOrEmpty) (hm : m.valid) :
    Quiet (sk step (.parseObjectKey :: ps)) m.render
      (sk .stateEndValue (.parseObjectValue :: ps)) := by
  obtain ⟨w1, w2, w3, w4, hk, hv⟩ := hm
  have hbs : beginsString step := Or.inr hb
  have q1 := quiet_ws step (.parseObjectKey :: ps) m.ws1 w1 (skipsSpace_of_begins _ _ hbs)
  have q2 := quiet_string step (.parseObjectKey :: ps) m.key hbs hk
  have q3 := quiet_ws .stateEndValue (.parseObjectKey :: ps) m.ws2 w2
    (Or.inr (Or.inr (Or.inr ⟨rfl, by simp⟩)))
  have s4 : (sk .stateEndValue (.parseObjectKey :: ps)).stepFn 58 =
      (sk .stateBeginValue (.parseObjectValue :: ps), .scanObjectKey) := by
    have : isSpace 58 = false := by decide
    simp [sk, Scanner.stepFn, stateEndValue, this]
  have q4 := Quiet.single _ _ _ _ s4 (by simp) (by simp) (by simp) (by simp)
  have q5 := quiet_ws .stateBeginValue (.parseObjectValue :: ps) m.ws3 w3 (Or.inl rfl)
  have q6 := quiet_string .stateBeginValue (.parseObjectValue :: ps) m.val (Or.inl rfl) hv
  have q7 := quiet_ws .stateEndValue (.parseObjectValue :: ps) m.ws4 w4
    (Or.inr (Or.inr (Or.inr ⟨rfl, by simp⟩)))
  exact Quiet.append q1 (Quiet.append q2 (Quiet.append q3
    (Quiet.append q4 (Quiet.append q5 (Quiet.append q6 q7)))))

theorem quiet_members (step : StateFn) (ps : List ParseState) (m : Member) (ms : List Member)
    (hb : step = .stateBeginString ∨ step = .stateBeginStringOrEmpty)
    (hm : ∀ x ∈ m :: ms, x.valid) :
    Quiet (sk step (.parseObjectKey :: ps)) (renderMembers (m :: ms))
      (sk .stateEndValue (.parseObjectValue :: ps)) := by
  induction ms generalizing m step with
  | nil => exact quiet_member step ps m hb (hm m (List.mem_cons_self _ _))
  | cons m2 ms ih =>
    have q1 := quiet_member step ps m hb (hm m (List.mem_cons_self _ _))
    have s2 : (sk .stateEndValue (.parseObjectValue :: ps)).stepFn 44 =
        (sk .stateBeginString (.parseObjectKey :: ps), .scanObjectValue) := by
      have : isSpace 44 = false := by decide
      simp [sk, Scanner.stepFn, stateEndValue, this]
    have q2 := Quiet.single _ _ _ _ s2 (by simp) (by simp) (by simp) (by simp)
    have q3 := ih .stateBeginString m2 (Or.inl rfl)
      (fun x hx => hm x (List.mem_cons_of_mem _ hx))
    exact Quiet.append q1 (Quiet.append q2 q3)

theorem readValueFrom_quiet (ending : ReadEnd) (buf : List Nat) (s t : Scanner)
    (seg rest : List Nat) (n : Nat) (h : Quiet s seg t) :
    readValueFrom ending buf s (seg ++ rest) n =
      readValueFrom ending buf t rest (n + seg.length) := by
  induction h generalizing n with
  | nil s => simp
  | cons s t c seg h1 h2 h3 h4 _ ih =>
    have e : readValueFrom ending buf s (c :: (seg ++ rest)) n =
        readValueFrom ending buf (s.stepFn c).1 (seg ++ rest) (n + 1) := by
      cases hop : (s.stepFn c).2 <;> simp only [readValueFrom, hop] <;>
        first | exact absurd hop h1 | exact absurd hop h2 | exact absurd hop h3
              | exact absurd hop h4
    rw [List.cons_append, e, ih]
    simp only [List.length_cons]
    congr 1; omega

/-- The scanner of `readValue` finds the end of an object of strings at its closing
brace, whatever follows. -/
theorem readValue_object (ws0 wsE : List Nat) (members : List Member) (rest : List Nat)
    (ending : ReadEnd) (h0 : isWhitespace ws0) (hE : isWhitespace wsE)
    (hm : ∀ m ∈ members, m.valid) :
    readValue (renderObject ws0 wsE members ++ rest) ending =
      .ok (renderObject ws0 wsE members).length := by
  have q0 : Quiet (sk .stateBeginValue []) ws0 (sk .stateBeginValue []) :=
    quiet_ws _ _ ws0 h0 (Or.inl rfl)
  have s1 : (sk .stateBeginValue []).stepFn 123 =
      (sk .stateBeginStringOrEmpty [.parseObjectKey], .scanBeginObject) := by
    have : isSpace 123 = false := by decide
    have hle : 1 ≤ maxNestingDepth := by decide
    simp [sk, Scanner.stepFn, stateBeginValue, this, Scanner.pushParseState, hle]
  have q1 := Quiet.single _ _ _ _ s1 (by simp) (by simp) (by simp) (by simp)
  have hfin : ∀ (s : Scanner) (n : Nat), (s.stepFn 125).2 = .scanEndObject →
      (s.stepFn 125).1.parseState = [] →
      readValueFrom ending (renderObject ws0 wsE members ++ rest) s (125 :: rest) n =
        .ok (n + 1) := by
    intro s n hop hp
    simp only [readValueFrom, hop, stateEndValue_space_empty _ hp, if_true]
  unfold readValue
  have hreset : Scanner.reset = sk .stateBeginValue [] := rfl
  rw [hreset]
  cases members with
  | nil =>
    have q2 : Quiet (sk .stateBeginStringOrEmpty [.parseObjectKey]) wsE
        (sk .stateBeginStringOrEmpty [.parseObjectKey]) :=
      quiet_ws _ _ wsE hE (Or.inr (Or.inr (Or.inl rfl)))
    have q := Quiet.append q0 (Quiet.append q1 q2)
    have e : renderObject ws0 wsE [] ++ rest = (ws0 ++ ([123] ++ wsE)) ++ (125 :: rest) := by
      simp [renderObject, renderInner]
    have hs : (sk .stateBeginStringOrEmpty [.parseObjectKey]).stepFn 125 =
        (⟨.stateEndTop, true, [], false⟩, .scanEndObject) := by
      have : isSpace 125 = false := by decide
      simp [sk, Scanner.stepFn, stateBeginStringOrEmpty, stateEndValue, this,
        Scanner.popParseState]
    conv_lhs => rw [e]
    rw [readValueFrom_quiet _ _ _ _ _ _ _ q]
    rw [← e, hfin _ _ (by rw [hs]) (by rw [hs])]
    simp [renderObject, renderInner]
    omega
  | cons m ms =>
    have q2 := quiet_members .stateBeginStringOrEmpty [] m ms (Or.inr rfl) hm
    have q := Quiet.append q0 (Quiet.append q1 q2)
    have e : renderObject ws0 wsE (m :: ms) ++ rest =
        (ws0 ++ ([123] ++ renderMembers (m :: ms))) ++ (125 :: rest) := by
      simp [renderObject, renderInner]
    have hs : (sk .stateEndValue [.parseObjectValue]).stepFn 125 =
        (⟨.stateEndTop, true, [], false⟩, .scanEndObject) := by
      have : isSpace 125 = false := by decide
      simp [sk, Scanner.stepFn, stateEndValue, this, Scanner.popParseState]
    conv_lhs => rw [e]
    rw [readValueFrom_quiet _ _ _ _ _ _ _ q]
    rw [← e, hfin _ _ (by rw [hs]) (by rw [hs])]
    simp [renderObject, renderInner]
    omega

/-! ## Lemmas: `unquoteBytes` on a string literal -/

theorem hexVal_of_isHex (c : Nat) (h : isHex c = true) : hexVal c = some (hexValue c) := by
  simp only [isHex, Bool.or_eq_true, Bool.and_eq_true, decide_eq_true_eq] at h
  unfold hexVal hexValue
  rcases h with (h | h) | h
  · have a : 48 ≤ c ∧ c ≤ 57 := h
    rw [if_pos a, if_pos h.2]
  · have a : ¬ (48 ≤ c ∧ c ≤ 57) := by omega
    have b : 97 ≤ c ∧ c ≤ 102 := h
    have c1 : ¬ c ≤ 57 := by omega
    have c2 : ¬ c ≤ 70 := by omega
    rw [if_neg a, if_pos b, if_neg c1, if_neg c2]
    congr 1; omega
  · have a : ¬ (48 ≤ c ∧ c ≤ 57) := by omega
    have b : ¬ (97 ≤ c ∧ c ≤ 102) := by omega
    have c0 : 65 ≤ c ∧ c ≤ 70 := h
    have c1 : ¬ c ≤ 57 := by omega
    rw [if_neg a, if_neg b, if_pos c0, if_neg c1, if_pos h.2]
    congr 1; omega

theorem getu4_hex (a b c d : Nat) (rest : List Nat) (ha : isHex a = true) (hb : isHex b = true)
    (hc : isHex c = true) (hd : isHex d = true) :
    getu4 (92 :: 117 :: a :: b :: c :: d :: rest) = some (hex4 a b c d) := by
  simp [getu4, hexVal_of_isHex, ha, hb, hc, hd, hex4]

theorem render_length_pos (i : StrItem) : 0 < i.render.length := by
  cases i <;> simp [StrItem.render, encodeRune_length_pos]

theorem items_length_le (items : List StrItem) : items.length ≤ (renderItems items).length := by
  induction items with
  | nil => simp [renderItems]
  | cons i items ih =>
    simp only [renderItems, List.flatMap_cons, List.length_append, List.length_cons] at ih ⊢
    have := render_length_pos i
    omega

theorem unquoteLoop_plain (fuel : Nat) (c : Nat) (rest : List Nat) (h : (StrItem.plain c).valid) :
    unquoteLoop (fuel + 1) (encodeRune c ++ rest) =
      (unquoteLoop fuel rest).map (encodeRune c ++ ·) := by
  obtain ⟨hs, h1, h2, h3⟩ := h
  by_cases hc : c < 0x80
  · rw [encodeRune_ascii c hc]
    have a1 : ¬ (c = 34 ∨ c < 32) := by omega
    simp [unquoteLoop, h3, a1, hc]
  · have hd := decodeRune_encodeRune c rest hs (by omega)
    cases henc : encodeRune c with
    | nil => have := encodeRune_length_pos c; rw [henc] at this; simp at this
    | cons b0 t =>
      have hb0 := encodeRune_high c hs (by omega) b0 (by rw [henc]; exact List.mem_cons_self _ _)
      rw [henc] at hd
      have a0 : ¬ b0 = 92 := by omega
      have a1 : ¬ (b0 = 34 ∨ b0 < 32) := by omega
      have a2 : ¬ b0 < 0x80 := by omega
      simp only [List.cons_append] at hd ⊢
      simp only [unquoteLoop, a0, a1, a2, if_false, hd]
      rw [← List.cons_append, List.drop_left]
      simp [henc]

theorem unquoteLoop_item (fuel : Nat) (i : StrItem) (rest : List Nat) (h : i.valid) :
    unquoteLoop (fuel + 1) (i.render ++ rest) = (unquoteLoop fuel rest).map (i.denote ++ ·) := by
  cases i with
  | plain c => exact unquoteLoop_plain fuel c rest h
  | esc b =>
    simp only [StrItem.valid] at h
    simp only [StrItem.render, StrItem.denote, List.cons_append, List.nil_append, unquoteLoop,
      if_true]
    rcases h with h | h | h | h | h | h | h | h <;> subst h <;> simp [escapeChar]
  | uni a b c d =>
    obtain ⟨ha, hb, hc, hd, hns⟩ := h
    have hg := getu4_hex a b c d rest ha hb hc hd
    have hsur : isSurrogate (hex4 a b c d) = false := by
      simp only [isSurrogate, Bool.and_eq_false_iff, decide_eq_false_iff_not]
      omega
    have h117 : ¬ (117 = 34 ∨ 117 = 92 ∨ 117 = 47 ∨ 117 = 39) := by omega
    simp only [StrItem.render, StrItem.denote, List.cons_append, List.nil_append, unquoteLoop,
      if_true, hg]
    simp [hsur, hg]
  | pair a b c d e f g h2 =>
    obtain ⟨ha, hb, hc, hd, he, hf, hg, hh, k1, k2, k3, k4⟩ := h
    have hg1 := getu4_hex a b c d (92 :: 117 :: e :: f :: g :: h2 :: rest) ha hb hc hd
    have hg2 := getu4_hex e f g h2 rest he hf hg hh
    have hsur : isSurrogate (hex4 a b c d) = true := by
      simp only [isSurrogate, Bool.and_eq_true, decide_eq_true_eq]
      omega
    have hdec : utf16DecodeRune (hex4 a b c d) (some (hex4 e f g h2)) =
        (hex4 a b c d - 0xD800) * 1024 + (hex4 e f g h2 - 0xDC00) + 0x10000 := by
      have : 0xD800 ≤ hex4 a b c d ∧ hex4 a b c d < 0xDC00 ∧ 0xDC00 ≤ hex4 e f g h2 ∧
          hex4 e f g h2 < 0xE000 := ⟨k1, k2, k3, k4⟩
      simp only [utf16DecodeRune, this]
      simp
    have hne : ¬ ((hex4 a b c d - 0xD800) * 1024 + (hex4 e f g h2 - 0xDC00) + 0x10000
        = runeError) := by
      unfold runeError; omega
    simp only [StrItem.render, StrItem.denote, List.cons_append, List.nil_append, unquoteLoop,
      if_true, hg1]
    simp [hsur, hg1, hg2, hdec, hne]

theorem unquoteLoop_items (items : List StrItem) (fuel : Nat) (h : ∀ i ∈ items, i.valid)
    (hf : items.length ≤ fuel) :
    unquoteLoop fuel (renderItems items) = some (denoteString items) := by
  induction items generalizing fuel with
  | nil => cases fuel <;> simp [renderItems, denoteString, unquoteLoop]
  | cons i items ih =>
    cases fuel with
    | zero => simp at hf
    | succ fuel =>
      simp only [renderItems, denoteString, List.flatMap_cons]
      rw [unquoteLoop_item fuel i _ (h i (List.mem_cons_self _ _))]
      have := ih fuel (fun x hx => h x (List.mem_cons_of_mem _ hx))
        (by simp only [List.length_cons] at hf; omega)
      simp only [renderItems, denoteString] at this
      rw [this]; rfl

theorem unquoteScan_nonplain (fuel : Nat) (i : StrItem) (rest : List Nat) (h : i.valid)
    (hp : i.isPlain = false) : unquoteScan fuel (i.render ++ rest) = 0 := by
  cases fuel with
  | zero => simp [unquoteScan]
  | succ fuel =>
    cases i with
    | plain c => simp [StrItem.isPlain] at hp
    | esc b => simp [StrItem.render, unquoteScan]
    | uni a b c d => simp [StrItem.render, unquoteScan]
    | pair a b c d e f g h2 => simp [StrItem.render, unquoteScan]

theorem unquoteScan_plain (fuel : Nat) (c : Nat) (rest : List Nat) (h : (StrItem.plain c).valid) :
    unquoteScan (fuel + 1) (encodeRune c ++ rest) =
      (encodeRune c).length + unquoteScan fuel rest := by
  obtain ⟨hs, h1, h2, h3⟩ := h
  by_cases hc : c < 0x80
  · rw [encodeRune_ascii c hc]
    have a1 : ¬ (c = 92 ∨ c = 34 ∨ c < 32) := by omega
    simp [unquoteScan, a1, hc]
  · have hd := decodeRune_encodeRune c rest hs (by omega)
    cases henc : encodeRune c with
    | nil => have := encodeRune_length_pos c; rw [henc] at this; simp at this
    | cons b0 t =>
      have hb0 := encodeRune_high c hs (by omega) b0 (by rw [henc]; exact List.mem_cons_self _ _)
      rw [henc] at hd
      have a1 : ¬ (b0 = 92 ∨ b0 = 34 ∨ b0 < 32) := by omega
      have a2 : ¬ b0 < 0x80 := by omega
      have a3 : ¬ (c = runeError ∧ (b0 :: t).length = 1) := by
        intro hh
        have hlen : 2 ≤ (encodeRune c).length := by
          unfold encodeRune
          split_ifs <;> first | (simp; omega) | simp
        rw [henc] at hlen
        omega
      simp only [List.cons_append] at hd ⊢
      simp only [unquoteScan, a1, a2, if_false, hd, a3]
      rw [← List.cons_append, List.drop_left]

/-- The first loop of `unquoteBytes` stops after the leading plain characters. -/
theorem unquoteScan_items (pre post : List StrItem) (fuel : Nat)
    (hpre : ∀ i ∈ pre, i.valid ∧ i.isPlain = true)
    (hpost : post = [] ∨ ∃ i rest, post = i :: rest ∧ i.valid ∧ i.isPlain = false)
    (hf : pre.length ≤ fuel) :
    unquoteScan fuel (renderItems (pre ++ post)) = (renderItems pre).length := by
  induction pre generalizing fuel with
  | nil =>
    rcases hpost with h | ⟨i, rest, h, hv, hp⟩
    · subst h; cases fuel <;> simp [renderItems, unquoteScan]
    · subst h
      simp only [List.nil_append, renderItems, List.flatMap_cons, List.flatMap_nil,
        List.length_nil]
      exact unquoteScan_nonplain fuel i _ hv hp
  | cons i pre ih =>
    cases fuel with
    | zero => simp at hf
    | succ fuel =>
      obtain ⟨hv, hp⟩ := hpre i (List.mem_cons_self _ _)
      cases i with
      | plain c =>
        simp only [List.cons_append, renderItems, List.flatMap_cons, StrItem.render,
          List.length_append]
        rw [unquoteScan_plain fuel c _ hv]
        have := ih fuel (fun x hx => hpre x (List.mem_cons_of_mem _ hx))
          (by simp only [List.length_cons] at hf; omega)
        simp only [renderItems] at this
        rw [this]
      | esc b => simp [StrItem.isPlain] at hp
      | uni a b c d => simp [StrItem.isPlain] at hp
      | pair a b c d e f g h2 => simp [StrItem.isPlain] at hp

theorem denote_plain (pre : List StrItem) (h : ∀ i ∈ pre, i.isPlain = true) :
    denoteString pre = renderItems pre := by
  induction pre with
  | nil => rfl
  | cons i pre ih =>
    have hi := h i (List.mem_cons_self _ _)
    cases i with
    | plain c =>
      simp only [denoteString, renderItems, List.flatMap_cons, StrItem.denote, StrItem.render]
      have := ih (fun x hx => h x (List.mem_cons_of_mem _ hx))
      simp only [denoteString, renderItems] at this
      rw [this]
    | esc b => simp [StrItem.isPlain] at hi
    | uni a b c d => simp [StrItem.isPlain] at hi
    | pair a b c d e f g h2 => simp [StrItem.isPlain] at hi

theorem split_plain (items : List StrItem) (h : ∀ i ∈ items, i.valid) :
    ∃ pre post, items = pre ++ post ∧ (∀ i ∈ pre, i.valid ∧ i.isPlain = true) ∧
      (∀ i ∈ post, i.valid) ∧
      (post = [] ∨ ∃ i rest, post = i :: rest ∧ i.valid ∧ i.isPlain = false) := by
  induction items with
  | nil => exact ⟨[], [], rfl, by simp, by simp, Or.inl rfl⟩
  | cons i items ih =>
    have hi := h i (List.mem_cons_self _ _)
    by_cases hp : i.isPlain = true
    · obtain ⟨pre, post, he, h1, h2, h3⟩ := ih (fun x hx => h x (List.mem_cons_of_mem _ hx))
      refine ⟨i :: pre, post, by simp [he], ?_, h2, h3⟩
      intro x hx
      rcases List.mem_cons.1 hx with e | e
      · subst e; exact ⟨hi, hp⟩
      · exact h1 x e
    · refine ⟨[], i :: items, rfl, by simp, h, Or.inr ⟨i, items, rfl, hi, by simpa using hp⟩⟩

theorem renderItems_append (a b : List StrItem) :
    renderItems (a ++ b) = renderItems a ++ renderItems b := by
  simp [renderItems, List.flatMap_append]

theorem denoteString_append (a b : List StrItem) :
    denoteString (a ++ b) = denoteString a ++ denoteString b := by
  simp [denoteString, List.flatMap_append]

theorem unquoteBytes_shape (R : List Nat) :
    unquoteBytes (34 :: R ++ [34]) =
      if unquoteScan R.length R = R.length then some R
      else (unquoteLoop R.length (R.drop (unquoteScan R.length R))).map
        (R.take (unquoteScan R.length R) ++ ·) := by
  have h1 : ¬ ((34 :: R ++ [34]).length < 2 ∨ (34 :: R ++ [34]).head? ≠ some 34 ∨
      (34 :: R ++ [34]).getLast? ≠ some 34) := by
    have : (34 :: R ++ [34]).getLast? = some 34 := by
      rw [List.getLast?_append]; simp
    rw [this]
    simp
  have h2 : ((34 :: R ++ [34]).drop 1).dropLast = R := by simp
  unfold unquoteBytes
  rw [if_neg h1]
  simp only [h2]

/-- The function `unquoteBytes` gives the string a literal stands for. -/
theorem unquoteBytes_string (items : List StrItem) (h : ∀ i ∈ items, i.valid) :
    unquoteBytes (renderString items) = some (denoteString items) := by
  obtain ⟨pre, post, he, h1, h2, h3⟩ := split_plain items h
  have hR : renderItems items = renderItems pre ++ renderItems post := by
    rw [he, renderItems_append]
  have hlenpre : pre.length ≤ (renderItems items).length := by
    have := items_length_le pre
    rw [hR, List.length_append]; omega
  have hscan := unquoteScan_items pre post (renderItems items).length h1 h3 hlenpre
  rw [← he] at hscan
  have hden : denoteString items = renderItems pre ++ denoteString post := by
    rw [he, denoteString_append, denote_plain pre (fun i hi => (h1 i hi).2)]
  unfold renderString
  rw [show 34 :: renderItems items ++ [34] = 34 :: renderItems items ++ [34] from rfl,
    unquoteBytes_shape, hscan]
  rcases h3 with hp | ⟨i, rest, hp, hv, hnp⟩
  · subst hp
    simp only [List.append_nil] at he
    subst he
    rw [if_pos rfl, hden]
    simp [denoteString]
  · have hpos : 0 < (renderItems post).length := by
      rw [hp, renderItems, List.flatMap_cons, List.length_append]
      have := render_length_pos i
      omega
    have hne : ¬ (renderItems pre).length = (renderItems items).length := by
      rw [hR, List.length_append]; omega
    rw [if_neg hne]
    have hloop := unquoteLoop_items post (renderItems items).length h2
      (by
        have := items_length_le post
        rw [hR, List.length_append]; omega)
    rw [hR, List.drop_left, List.take_left, ← hR, hloop, hden]
    rfl

/-! ## Lemmas: `unmarshal` on the text of an object of strings -/

theorem scanWhile_ws (step : StateFn) (ps : List ParseState) (ws : List Nat) (c : Nat)
    (rest : List Nat) (last : Nat) (t : Scanner) (op : Op) (hw : isWhitespace ws)
    (hs : skipsSpace step ps) (hstep : (sk step ps).stepFn c = (t, op))
    (hop : op ≠ .scanSkipSpace) :
    scanWhile .scanSkipSpace (sk step ps) last (ws ++ c :: rest) =
      { last := c, rest := rest, opcode := op, scan := t } := by
  induction ws generalizing last with
  | nil => simp [scanWhile, hstep, hop]
  | cons w ws ih =>
    have hc := isSpace_of_ws w (hw w (List.mem_cons_self _ _))
    have h1 := step_space step ps w hc hs
    simp only [List.cons_append, scanWhile, h1, ne_eq, not_true_eq_false, if_false]
    exact ih w (fun b hb => hw b (List.mem_cons_of_mem _ hb))

theorem rescanString_quote (tail : List Nat) : rescanString (34 :: tail) = ([34], tail) := by
  rw [rescanString.eq_def]
  simp

theorem rescanString_other (b : Nat) (l : List Nat) (h1 : b ≠ 34) (h2 : b ≠ 92) :
    rescanString (b :: l) = (b :: (rescanString l).1, (rescanString l).2) := by
  rw [rescanString.eq_def]
  simp [h1, h2]

theorem rescanString_plain (bs tail : List Nat) (h : ∀ b ∈ bs, b ≠ 34 ∧ b ≠ 92) :
    rescanString (bs ++ tail) = (bs ++ (rescanString tail).1, (rescanString tail).2) := by
  induction bs with
  | nil => simp
  | cons b bs ih =>
    obtain ⟨h1, h2⟩ := h b (List.mem_cons_self _ _)
    rw [List.cons_append, rescanString_other b _ h1 h2,
      ih (fun x hx => h x (List.mem_cons_of_mem _ hx))]
    rfl

theorem rescanString_esc (e : Nat) (tail : List Nat) :
    rescanString (92 :: e :: tail) = (92 :: e :: (rescanString tail).1, (rescanString tail).2) := by
  rw [rescanString.eq_def]
  simp

theorem hex_not_quote (c : Nat) (h : isHex c = true) : c ≠ 34 ∧ c ≠ 92 := by
  simp only [isHex, Bool.or_eq_true, Bool.and_eq_true, decide_eq_true_eq] at h
  omega

theorem rescanString_item (i : StrItem) (tail : List Nat) (h : i.valid) :
    rescanString (i.render ++ tail) =
      (i.render ++ (rescanString tail).1, (rescanString tail).2) := by
  cases i with
  | plain c =>
    exact rescanString_plain _ _ (fun b hb => ⟨(plain_bytes c h b hb).1, (plain_bytes c h b hb).2.1⟩)
  | esc b => simp [StrItem.render, rescanString_esc]
  | uni a b c d =>
    obtain ⟨ha, hb, hc, hd, _⟩ := h
    have := rescanString_plain [a, b, c, d] tail (by
      intro x hx
      simp only [List.mem_cons, List.mem_singleton, List.not_mem_nil, or_false] at hx
      rcases hx with e | e | e | e <;> subst e
      · exact hex_not_quote _ ha
      · exact hex_not_quote _ hb
      · exact hex_not_quote _ hc
      · exact hex_not_quote _ hd)
    simp only [StrItem.render, List.cons_append, List.nil_append] at this ⊢
    rw [rescanString_esc, this]
  | pair a b c d e f g h2 =>
    obtain ⟨ha, hb, hc, hd, he, hf, hg, hh, _⟩ := h
    have t1 := rescanString_plain [e, f, g, h2] tail (by
      intro x hx
      simp only [List.mem_cons, List.mem_singleton, List.not_mem_nil, or_false] at hx
      rcases hx with e | e | e | e <;> subst e
      · exact hex_not_quote _ he
      · exact hex_not_quote _ hf
      · exact hex_not_quote _ hg
      · exact hex_not_quote _ hh)
    have t2 := rescanString_plain [a, b, c, d] (92 :: 117 :: e :: f :: g :: h2 :: tail) (by
      intro x hx
      simp only [List.mem_cons, List.mem_singleton, List.not_mem_nil, or_false] at hx
      rcases hx with e | e | e | e <;> subst e
      · exact hex_not_quote _ ha
      · exact hex_not_quote _ hb
      · exact hex_not_quote _ hc
      · exact hex_not_quote _ hd)
    simp only [StrItem.render, List.cons_append, List.nil_append] at t1 t2 ⊢
    rw [rescanString_esc, t2, rescanString_esc, t1]

theorem rescanString_items (items : List StrItem) (tail : List Nat) (h : ∀ i ∈ items, i.valid) :
    rescanString (renderItems items ++ 34 :: tail) = (renderItems items ++ [34], tail) := by
  induction items with
  | nil => simp [renderItems, rescanString_quote]
  | cons i items ih =>
    simp only [renderItems, List.flatMap_cons, List.append_assoc] at ih ⊢
    rw [rescanString_item i _ (h i (List.mem_cons_self _ _)),
      ih (fun x hx => h x (List.mem_cons_of_mem _ hx))]

/-- The scanner state `stateEndValue` leaves after a literal, by the byte that
follows. -/
theorem stateEndValue_after (step : StateFn) (ps : List ParseState) (c : Nat) :
    stateEndValue (sk step ps) c = stateEndValue (sk .stateEndValue ps) c := by
  cases ps with
  | nil => simp [sk, stateEndValue]
  | cons p ps => cases p <;> simp [sk, stateEndValue, Scanner.error, Scanner.popParseState]

/-- After a string literal: `rescanLiteral` returns the literal, and skipping the white
space that follows leaves the decoder on the next token `c`. -/
theorem rescanLiteral_string (items : List StrItem) (ps : List ParseState) (ws : List Nat)
    (c : Nat) (rest : List Nat) (o : Op) (t : Scanner) (op : Op)
    (hi : ∀ i ∈ items, i.valid) (hw : isWhitespace ws) (hps : ps ≠ [])
    (hstep : stateEndValue (sk .stateEndValue ps) c = (t, op)) (hop : op ≠ .scanSkipSpace) :
    (rescanLiteral ⟨34, renderItems items ++ 34 :: (ws ++ c :: rest), o,
        sk .stateInString ps⟩).1 = renderString items ∧
    skipSpaceIf (rescanLiteral ⟨34, renderItems items ++ 34 :: (ws ++ c :: rest), o,
        sk .stateInString ps⟩).2 = ⟨c, rest, op, t⟩ := by
  have hsplit := rescanString_items items (ws ++ c :: rest) hi
  cases ws with
  | nil =>
    simp only [List.nil_append] at hsplit ⊢
    simp only [rescanLiteral, if_true, hsplit, stateEndValue_after .stateInString, hstep]
    refine ⟨by simp [renderString], ?_⟩
    simp [skipSpaceIf, hop]
  | cons w ws =>
    have hc := isSpace_of_ws w (hw w (List.mem_cons_self _ _))
    have h1 : stateEndValue (sk .stateEndValue ps) w = (sk .stateEndValue ps, .scanSkipSpace) := by
      cases ps with
      | nil => exact absurd rfl hps
      | cons p ps => simp [sk, stateEndValue, hc]
    simp only [List.cons_append] at hsplit ⊢
    simp only [rescanLiteral, if_true, hsplit, stateEndValue_after .stateInString, h1]
    refine ⟨by simp [renderString], ?_⟩
    simp only [skipSpaceIf, if_true]
    have hs : (sk .stateEndValue ps).stepFn c = (t, op) := by
      simpa [sk, Scanner.stepFn] using hstep
    exact scanWhile_ws .stateEndValue ps ws c rest w t op
      (fun b hb => hw b (List.mem_cons_of_mem _ hb)) (Or.inr (Or.inr (Or.inr ⟨rfl, hps⟩))) hs hop

/-! ## Lemmas: the member loop of `object` on the text of an object of strings -/

theorem valueString_string (items : List StrItem) (ps : List ParseState) (ws : List Nat)
    (c : Nat) (rest : List Nat) (t : Scanner) (op : Op)
    (hi : ∀ i ∈ items, i.valid) (hw : isWhitespace ws) (hps : ps ≠ [])
    (hstep : stateEndValue (sk .stateEndValue ps) c = (t, op)) (hop : op ≠ .scanSkipSpace) :
    ∃ nx, valueString ⟨34, renderItems items ++ 34 :: (ws ++ c :: rest), .scanBeginLiteral,
        sk .stateInString ps⟩ = .ok ⟨denoteString items, false, nx⟩ ∧
      skipSpaceIf nx = ⟨c, rest, op, t⟩ := by
  obtain ⟨e1, e2⟩ := rescanLiteral_string items ps ws c rest .scanBeginLiteral t op hi hw hps
    hstep hop
  refine ⟨_, ?_, e2⟩
  simp only [valueString]
  rw [e1, unquoteBytes_string items hi]
  simp

theorem stateEndValue_colon :
    stateEndValue (sk .stateEndValue [.parseObjectKey]) 58 =
      (sk .stateBeginValue [.parseObjectValue], .scanObjectKey) := by
  simp [sk, stateEndValue, isSpace]

theorem stateEndValue_comma :
    stateEndValue (sk .stateEndValue [.parseObjectValue]) 44 =
      (sk .stateBeginString [.parseObjectKey], .scanObjectValue) := by
  simp [sk, stateEndValue, isSpace]

theorem stateEndValue_brace :
    stateEndValue (sk .stateEndValue [.parseObjectValue]) 125 = (closed, .scanEndObject) := by
  simp [sk, stateEndValue, isSpace, Scanner.popParseState, closed]

/-- The text of a member, token by token. -/
theorem member_render_shape (mb : Member) (tail : List Nat) :
    mb.render ++ tail = mb.ws1 ++ 34 :: (renderItems mb.key ++ 34 :: (mb.ws2 ++ 58 ::
      (mb.ws3 ++ 34 :: (renderItems mb.val ++ 34 :: (mb.ws4 ++ tail))))) := by
  simp [Member.render, renderString]

/-- The key and the value of a member are read and the decoder is left on the token
`c` after the member. -/
theorem objectLoop_member (fuel : Nat) (step : StateFn) (mb : Member) (c : Nat)
    (rest : List Nat) (last : Nat) (o : Op) (m : GoMap) (te : Bool) (t : Scanner) (op : Op)
    (hb : step = .stateBeginString ∨ step = .stateBeginStringOrEmpty) (hm : mb.valid)
    (hstep : stateEndValue (sk .stateEndValue [.parseObjectValue]) c = (t, op))
    (hop : op = .scanEndObject ∨ op = .scanObjectValue) :
    objectLoop (fuel + 1) ⟨last, mb.render ++ c :: rest, o, sk step [.parseObjectKey]⟩ m te =
      if op = .scanEndObject then
        .ok ⟨GoMap.set m (denoteString mb.key) (denoteString mb.val), te, ⟨c, rest, op, t⟩⟩
      else objectLoop fuel ⟨c, rest, op, t⟩
        (GoMap.set m (denoteString mb.key) (denoteString mb.val)) te := by
  obtain ⟨w1, w2, w3, w4, hk, hv⟩ := hm
  have hbs : beginsString step := Or.inr hb
  have hop2 : op ≠ .scanSkipSpace := by rcases hop with h | h <;> simp [h]
  rw [member_render_shape]
  have h1 := scanWhile_ws step [.parseObjectKey] mb.ws1 34
    (renderItems mb.key ++ 34 :: (mb.ws2 ++ 58 ::
      (mb.ws3 ++ 34 :: (renderItems mb.val ++ 34 :: (mb.ws4 ++ c :: rest))))) last
    _ _ w1 (skipsSpace_of_begins _ _ hbs) (step_quote step _ hbs) (by simp)
  obtain ⟨e1, e2⟩ := rescanLiteral_string mb.key [.parseObjectKey] mb.ws2 58
    (mb.ws3 ++ 34 :: (renderItems mb.val ++ 34 :: (mb.ws4 ++ c :: rest))) .scanBeginLiteral
    _ _ hk w2 (by simp) stateEndValue_colon (by simp)
  have h4 := scanWhile_ws .stateBeginValue [.parseObjectValue] mb.ws3 34
    (renderItems mb.val ++ 34 :: (mb.ws4 ++ c :: rest)) 58
    _ _ w3 (Or.inl rfl) (step_quote .stateBeginValue _ (Or.inl rfl)) (by simp)
  obtain ⟨nx, e5, e6⟩ := valueString_string mb.val [.parseObjectValue] mb.ws4 c rest t op hv w4
    (by simp) hstep hop2
  simp only [objectLoop, h1]
  simp only [e1, e2, unquoteBytes_string mb.key hk, h4, e5, e6]
  rcases hop with h | h <;> subst h <;> simp

/-! ## Lemmas: `unmarshal` and `Decode` on the text of an object of strings -/

theorem objectLoop_members (ms : List Member) (mb : Member) (fuel : Nat) (step : StateFn)
    (rest : List Nat) (last : Nat) (o : Op) (m : GoMap) (te : Bool)
    (hb : step = .stateBeginString ∨ step = .stateBeginStringOrEmpty)
    (hm : ∀ x ∈ mb :: ms, x.valid) (hf : ms.length < fuel) :
    objectLoop fuel ⟨last, renderMembers (mb :: ms) ++ 125 :: rest, o,
        sk step [.parseObjectKey]⟩ m te =
      .ok ⟨((mb :: ms).map Member.pair).foldl (fun m p => GoMap.set m p.1 p.2) m, te,
        ⟨125, rest, .scanEndObject, closed⟩⟩ := by
  induction ms generalizing mb fuel step last o m with
  | nil =>
    obtain ⟨f, rfl⟩ : ∃ f, fuel = f + 1 := ⟨fuel - 1, by omega⟩
    have := objectLoop_member f step mb 125 rest last o m te _ _ hb
      (hm mb (List.mem_cons_self _ _)) stateEndValue_brace (Or.inl rfl)
    simpa [renderMembers, Member.pair] using this
  | cons m2 ms ih =>
    obtain ⟨f, rfl⟩ : ∃ f, fuel = f + 1 := ⟨fuel - 1, by omega⟩
    have h1 := objectLoop_member f step mb 44 (renderMembers (m2 :: ms) ++ 125 :: rest) last o m
      te _ _ hb (hm mb (List.mem_cons_self _ _)) stateEndValue_comma (Or.inr rfl)
    have h2 := ih m2 f .stateBeginString 44 .scanObjectValue
      (GoMap.set m (denoteString mb.key) (denoteString mb.val)) (Or.inl rfl)
      (fun x hx => hm x (List.mem_cons_of_mem _ hx)) (by simp at hf; omega)
    have e : renderMembers (mb :: m2 :: ms) ++ 125 :: rest =
        mb.render ++ 44 :: (renderMembers (m2 :: ms) ++ 125 :: rest) := by
      simp [renderMembers]
    rw [e, h1]
    simp only [reduceCtorEq, if_false]
    rw [h2]
    simp [Member.pair]

theorem step_openBrace :
    (sk .stateBeginValue []).stepFn 123 =
      (sk .stateBeginStringOrEmpty [.parseObjectKey], .scanBeginObject) := by
  have hle : 1 ≤ maxNestingDepth := by decide
  simp [sk, Scanner.stepFn, stateBeginValue, isSpace, Scanner.pushParseState, hle]

theorem step_closeEmpty :
    (sk .stateBeginStringOrEmpty [.parseObjectKey]).stepFn 125 = (closed, .scanEndObject) := by
  simp [sk, Scanner.stepFn, stateBeginStringOrEmpty, stateEndValue, isSpace,
    Scanner.popParseState, closed]

theorem renderMembers_length (ms : List Member) : ms.length ≤ (renderMembers ms).length + 1 := by
  induction ms with
  | nil => simp
  | cons m ms ih =>
    cases ms with
    | nil => simp
    | cons m2 ms =>
      simp only [renderMembers, List.length_append, List.length_cons] at ih ⊢
      omega

/-- The decoder `unmarshal` on the text of an object of strings yields the map the text
stands for. -/
theorem unmarshal_object (ws0 wsE : List Nat) (members : List Member)
    (h0 : isWhitespace ws0) (hE : isWhitespace wsE) (hm : ∀ m ∈ members, m.valid) :
    unmarshal (renderObject ws0 wsE members) = .ok (objectMap members) := by
  have hd := scanWhile_ws .stateBeginValue [] ws0 123 (renderInner wsE members ++ [125]) 0
    _ _ h0 (Or.inl rfl) step_openBrace (by simp)
  have hr : sk .stateBeginValue [] = Scanner.reset := rfl
  rw [hr] at hd
  cases members with
  | nil =>
    have h1 := scanWhile_ws .stateBeginStringOrEmpty [.parseObjectKey] wsE 125 [] 123
      _ _ hE (Or.inr (Or.inr (Or.inl rfl))) step_closeEmpty (by simp)
    simp only [renderInner, List.isEmpty_nil, if_true] at hd
    simp only [unmarshal, renderObject, renderInner, List.isEmpty_nil, if_true, hd, objectLoop,
      h1]
    simp [objectMap]
  | cons mb ms =>
    have hlen : ms.length < (renderObject ws0 wsE (mb :: ms)).length + 1 := by
      have := renderMembers_length (mb :: ms)
      simp only [renderObject, renderInner, List.isEmpty_cons, Bool.false_eq_true, if_false,
        List.length_append, List.length_cons] at this ⊢
      omega
    have h1 := objectLoop_members ms mb ((renderObject ws0 wsE (mb :: ms)).length + 1)
      .stateBeginStringOrEmpty [] 123 .scanBeginObject [] false (Or.inr rfl) hm hlen
    simp only [renderInner, List.isEmpty_cons, Bool.false_eq_true, if_false] at hd
    simp only [unmarshal]
    have e : renderObject ws0 wsE (mb :: ms) = ws0 ++ 123 :: (renderMembers (mb :: ms) ++ [125]) := by
      simp [renderObject, renderInner]
    rw [e] at h1 ⊢
    simp only [hd, h1]
    simp [objectMap]

/-- The call `Decode` on a stream that starts with the text of an object of strings
yields the map the text stands for, whatever follows the text. -/
theorem jsonDecode_object (ws0 wsE : List Nat) (members : List Member) (rest : List Nat)
    (ending : ReadEnd) (h0 : isWhitespace ws0) (hE : isWhitespace wsE)
    (hm : ∀ m ∈ members, m.valid) :
    jsonDecode (renderObject ws0 wsE members ++ rest) ending = .ok (objectMap members) := by
  simp only [jsonDecode, readValue_object ws0 wsE members rest ending h0 hE hm,
    List.take_left, unmarshal_object ws0 wsE members h0 hE hm]

/-! ## Lemmas: the encoder writes the text of an object of strings -/

theorem hexValue_hexDigit : ∀ n, n < 16 → hexValue (hexDigit n) = n := by decide

theorem isHex_hexDigit : ∀ n, n < 16 → isHex (hexDigit n) = true := by decide

theorem htmlSafe_bounds (c : Nat) (h : htmlSafe c = true) : 32 ≤ c ∧ c ≠ 34 ∧ c ≠ 92 := by
  simp only [htmlSafe, Bool.and_eq_true, decide_eq_true_eq, bne_iff_ne, ne_eq] at h
  omega

theorem hex4_low (c : Nat) (h : c < 0x80) :
    hex4 48 48 (hexDigit (c / 16)) (hexDigit (c % 16)) = c := by
  have h1 := hexValue_hexDigit (c / 16) (by omega)
  have h2 := hexValue_hexDigit (c % 16) (by omega)
  have h0 : hexValue 48 = 0 := by decide
  simp only [hex4, h0, h1, h2]
  omega

theorem hex4_sep (c : Nat) (h : c = 0x2028 ∨ c = 0x2029) :
    hex4 50 48 50 (hexDigit (c % 16)) = c := by
  rcases h with h | h <;> subst h <;> decide

/-- The item written for a character is an item of the grammar. -/
theorem encItem_valid (c : Nat) (hs : isScalar c) : (encItem c).valid := by
  unfold encItem
  by_cases h : c < 0x80
  · rw [if_pos h]
    have h48 : isHex 48 = true := by decide
    have ha := isHex_hexDigit (c / 16) (by omega)
    have hb := isHex_hexDigit (c % 16) (by omega)
    have hx := hex4_low c h
    split_ifs with h1 h2 h3 h4 h5 h6 h7
    · have := htmlSafe_bounds c h1
      simp only [StrItem.valid, isScalar]; omega
    · simp only [StrItem.valid]; omega
    · simp [StrItem.valid]
    · simp [StrItem.valid]
    · simp [StrItem.valid]
    · simp [StrItem.valid]
    · simp [StrItem.valid]
    · simp only [StrItem.valid, h48, ha, hb, hx, true_and]; omega
  · rw [if_neg h]
    split_ifs with h1
    · have h50 : isHex 50 = true := by decide
      have h48 : isHex 48 = true := by decide
      have hb := isHex_hexDigit (c % 16) (Nat.mod_lt _ (by decide))
      have hx := hex4_sep c h1
      simp only [StrItem.valid, h48, h50, hb, hx, true_and]; omega
    · simp only [StrItem.valid]
      refine ⟨hs, by omega, by omega, by omega⟩

/-- The item written for a character stands for the character. -/
theorem encItem_denote (c : Nat) : (encItem c).denote = encodeRune c := by
  unfold encItem
  by_cases h : c < 0x80
  · rw [if_pos h, encodeRune_ascii c h]
    have hx := hex4_low c h
    split_ifs with h1 h2 h3 h4 h5 h6 h7
    · simp [StrItem.denote, encodeRune_ascii c h]
    · rcases h2 with e | e <;> subst e <;> simp [StrItem.denote, escapeChar]
    · subst h3; simp [StrItem.denote, escapeChar]
    · subst h4; simp [StrItem.denote, escapeChar]
    · subst h5; simp [StrItem.denote, escapeChar]
    · subst h6; simp [StrItem.denote, escapeChar]
    · subst h7; simp [StrItem.denote, escapeChar]
    · simp only [StrItem.denote, hx, encodeRune_ascii c h]
  · rw [if_neg h]
    split_ifs with h1
    · simp only [StrItem.denote, hex4_sep c h1]
    · simp [StrItem.denote]

theorem encodeRune_length_high (c : Nat) (h : 0x80 ≤ c) : 2 ≤ (encodeRune c).length := by
  unfold encodeRune
  have : ¬ c ≤ 0x7F := by omega
  rw [if_neg this]
  split_ifs <;> simp

theorem appendStringLoop_ascii (fuel c : Nat) (rest : List Nat) (h : c < 0x80) :
    appendStringLoop (fuel + 1) (c :: rest) =
      (encItem c).render ++ appendStringLoop fuel rest := by
  simp only [appendStringLoop, encItem, h, if_true]
  split_ifs <;> simp [StrItem.render, encodeRune_ascii c h]

theorem appendStringLoop_high (fuel c : Nat) (rest : List Nat) (hs : isScalar c)
    (h : 0x80 ≤ c) :
    appendStringLoop (fuel + 1) (encodeRune c ++ rest) =
      (encItem c).render ++ appendStringLoop fuel rest := by
  have hlen := encodeRune_length_high c h
  have hd := decodeRune_encodeRune c rest hs h
  obtain ⟨b, t, hbt⟩ : ∃ b t, encodeRune c = b :: t := by
    cases he : encodeRune c with
    | nil => rw [he] at hlen; simp at hlen
    | cons b t => exact ⟨b, t, rfl⟩
  have hb : ¬ b < 0x80 := by
    have := (encodeRune_high c hs h b (by rw [hbt]; exact List.mem_cons_self _ _)).1
    omega
  have hc : ¬ c < 0x80 := by omega
  rw [hbt] at hd hlen
  have h1 : ¬ ((b :: t).length = 1) := by omega
  have htake : List.take (b :: t).length (b :: (t ++ rest)) = b :: t := by
    rw [← List.cons_append]; exact List.take_left _ _
  have hdrop : List.drop (b :: t).length (b :: (t ++ rest)) = rest := by
    rw [← List.cons_append]; exact List.drop_left _ _
  rw [List.cons_append] at hd
  rw [hbt, List.cons_append]
  simp only [appendStringLoop, hb, if_false, hd, h1, and_false, htake, hdrop, encItem, hc]
  split_ifs <;> simp [StrItem.render, hbt]

theorem appendStringLoop_rune (fuel c : Nat) (rest : List Nat) (hs : isScalar c) :
    appendStringLoop (fuel + 1) (encodeRune c ++ rest) =
      (encItem c).render ++ appendStringLoop fuel rest := by
  by_cases h : c < 0x80
  · rw [encodeRune_ascii c h]
    exact appendStringLoop_ascii fuel c rest h
  · exact appendStringLoop_high fuel c rest hs (by omega)

theorem appendStringLoop_runes (cs : List Nat) (fuel : Nat) (hs : ∀ c ∈ cs, isScalar c)
    (hf : cs.length ≤ fuel) :
    appendStringLoop fuel (cs.flatMap encodeRune) = renderItems (cs.map encItem) := by
  induction cs generalizing fuel with
  | nil => cases fuel <;> simp [appendStringLoop, renderItems]
  | cons c cs ih =>
    obtain ⟨f, rfl⟩ : ∃ f, fuel = f + 1 := ⟨fuel - 1, by simp at hf; omega⟩
    simp only [List.flatMap_cons, List.map_cons, renderItems]
    rw [appendStringLoop_rune f c _ (hs c (List.mem_cons_self _ _)),
      ih f (fun x hx => hs x (List.mem_cons_of_mem _ hx)) (by simp at hf; omega)]
    rfl

theorem flatMap_encodeRune_length (cs : List Nat) :
    cs.length ≤ (cs.flatMap encodeRune).length := by
  induction cs with
  | nil => simp
  | cons c cs ih =>
    have := encodeRune_length_pos c
    simp only [List.flatMap_cons, List.length_append, List.length_cons]
    omega

/-- For a string of valid UTF-8 the encoder writes a string literal of the grammar that
stands for the string. -/
theorem appendString_valid (s : Str) (h : validUTF8 s) :
    ∃ items, (∀ i ∈ items, i.valid) ∧ appendString s = renderString items ∧
      denoteString items = s := by
  obtain ⟨cs, hs, rfl⟩ := h
  refine ⟨cs.map encItem, ?_, ?_, ?_⟩
  · intro i hi
    rw [List.mem_map] at hi
    obtain ⟨c, hc, rfl⟩ := hi
    exact encItem_valid c (hs c hc)
  · simp only [appendString, renderString]
    rw [appendStringLoop_runes cs _ hs (flatMap_encodeRune_length cs)]
  · simp only [denoteString, List.flatMap_map]
    congr 1
    funext c
    exact encItem_denote c

theorem encMember_render (ik iv : List StrItem) :
    (encMember ik iv).render = renderString ik ++ 58 :: renderString iv := by
  simp [encMember, Member.render]

/-- For pairs of valid UTF-8 strings the encoder writes members of the grammar that
stand for the pairs. -/
theorem encodeMembers_valid (pairs : List (Str × Str))
    (h : ∀ p ∈ pairs, validUTF8 p.1 ∧ validUTF8 p.2) :
    ∃ members : List Member, (∀ m ∈ members, m.valid) ∧
      encodeMembers pairs = renderMembers members ∧ members.map Member.pair = pairs := by
  induction pairs with
  | nil => exact ⟨[], by simp, rfl, rfl⟩
  | cons kv rest ih =>
    obtain ⟨ms, hv, he, hp⟩ := ih (fun p hp => h p (List.mem_cons_of_mem _ hp))
    obtain ⟨hk1, hk2⟩ := h kv (List.mem_cons_self _ _)
    obtain ⟨ik, vk, ek, dk⟩ := appendString_valid kv.1 hk1
    obtain ⟨iv, vv, ev, dv⟩ := appendString_valid kv.2 hk2
    have hmv : (encMember ik iv).valid :=
      ⟨by simp [encMember, isWhitespace], by simp [encMember, isWhitespace],
        by simp [encMember, isWhitespace], by simp [encMember, isWhitespace], vk, vv⟩
    refine ⟨encMember ik iv :: ms, ?_, ?_, ?_⟩
    · intro m hm
      rcases List.mem_cons.1 hm with e | e
      · rw [e]; exact hmv
      · exact hv m e
    · cases rest with
      | nil =>
        cases ms with
        | nil => simp [encodeMembers, renderMembers, encMember_render, ek, ev]
        | cons m2 ms => simp at hp
      | cons kv2 rest =>
        cases ms with
        | nil => simp at hp
        | cons m2 ms =>
          simp only [encodeMembers, renderMembers, encMember_render, ek, ev] at he ⊢
          rw [he]
    · simp only [List.map_cons, hp, Member.pair, encMember, dk, dv]

/-- For a map of valid UTF-8 strings `Encode` writes the text of an object of strings,
its members in the order of the sorted keys, followed by a newline. -/
theorem jsonEncode_object (m : GoMap) (h : ∀ p ∈ m, validUTF8 p.1 ∧ validUTF8 p.2) :
    ∃ members : List Member, (∀ x ∈ members, x.valid) ∧
      jsonEncode m = renderObject [] [] members ++ [10] ∧
      members.map Member.pair = m.insertionSort (fun a b => strLE a.1 b.1) := by
  obtain ⟨ms, hv, he, hp⟩ := encodeMembers_valid (m.insertionSort (fun a b => strLE a.1 b.1))
    (fun p hp => h p ((List.perm_insertionSort _ m).mem_iff.1 hp))
  refine ⟨ms, hv, ?_, hp⟩
  simp only [jsonEncode, mapEncode, he, renderObject, renderInner]
  cases ms <;> simp [renderMembers]

theorem get_perm (a b : GoMap) (hp : a.Perm b) (hk : b.keys.Nodup) (k : Str) :
    a.get k = b.get k := by
  have hka : a.keys.Nodup := (hp.map Prod.fst).nodup_iff.2 hk
  apply Option.ext
  intro v
  simp only [Option.mem_def]
  constructor
  · intro h
    exact GoMap.get_of_mem b hk k v (hp.mem_iff.1 (GoMap.mem_of_get a k v h))
  · intro h
    exact GoMap.get_of_mem a hka k v (hp.mem_iff.2 (GoMap.mem_of_get b k v h))

theorem validUTF8_ascii (s : Str) (h : ∀ c ∈ s, c < 0x80) : validUTF8 s := by
  refine ⟨s, fun c hc => Or.inl (by have := h c hc; omega), ?_⟩
  induction s with
  | nil => rfl
  | cons c s ih =>
    rw [List.flatMap_cons, encodeRune_ascii c (h c (List.mem_cons_self _ _)),
      ← ih (fun x hx => h x (List.mem_cons_of_mem _ hx))]
    rfl

theorem qualifies_false_of_notQualifying (pfx e : Str) (h : notQualifying pfx e) :
    qualifies pfx e = false := by
  rcases h with h | h | h
  · simp [qualifies, h]
  · have : pfx.isPrefixOf (rawKey e) = false := by
      rw [Bool.eq_false_iff]; intro hp; exact h (List.isPrefixOf_iff_prefix.1 hp)
    simp [qualifies, this]
  · simp [qualifies, h]

theorem mem_environ_of_nodup (pfx : Str) (envs : List Str)
    (hnd : (envs.filterMap envKey).Nodup) (e : Str) (hq : qualifies pfx e = true) :
    e ∈ osEnviron (copyenv envs) ↔ e ∈ envs := by
  rw [copyenv, copyenvFrom_of_nodup envs [] hnd (fun _ _ => List.not_mem_nil _)]
  have h1 : e ∈ (osEnviron envs).filter (qualifies pfx) ↔ e ∈ envs.filter (qualifies pfx) := by
    rw [filter_osEnviron]
  simpa [List.mem_filter, hq] using h1

/-- C1: the host environment `E` of the Env Provider is what `os.Environ()` returns
for the environment block `envs` the process was started with (the block itself,
without empty entries, when no key occurs twice in it).  The snapshot built with the
prefix `ENCLAVE_` is the list of the prefix-stripped pairs of the qualifying entries of
`E`: a pair is in the snapshot, and the snapshot maps `k` to `v`, exactly when `(k, v)`
is the stripped pair of an entry of `E` that has an `=` and whose raw key starts with
`ENCLAVE_` and is strictly longer than it; no key occurs twice in the snapshot. -/
theorem C1_snapshot_pairs (envs : List Str) :
    buildSnapshot envs enclavePrefix =
      ((osEnviron (copyenv envs)).filter (qualifies enclavePrefix)).map
        (strippedPair enclavePrefix) ∧
    (∀ k v : Str, (k, v) ∈ buildSnapshot envs enclavePrefix ↔
      ∃ e ∈ osEnviron (copyenv envs),
        qualifies enclavePrefix e = true ∧ strippedPair enclavePrefix e = (k, v)) ∧
    (∀ k v : Str, GoMap.get (buildSnapshot envs enclavePrefix) k = some v ↔
      ∃ e ∈ osEnviron (copyenv envs),
        qualifies enclavePrefix e = true ∧ strippedPair enclavePrefix e = (k, v)) ∧
    (buildSnapshot envs enclavePrefix).keys.Nodup ∧
    ((envs.filterMap envKey).Nodup →
      ∀ k v : Str, GoMap.get (buildSnapshot envs enclavePrefix) k = some v ↔
        ∃ e ∈ envs, qualifies enclavePrefix e = true ∧ strippedPair enclavePrefix e = (k, v)) := by
  have heq := buildSnapshot_eq enclavePrefix envs
  have hnd : (buildSnapshot envs enclavePrefix).keys.Nodup := by
    rw [heq]; exact environ_pairs_nodup enclavePrefix envs
  have hmem : ∀ k v : Str, (k, v) ∈ buildSnapshot envs enclavePrefix ↔
      ∃ e ∈ osEnviron (copyenv envs),
        qualifies enclavePrefix e = true ∧ strippedPair enclavePrefix e = (k, v) := by
    intro k v
    rw [heq, List.mem_map]
    constructor
    · rintro ⟨e, he, hp⟩
      exact ⟨e, (List.mem_filter.1 he).1, (List.mem_filter.1 he).2, hp⟩
    · rintro ⟨e, he, hq, hp⟩
      exact ⟨e, List.mem_filter.2 ⟨he, hq⟩, hp⟩
  have hget : ∀ k v : Str, GoMap.get (buildSnapshot envs enclavePrefix) k = some v ↔
      ∃ e ∈ osEnviron (copyenv envs),
        qualifies enclavePrefix e = true ∧ strippedPair enclavePrefix e = (k, v) := by
    intro k v
    rw [← hmem]
    exact ⟨GoMap.mem_of_get _ k v, GoMap.get_of_mem _ hnd k v⟩
  refine ⟨heq, hmem, hget, hnd, ?_⟩
  intro hk k v
  rw [hget]
  constructor
  · rintro ⟨e, he, hq, hp⟩
    exact ⟨e, (mem_environ_of_nodup enclavePrefix envs hk e hq).1 he, hq, hp⟩
  · rintro ⟨e, he, hq, hp⟩
    exact ⟨e, (mem_environ_of_nodup enclavePrefix envs hk e hq).2 he, hq, hp⟩

/-- C1 (witness): the block `PATH=/usr/bin`, `ENCLAVE_API_KEY=abc123`, `ENCLAVE_=x` has
distinct keys; its snapshot is the pair of the one qualifying entry and maps `API_KEY`
to `abc123`. -/
theorem C1_witness :
    buildSnapshot [bs "PATH=/usr/bin", bs "ENCLAVE_API_KEY=abc123", bs "ENCLAVE_=x"]
      enclavePrefix = [(bs "API_KEY", bs "abc123")] ∧
    GoMap.get (buildSnapshot [bs "PATH=/usr/bin", bs "ENCLAVE_API_KEY=abc123", bs "ENCLAVE_=x"]
      enclavePrefix) (bs "API_KEY") = some (bs "abc123") :=
  ⟨(C1_snapshot_pairs [bs "PATH=/usr/bin", bs "ENCLAVE_API_KEY=abc123", bs "ENCLAVE_=x"]).1.trans
      (by decide),
   ((C1_snapshot_pairs [bs "PATH=/usr/bin", bs "ENCLAVE_API_KEY=abc123", bs "ENCLAVE_=x"]).2.2.2.2
      (by decide) (bs "API_KEY") (bs "abc123")).2
      ⟨bs "ENCLAVE_API_KEY=abc123", by decide, by decide, by decide⟩⟩

/-- C2: an entry without `=`, or whose key does not start with `ENCLAVE_`, or whose key
is exactly `ENCLAVE_`, can be removed from (or inserted into) the host environment at
any position without changing the snapshot; and two host environments with the same
sub-sequence of qualifying entries have equal snapshots.  This holds for the loop on
every list of entries, and for the program on every environment block it is started
with. -/
theorem C2_only_qualifying_entries_matter :
    (∀ (l r : List Str) (x : Str), notQualifying enclavePrefix x →
      snapshotLoop (l ++ x :: r) enclavePrefix = snapshotLoop (l ++ r) enclavePrefix) ∧
    (∀ E1 E2 : List Str,
      E1.filter (qualifies enclavePrefix) = E2.filter (qualifies enclavePrefix) →
      snapshotLoop E1 enclavePrefix = snapshotLoop E2 enclavePrefix) ∧
    (∀ (l r : List Str) (x : Str), notQualifying enclavePrefix x →
      buildSnapshot (l ++ x :: r) enclavePrefix = buildSnapshot (l ++ r) enclavePrefix) ∧
    (∀ E1 E2 : List Str,
      E1.filter (qualifies enclavePrefix) = E2.filter (qualifies enclavePrefix) →
      buildSnapshot E1 enclavePrefix = buildSnapshot E2 enclavePrefix) := by
  have hprog : ∀ E1 E2 : List Str,
      E1.filter (qualifies enclavePrefix) = E2.filter (qualifies enclavePrefix) →
      buildSnapshot E1 enclavePrefix = buildSnapshot E2 enclavePrefix := by
    intro E1 E2 h
    rw [buildSnapshot_eq, buildSnapshot_eq, filter_environ, filter_environ, h]
  refine ⟨?_, ?_, ?_, hprog⟩
  · intro l r x hx
    have hq := qualifies_false_of_notQualifying _ _ hx
    simp [snapshotLoop_eq, List.filter_append, List.filter_cons, hq]
  · intro E1 E2 h
    rw [snapshotLoop_eq, snapshotLoop_eq, h]
  · intro l r x hx
    have hq := qualifies_false_of_notQualifying _ _ hx
    apply hprog
    simp [List.filter_append, List.filter_cons, hq]

/-- C2 (witness): `PATH=/usr/bin` next to `ENCLAVE_API_KEY=abc123` changes nothing, and
the snapshot is `API_KEY ↦ abc123` alone. -/
theorem C2_witness :
    notQualifying enclavePrefix (bs "PATH=/usr/bin") ∧
    snapshotLoop ([bs "ENCLAVE_API_KEY=abc123"] ++ bs "PATH=/usr/bin" :: []) enclavePrefix
      = snapshotLoop ([bs "ENCLAVE_API_KEY=abc123"] ++ []) enclavePrefix ∧
    buildSnapshot ([bs "ENCLAVE_API_KEY=abc123"] ++ bs "PATH=/usr/bin" :: []) enclavePrefix
      = buildSnapshot ([bs "ENCLAVE_API_KEY=abc123"] ++ []) enclavePrefix ∧
    buildSnapshot [bs "ENCLAVE_API_KEY=abc123", bs "PATH=/usr/bin"] enclavePrefix
      = [(bs "API_KEY", bs "abc123")] :=
  ⟨Or.inr (Or.inl (by decide)),
   C2_only_qualifying_entries_matter.1 _ _ _ (Or.inr (Or.inl (by decide))),
   C2_only_qualifying_entries_matter.2.2.1 _ _ _ (Or.inr (Or.inl (by decide))),
   by decide⟩

/-- C4: when the status line (the first line of the response, as `ReadString` returns
it) does not contain `200 OK`, the fetch fails with the protocol error
"unexpected response" after the calls dial, write and one read of the status line:
no header line is read and no body is decoded, whatever follows the status line. -/
theorem C4_protocol_error (w : World) (status rest : List Nat)
    (hd : w.dialOk = true)
    (hresp : w.response = status ++ 10 :: rest) (hline : 10 ∉ status)
    (hstatus : contains (status ++ [10]) (bs "200 OK") = false) :
    (fetchEnvironment w).result = .error (.fatal .unexpectedResponse) ∧
    FatalSite.kind .unexpectedResponse = .protocolError ∧
    (fetchEnvironment w).events =
      [.dial hostCID port, .write request w.writeOk, .readStatusLine] ∧
    Event.readHeaderLine ∉ (fetchEnvironment w).events ∧
    Event.decodeBody ∉ (fetchEnvironment w).events ∧
    (2 ≤ w.args.length → (main w).outcome = .fatal .unexpectedResponse ∧
      (main w).events = [.dial hostCID port, .write request w.writeOk, .readStatusLine] ∧
      (main w).setenvs = [] ∧ (main w).execEnv = none) := by
  have hr : readString w.response 10 = some (status ++ [10], rest) := by
    rw [hresp]; exact readString_line status rest 10 hline
  have hf := fetch_bad_status w _ _ hd hr hstatus
  refine ⟨by rw [hf], rfl, by rw [hf], by rw [hf]; simp, by rw [hf]; simp, ?_⟩
  intro ha
  have hm := main_of_fetch_error w _ ha (by rw [hf])
  rw [hf] at hm
  exact ⟨hm.1, hm.2.1, hm.2.2.2.2.1, hm.2.2.2.2.2.1⟩

/-- C4 (witness): a `500` response. -/
theorem C4_witness :
    (fetchEnvironment { sampleWorld with
        response := bs "HTTP/1.1 500 Internal Server Error\r\n\r\n\x7b\x7d" }).result
      = .error (.fatal .unexpectedResponse) :=
  (C4_protocol_error { sampleWorld with
      response := bs "HTTP/1.1 500 Internal Server Error\r\n\r\n\x7b\x7d" }
    (bs "HTTP/1.1 500 Internal Server Error\r") (bs "\r\n\x7b\x7d")
    rfl (by decide) (by decide) (by decide)).1

/-- C8: with at least one trailing argument the argument vector built for the daemon
is the 11-element list `/proxy/nitriding-daemon -fqdn localhost -extport 8443 -intport 8081
-appwebsrv http://localhost:8080 -appcmd J`, `J` being the trailing arguments joined by
single spaces in their order; it is the vector every run hands to `syscall.Exec`. -/
theorem C8_daemon_argv (prog : Str) (A : List Str) (hA : A ≠ []) :
    daemonArgs (prog :: A) =
      [bs "/proxy/nitriding-daemon", bs "-fqdn", bs "localhost", bs "-extport", bs "8443",
       bs "-intport", bs "8081", bs "-appwebsrv", bs "http://localhost:8080", bs "-appcmd",
       (bs " ").intercalate A] ∧
    (daemonArgs (prog :: A)).length = 11 ∧
    (∀ w : World, w.args = prog :: A → ∀ argv, (main w).execArgs = some argv →
      argv = daemonArgs (prog :: A)) := by
  refine ⟨?_, rfl, ?_⟩
  · simp [daemonArgs, daemonCmd, join_eq_intercalate]
  · intro w hw argv hargv
    have ha : 2 ≤ w.args.length := by
      rw [hw]
      cases A with
      | nil => exact absurd rfl hA
      | cons a A => simp
    cases hres : (fetchEnvironment w).result with
    | error o =>
      have := (main_of_fetch_error w o ha hres).2.2.2.2.2.2
      rw [this] at hargv; cases hargv
    | ok S =>
      have := (main_of_fetch_ok w S ha hres).2.1
      rw [this, hw] at hargv
      exact (Option.some.inj hargv).symm

/-- C8 (witness): the trailing arguments `run worker --flag` give the `-appcmd` value
`"run worker --flag"`. -/
theorem C8_witness :
    daemonArgs (bs "boot" :: [bs "run", bs "worker", bs "--flag"]) =
      [bs "/proxy/nitriding-daemon", bs "-fqdn", bs "localhost", bs "-extport", bs "8443",
       bs "-intport", bs "8081", bs "-appwebsrv", bs "http://localhost:8080", bs "-appcmd",
       (bs " ").intercalate [bs "run", bs "worker", bs "--flag"]] ∧
    (bs " ").intercalate [bs "run", bs "worker", bs "--flag"] = bs "run worker --flag" ∧
    (main sampleWorld).execArgs =
      some [bs "/proxy/nitriding-daemon", bs "-fqdn", bs "localhost", bs "-extport", bs "8443",
       bs "-intport", bs "8081", bs "-appwebsrv", bs "http://localhost:8080", bs "-appcmd",
       bs "run worker --flag"] :=
  ⟨(C8_daemon_argv (bs "boot") [bs "run", bs "worker", bs "--flag"] (by simp)).1,
   by decide, by decide⟩

/-- C10: with fewer than two elements in `os.Args` (no trailing argument) the run ends
in the fatal usage error without any call to the outside (no dial, no write, no read,
no `os.Setenv`, no `syscall.Exec`) and with the environment untouched; with one or
more trailing arguments the usage error does not occur. -/
theorem C10_usage_error (w : World) :
    (w.args.length < 2 →
      (main w).outcome = .fatal .usage ∧ FatalSite.kind .usage = .usageError ∧
      (main w).events = [] ∧ (main w).state = .start ∧ (main w).environ = w.environ) ∧
    (2 ≤ w.args.length → (main w).outcome ≠ .fatal .usage) := by
  constructor
  · intro h
    simp [main, h, FatalSite.kind]
  · intro h
    cases hres : (fetchEnvironment w).result with
    | error o =>
      rw [(main_of_fetch_error w o h hres).1]
      intro e; subst e
      exact (fetch_result_not_usage w).1 hres
    | ok S =>
      rw [(main_of_fetch_ok w S h hres).2.2.2.2.1]
      split <;> simp

/-- C10 (witness): `boot` alone is a usage error; `boot run worker --flag` is not. -/
theorem C10_witness :
    (main { sampleWorld with args := [bs "boot"] }).outcome = .fatal .usage ∧
    (main { sampleWorld with args := [bs "boot"] }).events = [] ∧
    (main { sampleWorld with args := [] }).outcome = .fatal .usage ∧
    (main sampleWorld).outcome ≠ .fatal .usage :=
  ⟨((C10_usage_error { sampleWorld with args := [bs "boot"] }).1 (by decide)).1,
   ((C10_usage_error { sampleWorld with args := [bs "boot"] }).1 (by decide)).2.2.1,
   ((C10_usage_error { sampleWorld with args := [] }).1 (by decide)).1,
   (C10_usage_error sampleWorld).2 (by decide)⟩

/-- C9 (counterexample): the request write fails, the reads deliver a good response,
and the handoff goes on to install the environment and to replace the process: the
result of `conn.Write` is discarded. -/
theorem C9_counterexample :
    Event.write request false ∈ (main { sampleWorld with writeOk := false }).events ∧
    (main { sampleWorld with writeOk := false }).outcome = .replaced ∧
    (main { sampleWorld with writeOk := false }).state = .replaced ∧
    (main { sampleWorld with writeOk := false }).setenvs = [(bs "API_KEY", bs "abc123")] := by
  decide

/-- C9 (as amended): a failed connect, a failed read of the status line and a failed
read of a header line each end the run at once with a channel error; a body that
cannot be decoded (a failed read of the body included) ends it with the fatal decode
error; and every run that ends in a fatal error other than the one of `exec` has
reached neither EnvironmentInstalled nor Replaced, has called neither `os.Setenv`
nor `syscall.Exec`, and leaves the environment as it was.  A status line without the
success indicator ends the run with the fatal protocol error, and a failed `exec`
ends it with the fatal exec error in the state EnvironmentInstalled.  The run ends as
Replaced only when the fetch succeeded and `exec` succeeded, and the state Replaced is
reached in no other run.  (A failed request write is not looked at.) -/
theorem C9_failures_fatal (w : World) (ha : 2 ≤ w.args.length) :
    (w.dialOk = false →
      (main w).outcome = .fatal .dialVsock ∧ FatalSite.kind .dialVsock = .channelError ∧
      (main w).events = [.dial hostCID port] ∧ (main w).state = .start) ∧
    (w.dialOk = true → 10 ∉ w.response →
      (main w).outcome = .fatal .readingStatusLine ∧
      FatalSite.kind .readingStatusLine = .channelError ∧ (main w).state = .connected) ∧
    (w.dialOk = true → ∀ (status : List Nat) (lines : List (List Nat)) (tail : List Nat),
      w.response = status ++ 10 :: (headerBlock lines ++ tail) → 10 ∉ status →
      contains (status ++ [10]) (bs "200 OK") = true →
      (∀ l ∈ lines, 10 ∉ l ∧ l ≠ [13]) → 10 ∉ tail →
      (main w).outcome = .fatal .readingHeaders ∧
      FatalSite.kind .readingHeaders = .channelError ∧ (main w).state = .connected) ∧
    (w.dialOk = true → ∀ (status : List Nat) (lines : List (List Nat)) (body : List Nat)
        (e : JsonErr),
      w.response = status ++ 10 :: (headerBlock lines ++ 13 :: 10 :: body) → 10 ∉ status →
      contains (status ++ [10]) (bs "200 OK") = true →
      (∀ l ∈ lines, 10 ∉ l ∧ l ≠ [13]) →
      jsonDecode body w.ending = .error e → e ≠ .phasePanic →
      (main w).outcome = .fatal .decode ∧ (main w).state = .connected) ∧
    (∀ site, (main w).outcome = .fatal site → site ≠ .exec →
      (main w).state ≠ .environmentInstalled ∧ (main w).state ≠ .replaced ∧
      (main w).state ≠ .fetched ∧
      (main w).setenvs = [] ∧ (main w).execEnv = none ∧ (main w).environ = w.environ) ∧
    (w.dialOk = true → ∀ (status rest : List Nat),
      w.response = status ++ 10 :: rest → 10 ∉ status →
      contains (status ++ [10]) (bs "200 OK") = false →
      (main w).outcome = .fatal .unexpectedResponse ∧
      FatalSite.kind .unexpectedResponse = .protocolError ∧ (main w).state = .connected) ∧
    (∀ S : GoMap, (fetchEnvironment w).result = .ok S → w.execOk = false →
      (main w).outcome = .fatal .exec ∧ FatalSite.kind .exec = .execError ∧
      (main w).state = .environmentInstalled) ∧
    ((main w).outcome = .replaced ↔
      (∃ S : GoMap, (fetchEnvironment w).result = .ok S) ∧ w.execOk = true) ∧
    ((main w).state = .replaced ↔ (main w).outcome = .replaced) := by
  have hcases : (∃ o, (fetchEnvironment w).result = .error o ∧ o ≠ .replaced ∧
        (main w).outcome = o ∧ (main w).state ≠ .replaced) ∨
      (∃ S : GoMap, (fetchEnvironment w).result = .ok S ∧
        (main w).outcome = (if w.execOk then .replaced else .fatal .exec) ∧
        (main w).state = (if w.execOk then .replaced else .environmentInstalled)) := by
    cases hres : (fetchEnvironment w).result with
    | error o =>
      left
      have hm := main_of_fetch_error w o ha hres
      have hs := fetch_state_of_error w o hres
      rw [← hm.2.2.1] at hs
      refine ⟨o, rfl, ?_, hm.1, ?_⟩
      · rcases fetch_cases w with h1 | ⟨n, site, _, h1⟩ | ⟨n, body, h1⟩
        · rw [h1] at hres; cases hres; simp
        · rw [h1] at hres; cases hres; simp
        · rw [h1] at hres
          rcases decodeResult_cases (jsonDecode body w.ending) with
            ⟨env, _, h2⟩ | ⟨_, h2⟩ | ⟨e, _, _, h2⟩
          · rw [h2] at hres; cases hres
          · rw [h2] at hres; cases hres; simp
          · rw [h2] at hres; cases hres; simp
      · rcases hs with hs | hs <;> rw [hs] <;> simp
    | ok S =>
      right
      have hm := main_of_fetch_ok w S ha hres
      exact ⟨S, rfl, hm.2.2.2.2.1, hm.2.2.2.2.2⟩
  refine ⟨?_, ?_, ?_, ?_, ?_, ?_, ?_, ?_, ?_⟩
  · intro hd
    have hf := fetch_dial_fail w hd
    have hm := main_of_fetch_error w _ ha (by rw [hf])
    rw [hf] at hm
    exact ⟨hm.1, rfl, hm.2.1, hm.2.2.1⟩
  · intro hd hn
    have hf := fetch_status_read_fail w hd (readString_of_not_mem _ _ hn)
    have hm := main_of_fetch_error w _ ha (by rw [hf])
    rw [hf] at hm
    exact ⟨hm.1, rfl, hm.2.2.1⟩
  · intro hd status lines tail hresp hst hc hl ht
    have hr : readString w.response 10 = some (status ++ [10], headerBlock lines ++ tail) := by
      rw [hresp]; exact readString_line status _ 10 hst
    have hh := skipHeaders_no_separator lines tail ((headerBlock lines ++ tail).length + 1) hl ht
      (by have := headerBlock_length lines; simp only [List.length_append]; omega)
    have hf := fetch_headers_fail w _ _ _ hd hr hc hh
    have hm := main_of_fetch_error w _ ha (by rw [hf])
    rw [hf] at hm
    exact ⟨hm.1, rfl, hm.2.2.1⟩
  · intro hd status lines body e hresp hst hc hl hj he
    have hr : readString w.response 10 =
        some (status ++ [10], headerBlock lines ++ 13 :: 10 :: body) := by
      rw [hresp]; exact readString_line status _ 10 hst
    have hh := skipHeaders_block lines body ((headerBlock lines ++ 13 :: 10 :: body).length + 1) hl
      (by have := headerBlock_length lines; simp only [List.length_append]; omega)
    have hf := fetch_decoded w _ _ _ _ hd hr hc hh
    have hdr : decodeResult (jsonDecode body w.ending) = (.connected, .error (.fatal .decode)) := by
      rw [hj]; cases e <;> first | rfl | exact absurd rfl he
    rw [hdr] at hf
    have hm := main_of_fetch_error w _ ha (by rw [hf])
    rw [hf] at hm
    exact ⟨hm.1, hm.2.2.1⟩
  · intro site hout hsite
    cases hres : (fetchEnvironment w).result with
    | error o =>
      have hm := main_of_fetch_error w o ha hres
      have hs := fetch_state_of_error w o hres
      rw [← hm.2.2.1] at hs
      refine ⟨?_, ?_, ?_, hm.2.2.2.2.1, hm.2.2.2.2.2.1, hm.2.2.2.1⟩ <;>
        rcases hs with hs | hs <;> rw [hs] <;> simp
    | ok S =>
      have hm := (main_of_fetch_ok w S ha hres).2.2.2.2.1
      rw [hm] at hout
      cases hx : w.execOk
      · simp [hx] at hout; exact absurd hout.symm hsite
      · simp [hx] at hout
  · intro hd status rest hresp hst hc
    have hr : readString w.response 10 = some (status ++ [10], rest) := by
      rw [hresp]; exact readString_line status _ 10 hst
    have hf := fetch_bad_status w _ _ hd hr hc
    have hm := main_of_fetch_error w _ ha (by rw [hf])
    rw [hf] at hm
    exact ⟨hm.1, rfl, hm.2.2.1⟩
  · intro S hres hx
    have hm := main_of_fetch_ok w S ha hres
    rw [hx] at hm
    exact ⟨hm.2.2.2.2.1, rfl, hm.2.2.2.2.2⟩
  · rcases hcases with ⟨o, hres, hne, hout, _⟩ | ⟨S, hres, hout, _⟩
    · rw [hout, hres]
      constructor
      · intro h; exact absurd h hne
      · rintro ⟨⟨S, hS⟩, _⟩; cases hS
    · rw [hout, hres]
      cases hx : w.execOk
      · simp
      · simp
  · rcases hcases with ⟨o, hres, hne, hout, hst⟩ | ⟨S, hres, hout, hst⟩
    · rw [hout]
      constructor
      · intro h; exact absurd h hst
      · intro h; exact absurd h hne
    · rw [hout, hst]
      cases hx : w.execOk
      · simp
      · simp

/-- C9 (witness): a refused connection, a stream that ends inside the headers, a
status line `500`, and a failed `exec`. -/
theorem C9_witness :
    (main { sampleWorld with dialOk := false }).outcome = .fatal .dialVsock ∧
    (main { sampleWorld with response := bs "HTTP/1.1 200 OK\r\nContent-Type: te" }).outcome
      = .fatal .readingHeaders ∧
    (main { sampleWorld with response := bs "HTTP/1.1 500 Internal Server Error\r\n\r\n" }).outcome
      = .fatal .unexpectedResponse ∧
    (main { sampleWorld with execOk := false }).outcome = .fatal .exec ∧
    (main { sampleWorld with execOk := false }).state = .environmentInstalled :=
  ⟨((C9_failures_fatal { sampleWorld with dialOk := false } (by decide)).1 rfl).1,
   ((C9_failures_fatal { sampleWorld with response := bs "HTTP/1.1 200 OK\r\nContent-Type: te" }
      (by decide)).2.2.1 rfl (bs "HTTP/1.1 200 OK\r") [] (bs "Content-Type: te")
      (by decide) (by decide) (by decide) (by simp) (by decide)).1,
   ((C9_failures_fatal
      { sampleWorld with response := bs "HTTP/1.1 500 Internal Server Error\r\n\r\n" }
      (by decide)).2.2.2.2.2.1 rfl (bs "HTTP/1.1 500 Internal Server Error\r") (bs "\r\n")
      (by decide) (by decide) (by decide)).1,
   ((C9_failures_fatal { sampleWorld with execOk := false } (by decide)).2.2.2.2.2.2.1
      [(bs "API_KEY", bs "abc123")] rfl rfl).1,
   ((C9_failures_fatal { sampleWorld with execOk := false } (by decide)).2.2.2.2.2.2.1
      [(bs "API_KEY", bs "abc123")] rfl rfl).2.2⟩

/-- C7 (counterexample): the decoded snapshot maps the key `A=B` to `c`; `os.Setenv`
rejects the key, its error is not looked at, and the environment handed to the
daemon has no value for the key `A=B`. -/
theorem C7_counterexample :
    (fetchEnvironment badKeyWorld).result = .ok [(bs "A=B", bs "c")] ∧
    GoMap.get [(bs "A=B", bs "c")] (bs "A=B") = some (bs "c") ∧
    setenv (copyenv badKeyWorld.environ) (bs "A=B") (bs "c") = none ∧
    (main badKeyWorld).execEnv = some [bs "PATH=/usr/bin", bs "API_KEY=old"] ∧
    lookupEnv [bs "PATH=/usr/bin", bs "API_KEY=old"] (bs "A=B") = none ∧
    (main badKeyWorld).outcome = .replaced :=
  ⟨rfl, by decide, by decide, by decide, by decide, by decide⟩

/-- C7 (as amended): when every key of the decoded snapshot `S` is not empty and has
no `=` and no NUL byte, and every value has no NUL byte, the environment handed to
the daemon is the prior environment `P` overridden by `S`: every key of `S` has the
value `S` gives it, and every key not in `S` has the value, or the absence, it has in
`P`; this for every order in which `range` visits the snapshot. -/
theorem C7_environment_override (w : World) (S : GoMap) (ha : 2 ≤ w.args.length)
    (hS : (fetchEnvironment w).result = .ok S)
    (hrange : (w.rangeOrder S).Perm S)
    (hvalid : ∀ k v, (k, v) ∈ S → setenvAccepts k v) :
    ∃ E, (main w).execEnv = some E ∧
      (∀ k v, GoMap.get S k = some v → lookupEnv E k = some v) ∧
      (∀ k, GoMap.get S k = none → lookupEnv E k = lookupEnv w.environ k) := by
  obtain ⟨body, hbody⟩ := fetch_ok_decoded w S hS
  have hnd := jsonDecode_nodup body w.ending S hbody
  have hm := (main_of_fetch_ok w S ha hS).1
  have hl := lookupEnv_install_perm S (w.rangeOrder S) (copyenv w.environ) hrange hnd
    (fun p hp => hvalid p.1 p.2 hp)
  refine ⟨_, hm, ?_, ?_⟩
  · intro k v hget
    rw [lookupEnv_osEnviron]
    exact hl.1 k v hget
  · intro k hget
    rw [lookupEnv_osEnviron, hl.2 k hget, lookupEnv_copyenv]

/-- C7 (witness): `API_KEY=abc123` replaces `API_KEY=old`, `PATH` stays. -/
theorem C7_witness :
    ∃ E, (main sampleWorld).execEnv = some E ∧
      (∀ k v, GoMap.get [(bs "API_KEY", bs "abc123")] k = some v → lookupEnv E k = some v) ∧
      (∀ k, GoMap.get [(bs "API_KEY", bs "abc123")] k = none →
        lookupEnv E k = lookupEnv sampleWorld.environ k) :=
  C7_environment_override sampleWorld [(bs "API_KEY", bs "abc123")] (by decide) rfl
    (List.Perm.refl _)
    (by
      intro k v h
      simp only [List.mem_singleton, Prod.mk.injEq] at h
      obtain ⟨rfl, rfl⟩ := h
      refine ⟨by decide, by decide, by decide, by decide⟩)

/-- C5 (counterexample): the body `{"A":"1"}x` is not well-formed JSON, yet `Decode`
reads the object it starts with and stops there: the fetch succeeds, `A=1` is
installed and the daemon is launched. -/
theorem C5_counterexample :
    jsonValid (bs "\x7b\"A\":\"1\"\x7dx") = false ∧
    (fetchEnvironment trailingGarbageWorld).result = .ok [(bs "A", bs "1")] ∧
    (main trailingGarbageWorld).setenvs = [(bs "A", bs "1")] ∧
    (main trailingGarbageWorld).outcome = .replaced :=
  ⟨by decide, rfl, by decide, by decide⟩

/-- C5 (as amended): for a response with a success status line and a terminated header
block whose body has no leading part that is well-formed JSON (`json.Valid` holds for
no prefix of the body), the fetch fails with the decode error; no `os.Setenv` and no
`syscall.Exec` is called, and the process environment is as before. -/
theorem C5_decode_error (w : World) (status : List Nat) (lines : List (List Nat))
    (body : List Nat) (ha : 2 ≤ w.args.length) (hd : w.dialOk = true)
    (hresp : w.response = status ++ 10 :: (headerBlock lines ++ 13 :: 10 :: body))
    (hst : 10 ∉ status) (hc : contains (status ++ [10]) (bs "200 OK") = true)
    (hl : ∀ l ∈ lines, 10 ∉ l ∧ l ≠ [13])
    (hbody : ∀ n, jsonValid (body.take n) = false) :
    (fetchEnvironment w).result = .error (.fatal .decode) ∧
    FatalSite.kind .decode = .decodeError ∧
    (main w).outcome = .fatal .decode ∧
    (main w).setenvs = [] ∧ (main w).execEnv = none ∧
    (main w).environ = w.environ ∧ (main w).state = .connected := by
  obtain ⟨e, he, hne⟩ := jsonDecode_error_of_no_valid_prefix body w.ending hbody
  have hr : readString w.response 10 =
      some (status ++ [10], headerBlock lines ++ 13 :: 10 :: body) := by
    rw [hresp]; exact readString_line status _ 10 hst
  have hh := skipHeaders_block lines body ((headerBlock lines ++ 13 :: 10 :: body).length + 1) hl
    (by have := headerBlock_length lines; simp only [List.length_append]; omega)
  have hf := fetch_decoded w _ _ _ _ hd hr hc hh
  have hdr : decodeResult (jsonDecode body w.ending) = (.connected, .error (.fatal .decode)) := by
    rw [he]; cases e <;> first | rfl | exact absurd rfl hne
  rw [hdr] at hf
  have hm := main_of_fetch_error w _ ha (by rw [hf])
  rw [hf] at hm
  exact ⟨by rw [hf], rfl, hm.1, hm.2.2.2.2.1, hm.2.2.2.2.2.1, hm.2.2.2.1, hm.2.2.1⟩

theorem take_of_length_le_five (n : Nat) (l : List Nat) (h : l.length ≤ 5) :
    l.take n = l.take (min n 5) := by
  by_cases hn : n ≤ 5
  · rw [Nat.min_eq_left hn]
  · rw [Nat.min_eq_right (by omega), List.take_of_length_le (by omega),
      List.take_of_length_le h]

/-- C5 (witness): the body `{"A":` is cut short; the environment stays as it was. -/
theorem C5_witness :
    (main { sampleWorld with response := bs "HTTP/1.1 200 OK\r\n\r\n\x7b\"A\":" }).outcome
      = .fatal .decode ∧
    (main { sampleWorld with response := bs "HTTP/1.1 200 OK\r\n\r\n\x7b\"A\":" }).environ
      = [bs "PATH=/usr/bin", bs "API_KEY=old"] :=
  have h := C5_decode_error
    { sampleWorld with response := bs "HTTP/1.1 200 OK\r\n\r\n\x7b\"A\":" }
    (bs "HTTP/1.1 200 OK\r") [] (bs "\x7b\"A\":") (by decide) rfl (by decide) (by decide)
    (by decide) (by simp)
    (by
      intro n
      rw [take_of_length_le_five n _ (by decide)]
      have : min n 5 ≤ 5 := Nat.min_le_right _ _
      generalize min n 5 = k at this
      interval_cases k <;> decide)
  ⟨h.2.2.1, h.2.2.2.2.2.1⟩

/-- A literal of unescaped printable ASCII characters other than the quotation mark and
the backslash is made of valid items. -/
theorem plainItems_valid (s : Str) (h : ∀ c ∈ s, 0x20 ≤ c ∧ c < 0x80 ∧ c ≠ 34 ∧ c ≠ 92) :
    ∀ i ∈ plainItems s, i.valid := by
  intro i hi
  simp only [plainItems, List.mem_map] at hi
  obtain ⟨c, hc, rfl⟩ := hi
  have := h c hc
  simp only [StrItem.valid, isScalar]
  omega

/-- C6: for a response made of a success status line, header lines (any lines other
than the empty line `\r\n`), the empty line `\r\n`, and a body that starts with the
text of a JSON object of strings (RFC 8259: UTF-8 text, white space, members
`"key" : "value"` with any of the escapes, no lone surrogate), the fetch succeeds and
returns the mapping the body stands for, where of members with the same key the last
one counts.  The header lines are read and dropped: the result is a function of the
members alone, and decoding starts at the first byte after the first empty line. -/
theorem C6_fetch_returns_body_mapping (w : World) (status : List Nat)
    (lines : List (List Nat)) (ws0 wsE : List Nat) (members : List Member) (trail : List Nat)
    (hd : w.dialOk = true)
    (hresp : w.response = status ++ 10 :: (headerBlock lines ++ 13 :: 10 ::
      (renderObject ws0 wsE members ++ trail)))
    (hst : 10 ∉ status) (hc : contains (status ++ [10]) (bs "200 OK") = true)
    (hl : ∀ l ∈ lines, 10 ∉ l ∧ l ≠ [13])
    (h0 : isWhitespace ws0) (hE : isWhitespace wsE) (hm : ∀ m ∈ members, m.valid) :
    (fetchEnvironment w).result = .ok (objectMap members) ∧
    (fetchEnvironment w).state = .fetched ∧
    (fetchEnvironment w).events =
      [.dial hostCID port, .write request w.writeOk, .readStatusLine] ++
        List.replicate (lines.length + 1) Event.readHeaderLine ++ [.decodeBody] ∧
    skipHeaders ((headerBlock lines ++ 13 :: 10 :: (renderObject ws0 wsE members ++ trail)).length + 1)
        (headerBlock lines ++ 13 :: 10 :: (renderObject ws0 wsE members ++ trail)) =
      (lines.length + 1, some (renderObject ws0 wsE members ++ trail)) ∧
    (∀ k v, (objectMap members).get k = some v ↔
      ∃ l r, members.map Member.pair = l ++ (k, v) :: r ∧ ∀ p ∈ r, p.1 ≠ k) := by
  have hr : readString w.response 10 = some (status ++ [10],
      headerBlock lines ++ 13 :: 10 :: (renderObject ws0 wsE members ++ trail)) := by
    rw [hresp]; exact readString_line status _ 10 hst
  have hh := skipHeaders_block lines (renderObject ws0 wsE members ++ trail)
    ((headerBlock lines ++ 13 :: 10 :: (renderObject ws0 wsE members ++ trail)).length + 1) hl
    (by have := headerBlock_length lines; simp only [List.length_append]; omega)
  have hf := fetch_decoded w _ _ _ _ hd hr hc hh
  rw [jsonDecode_object ws0 wsE members trail w.ending h0 hE hm] at hf
  refine ⟨by rw [hf]; rfl, by rw [hf]; rfl, by rw [hf], hh, ?_⟩
  intro k v
  rw [objectMap, GoMap.get_foldl_set]
  constructor
  · rintro (h | ⟨_, h⟩)
    · exact h
    · simp [GoMap.get] at h
  · exact Or.inl

/-- C6 (witness): the sample response, with two header lines, yields the mapping of
`API_KEY` to `abc123`. -/
theorem C6_witness :
    (fetchEnvironment sampleWorld).result = .ok (objectMap [sampleMember]) ∧
    objectMap [sampleMember] = [(bs "API_KEY", bs "abc123")] :=
  ⟨(C6_fetch_returns_body_mapping sampleWorld (bs "HTTP/1.1 200 OK\r")
      [bs "Content-Type: text/plain\r", bs "Content-Length: 21\r"] [] [] [sampleMember] [10]
      rfl rfl (by decide) (by decide) (by decide) (by simp [isWhitespace])
      (by simp [isWhitespace])
      (by
        intro m hm
        rw [List.mem_singleton] at hm
        subst hm
        refine ⟨by simp [isWhitespace, sampleMember], by simp [isWhitespace, sampleMember],
          by simp [isWhitespace, sampleMember], by simp [isWhitespace, sampleMember], ?_, ?_⟩
        · exact plainItems_valid _ (by decide)
        · exact plainItems_valid _ (by decide))).1,
    by decide⟩

/-- C3 (counterexample): the host entry `ENCLAVE_A=\xff` gives the snapshot that maps
`A` to the single byte 0xFF, which is not valid UTF-8; `Encode` writes the escape
`\ufffd` for that byte, and `Decode` yields the three bytes of U+FFFD: the decoded
mapping differs from the snapshot at the key `A`. -/
theorem C3_counterexample :
    buildSnapshot [bs "ENCLAVE_A=" ++ [255]] enclavePrefix = [(bs "A", [255])] ∧
    jsonEncode [(bs "A", [255])] = bs "\x7b\"A\":\"\\ufffd\"\x7d\n" ∧
    jsonDecode (jsonEncode [(bs "A", [255])]) .eof = .ok [(bs "A", [239, 191, 189])] ∧
    GoMap.get [(bs "A", [239, 191, 189])] (bs "A") ≠ GoMap.get [(bs "A", [255])] (bs "A") :=
  ⟨by decide, by decide, rfl, by decide⟩

/-- C3 (as amended): for every snapshot whose keys and values are valid UTF-8 (the keys
distinct, as the keys of a Go map are), the body `Encode` writes is decoded by `Decode`
into a map with the same pairs: it has the same value, or the same absence, for every
key, and it is the snapshot with its pairs in the order of the sorted keys. -/
theorem C3_round_trip (m : GoMap) (ending : ReadEnd) (hk : m.keys.Nodup)
    (hu : ∀ p ∈ m, validUTF8 p.1 ∧ validUTF8 p.2) :
    ∃ m2 : GoMap, jsonDecode (jsonEncode m) ending = .ok m2 ∧
      (∀ k, m2.get k = m.get k) ∧ m2.keys.Nodup ∧
      m2 = m.insertionSort (fun a b => strLE a.1 b.1) ∧ m2.Perm m := by
  obtain ⟨ms, hv, he, hp⟩ := jsonEncode_object m hu
  have hperm := List.perm_insertionSort (fun a b : Str × Str => strLE a.1 b.1) m
  have hks : ((m.insertionSort (fun a b => strLE a.1 b.1)).map Prod.fst).Nodup :=
    (hperm.map Prod.fst).nodup_iff.2 hk
  have hd : jsonDecode (jsonEncode m) ending = .ok (objectMap ms) := by
    rw [he]
    exact jsonDecode_object [] [] ms [10] ending (by simp [isWhitespace])
      (by simp [isWhitespace]) hv
  have heq : objectMap ms = m.insertionSort (fun a b => strLE a.1 b.1) := by
    rw [objectMap, hp, foldl_set_append _ [] (by simpa [GoMap.keys] using hks)]
    rfl
  refine ⟨objectMap ms, hd, ?_, ?_, heq, ?_⟩
  · intro k
    rw [heq]
    exact get_perm _ m hperm hk k
  · rw [heq]; exact hks
  · rw [heq]; exact hperm

/-- C3 (witness): the snapshot of the sample, `API_KEY` mapped to `abc123`, comes back
from the round trip. -/
theorem C3_witness :
    ∃ m2 : GoMap, jsonDecode (jsonEncode [(bs "API_KEY", bs "abc123")]) .eof = .ok m2 ∧
      (∀ k, m2.get k = GoMap.get [(bs "API_KEY", bs "abc123")] k) ∧ m2.keys.Nodup ∧
      m2 = List.insertionSort (fun a b => strLE a.1 b.1) [(bs "API_KEY", bs "abc123")] ∧
      m2.Perm [(bs "API_KEY", bs "abc123")] :=
  C3_round_trip [(bs "API_KEY", bs "abc123")] .eof (by decide)
    (by
      intro p hp
      rw [List.mem_singleton] at hp
      subst hp
      exact ⟨validUTF8_ascii _ (by decide), validUTF8_ascii _ (by decide)⟩)

end PrivacyKit
